import Mathlib

/-!
# MonitorFilterBit: ancestry walk and track pairing

A shallow embedding of `CheckFilterBit::isFromStrangeDecay` and
`CheckFilterBit::processPair` from `DPG/Tasks/AOTTrack/MonitorFilterBit.cxx`.

Conventions of the embedding.

* Tables are lists of rows; a positional lookup outside a table has no defined
  behaviour in the source and is `none` here.
* `int`, `int64_t` indices and species codes are `Int`: the source only subtracts
  the table offset from an index, increments `iMother` up to the end of a mother
  range and takes `std::abs` of a species code, none of which leaves the machine
  range for table positions and species codes. `float` columns are `ℚ` (the
  pairing code only copies such a value or flips its sign, both exact).
* Loops are recursive functions over the sequence they iterate, threading the
  mutable locals of the source as explicit state.
-/

namespace MonitorFilterBit

/-! ## Data model -/

/-- A row of `aod::McParticles`, with the columns the task reads. `mothersIds` is
the self-index array column: empty when the particle has no mothers. -/
structure McParticle where
  pdgCode : Int
  mothersIds : List Int
  mcCollisionId : Int
  isPhysicalPrimary : Bool
  pt : ℚ
  deriving DecidableEq, Repr

/-- The particle table handed to `isFromStrangeDecay`: its rows and the offset of
the first row in the global index space (`particlesMC.offset()`). -/
structure McParticles where
  offset : Int
  rows : List McParticle
  deriving DecidableEq, Repr

/-- `particlesMC.rawIteratorAt(i)`: the row at position `i`; no row when `i` is not
a position of the table. -/
def McParticles.rawIteratorAt (particlesMC : McParticles) (i : Int) : Option McParticle :=
  if 0 ≤ i then particlesMC.rows.get? i.toNat else none

/-- `particle.has_mothers()`: the mother index array is not empty. -/
def McParticle.has_mothers (p : McParticle) : Bool :=
  !p.mothersIds.isEmpty

/-- The values taken by `iMother` in
`for (iMother = mothersIds().front(); iMother <= mothersIds().back(); ++iMother)`. -/
def McParticle.motherRange (p : McParticle) : List Int :=
  match p.mothersIds.head?, p.mothersIds.getLast? with
  | some front, some back => (List.range (back - front + 1).toNat).map (fun (k : Nat) => front + Int.ofNat k)
  | _, _ => []

/-- The test applied to `motherPDG = std::abs(mother.pdgCode())`:
`motherPDG / 1000 == 3`, else `motherPDG / 1000 == 0 && motherPDG / 100 == 3`. -/
def isStrangePDG (pdgCode : Int) : Bool :=
  let motherPDG : Int := pdgCode.natAbs
  if motherPDG / 1000 = 3 then true
  else if motherPDG / 1000 = 0 ∧ motherPDG / 100 = 3 then true
  else false

/-! ## `isFromStrangeDecay` -/

/-- One positional lookup of the walk (ghost trace, not a variable of the source):
`member i` is `rawIteratorAt(iPart - offset)` for a member `iPart = i` of the current
stage, `mother i` is `rawIteratorAt(iMother - offset)` followed by the species test. -/
inductive Access where
  | member (i : Int)
  | mother (i : Int)
  deriving DecidableEq, Repr

/-- The locals of `isFromStrangeDecay`, with the ghost trace of lookups. -/
structure WalkState where
  arrayIds : List (List Int)
  arrayIdsStage : List Int
  strangeness : Int
  trace : List Access
  deriving DecidableEq, Repr

/-- The loop over `iMother` for one member of the stage. A mother already in
`arrayIdsStage` is skipped (`continue`); a strange mother sets `strangeness = 1` and
leaves this loop (`break`); any other mother is appended to `arrayIdsStage`. -/
def motherLoop (particlesMC : McParticles) : List Int → WalkState → Option WalkState
  | [], st => some st
  | iMother :: rest, st =>
    if iMother ∈ st.arrayIdsStage then motherLoop particlesMC rest st
    else
      match particlesMC.rawIteratorAt (iMother - particlesMC.offset) with
      | none => none
      | some mother =>
        let st1 := { st with trace := st.trace ++ [Access.mother iMother] }
        if isStrangePDG mother.pdgCode then some { st1 with strangeness := 1 }
        else motherLoop particlesMC rest { st1 with arrayIdsStage := st1.arrayIdsStage ++ [iMother] }

/-- The loop `for (auto& iPart : arrayIds[stage])`. After each member, the current
`arrayIdsStage` is appended to `arrayIds` (the `push_back` is inside this loop). -/
def memberLoop (particlesMC : McParticles) : List Int → WalkState → Option WalkState
  | [], st => some st
  | iPart :: rest, st =>
    match particlesMC.rawIteratorAt (iPart - particlesMC.offset) with
    | none => none
    | some particleMother =>
      let st1 := { st with trace := st.trace ++ [Access.member iPart] }
      let afterMothers :=
        if particleMother.has_mothers then motherLoop particlesMC particleMother.motherRange st1
        else some st1
      match afterMothers with
      | none => none
      | some st2 => memberLoop particlesMC rest { st2 with arrayIds := st2.arrayIds ++ [st2.arrayIdsStage] }

/-- What `isFromStrangeDecay` holds when its `while` loop is left. -/
structure WalkResult where
  stage : Nat
  arrayIds : List (List Int)
  strangeness : Int
  trace : List Access
  deriving DecidableEq, Repr

/-- The loop `while (stage < 4 && arrayIds[stage].size() > 0 && strangeness == 0)`.
The first argument is `4 - stage`, the number of values `stage` can still take
before `stage < 4` fails; `arrayIds[stage]` outside `arrayIds` gives `none`. -/
def whileLoop (particlesMC : McParticles) : Nat → WalkState → Option WalkResult
  | 0, st => some ⟨4, st.arrayIds, st.strangeness, st.trace⟩
  | todo + 1, st =>
    let stage := 4 - (todo + 1)
    match st.arrayIds.get? stage with
    | none => none
    | some current =>
      if current.length > 0 ∧ st.strangeness = 0 then
        match memberLoop particlesMC current { st with arrayIdsStage := [] } with
        | none => none
        | some st1 => whileLoop particlesMC todo st1
      else some ⟨stage, st.arrayIds, st.strangeness, st.trace⟩

/-- The body of `isFromStrangeDecay` up to its `return`; `particle` is the global
index of the iterator passed in, the only thing the function reads from it. -/
def isFromStrangeDecayRun (particlesMC : McParticles) (particle : Int) : Option WalkResult :=
  whileLoop particlesMC 4 { arrayIds := [[particle]], arrayIdsStage := [], strangeness := 0, trace := [] }

/-- `CheckFilterBit::isFromStrangeDecay`: the returned `strangeness`. -/
def isFromStrangeDecay (particlesMC : McParticles) (particle : Int) : Option Int :=
  (isFromStrangeDecayRun particlesMC particle).map (fun r => r.strangeness)

/-! ## The walk in the spec's words -/

/-- Following the spec's words: the mothers of the particle with global index `i`,
every index of its mother-index range. -/
def specMothers (particlesMC : McParticles) (i : Int) : List Int :=
  match particlesMC.rawIteratorAt (i - particlesMC.offset) with
  | some row => row.motherRange
  | none => []

/-- Following the spec's words: the particle with global index `i` has a strange
species code. -/
def specIsStrange (particlesMC : McParticles) (i : Int) : Bool :=
  match particlesMC.rawIteratorAt (i - particlesMC.offset) with
  | some row => isStrangePDG row.pdgCode
  | none => false

/-- Following the spec's words: generation 0 is the particle itself, generation
`g + 1` holds all mothers of all non-strange members of generation `g`. -/
def specGeneration (particlesMC : McParticles) (particle : Int) : Nat → List Int
  | 0 => [particle]
  | g + 1 =>
    (((specGeneration particlesMC particle g).filter
      (fun i => !specIsStrange particlesMC i)).map (specMothers particlesMC)).flatten

/-- Following the spec's words: some ancestor in generation 1, 2, 3 or 4 has a
strange species code. -/
def specFromStrangeDecay (particlesMC : McParticles) (particle : Int) : Bool :=
  [1, 2, 3, 4].any (fun g => (specGeneration particlesMC particle g).any (specIsStrange particlesMC))

/-! ## `processPair` -/

/-- A row of the joined track table, with the columns `processPair` and the
partitions read. -/
structure Track where
  pt : ℚ
  eta : ℚ
  phi : ℚ
  signed1Pt : ℚ
  itsNCls : Nat
  tpcNClsFound : Int
  tpcNClsFindable : Nat
  itsChi2NCl : ℚ
  tpcChi2NCl : ℚ
  mcParticleId : Int
  deriving DecidableEq, Repr

/-- The collision row: `collision.mcCollisionId()`. -/
structure Collision where
  mcCollisionId : Int
  deriving DecidableEq, Repr

/-- A row of `TrackPairForEffPP/NN/PN/NP`, columns in the order of
`DECLARE_SOA_TABLE`. -/
structure PairRecord where
  ptTPCtr : ℚ
  etaTPCtr : ℚ
  phiTPCtr : ℚ
  ptITStr : ℚ
  etaITStr : ℚ
  phiITStr : ℚ
  nClustITS : Nat
  nClustTPC : Int
  mcPtIfisSamePart : ℚ
  deriving DecidableEq, Repr

/-- The index column `mcParticleId` bound to the particle table, taken as a
parameter since the binding is framework code: `none` when `track.has_mcParticle()`
is false, else the row returned by `track.mcParticle()`. -/
abbrev McBinding := Int → Option McParticle

/-- Modelled from the spec: `combinations(soa::CombinationsFullIndexPolicy(t0, t1))`,
framework code absent from the file, is "the full cross-product (not matched 1:1)"
of the two subsets: each row of the first with each row of the second, the second
position running fastest. -/
def combinationsFullIndex {α β : Type} : List α → List β → List (α × β)
  | [], _ => []
  | a :: rest, t1 => t1.map (fun b => (a, b)) ++ combinationsFullIndex rest t1

/-- The local `issamemcpt`, the rows written to the four output tables by this
call, and the lines printed. -/
structure PairState where
  issamemcpt : ℚ
  trackPairForEffTablePP : List PairRecord
  trackPairForEffTableNN : List PairRecord
  trackPairForEffTableNP : List PairRecord
  trackPairForEffTablePN : List PairRecord
  printed : List String
  deriving DecidableEq, Repr

/-- Body of the first loop (positive ITS-only with positive TPC-only). -/
def loopBodyPP (IS_MC : Bool) (mcParticle : McBinding) (collision : Collision)
    (st : PairState) (pair : Track × Track) : PairState :=
  let track0 := pair.1
  let track1 := pair.2
  let st := { st with issamemcpt := -9999 }
  let st :=
    if IS_MC then
      if track0.mcParticleId = track1.mcParticleId then
        match mcParticle track0.mcParticleId with
        | some mcparticle =>
          let mcCollID_recoColl := collision.mcCollisionId
          let mcCollID_particle := mcparticle.mcCollisionId
          let indexMatchOK : Bool := mcCollID_recoColl == mcCollID_particle
          let partpdg : Int := mcparticle.pdgCode.natAbs
          if indexMatchOK && mcparticle.isPhysicalPrimary &&
              (partpdg == 211 || partpdg == 321 || partpdg == 2212 || partpdg == 11 || partpdg == 13) then
            { st with issamemcpt := mcparticle.pt }
          else { st with issamemcpt := -mcparticle.pt }
        | none => { st with printed := st.printed ++ ["track MC matched but not has_mcParticle"] }
      else st
    else st
  { st with trackPairForEffTablePP := st.trackPairForEffTablePP ++
      [⟨track1.pt, track1.eta, track1.phi, track0.pt, track0.eta, track0.phi,
        track0.itsNCls, track1.tpcNClsFound, st.issamemcpt⟩] }

/-- Body of the second loop (negative ITS-only with negative TPC-only). -/
def loopBodyNN (IS_MC : Bool) (mcParticle : McBinding) (collision : Collision)
    (st : PairState) (pair : Track × Track) : PairState :=
  let track0 := pair.1
  let track1 := pair.2
  let st := { st with issamemcpt := -9999 }
  let st :=
    if IS_MC then
      if track0.mcParticleId = track1.mcParticleId then
        match mcParticle track0.mcParticleId with
        | some mcparticle =>
          let mcCollID_recoColl := collision.mcCollisionId
          let mcCollID_particle := mcparticle.mcCollisionId
          let indexMatchOK : Bool := mcCollID_recoColl == mcCollID_particle
          let partpdg : Int := mcparticle.pdgCode.natAbs
          if indexMatchOK && mcparticle.isPhysicalPrimary &&
              (partpdg == 211 || partpdg == 321 || partpdg == 2212 || partpdg == 11 || partpdg == 13) then
            { st with issamemcpt := mcparticle.pt }
          else { st with issamemcpt := -mcparticle.pt }
        | none => st
      else st
    else st
  { st with trackPairForEffTableNN := st.trackPairForEffTableNN ++
      [⟨track1.pt, track1.eta, track1.phi, track0.pt, track0.eta, track0.phi,
        track0.itsNCls, track1.tpcNClsFound, st.issamemcpt⟩] }

/-- Body of the third loop (negative ITS-only with positive TPC-only). -/
def loopBodyNP (IS_MC : Bool) (mcParticle : McBinding) (collision : Collision)
    (st : PairState) (pair : Track × Track) : PairState :=
  let track0 := pair.1
  let track1 := pair.2
  let st := { st with issamemcpt := -9999 }
  let st :=
    if IS_MC then
      if track0.mcParticleId = track1.mcParticleId then
        match mcParticle track0.mcParticleId with
        | some mcparticle =>
          let mcCollID_recoColl := collision.mcCollisionId
          let mcCollID_particle := mcparticle.mcCollisionId
          let indexMatchOK : Bool := mcCollID_recoColl == mcCollID_particle
          let partpdg : Int := mcparticle.pdgCode.natAbs
          if indexMatchOK && mcparticle.isPhysicalPrimary &&
              (partpdg == 211 || partpdg == 321 || partpdg == 2212 || partpdg == 11 || partpdg == 13) then
            { st with issamemcpt := mcparticle.pt }
          else { st with issamemcpt := -mcparticle.pt }
        | none => st
      else st
    else st
  { st with trackPairForEffTableNP := st.trackPairForEffTableNP ++
      [⟨track1.pt, track1.eta, track1.phi, track0.pt, track0.eta, track0.phi,
        track0.itsNCls, track1.tpcNClsFound, st.issamemcpt⟩] }

/-- Body of the fourth loop (positive ITS-only with negative TPC-only). -/
def loopBodyPN (IS_MC : Bool) (mcParticle : McBinding) (collision : Collision)
    (st : PairState) (pair : Track × Track) : PairState :=
  let track0 := pair.1
  let track1 := pair.2
  let st := { st with issamemcpt := -9999 }
  let st :=
    if IS_MC then
      if track0.mcParticleId = track1.mcParticleId then
        match mcParticle track0.mcParticleId with
        | some mcparticle =>
          let mcCollID_recoColl := collision.mcCollisionId
          let mcCollID_particle := mcparticle.mcCollisionId
          let indexMatchOK : Bool := mcCollID_recoColl == mcCollID_particle
          let partpdg : Int := mcparticle.pdgCode.natAbs
          if indexMatchOK && mcparticle.isPhysicalPrimary &&
              (partpdg == 211 || partpdg == 321 || partpdg == 2212 || partpdg == 11 || partpdg == 13) then
            { st with issamemcpt := mcparticle.pt }
          else { st with issamemcpt := -mcparticle.pt }
        | none => st
      else st
    else st
  { st with trackPairForEffTablePN := st.trackPairForEffTablePN ++
      [⟨track1.pt, track1.eta, track1.phi, track0.pt, track0.eta, track0.phi,
        track0.itsNCls, track1.tpcNClsFound, st.issamemcpt⟩] }

/-- `CheckFilterBit::processPair<IS_MC>`: the four loops in the order of the source,
starting from `issamemcpt = -9999` and no row written. -/
def processPair (IS_MC : Bool) (mcParticle : McBinding) (collision : Collision)
    (positiveTPConlyTracksThisColl positiveITSonlyTracksThisColl
      negativeTPConlyTracksThisColl negativeITSonlyTracksThisColl : List Track) : PairState :=
  let st : PairState := ⟨-9999, [], [], [], [], []⟩
  let st := (combinationsFullIndex positiveITSonlyTracksThisColl positiveTPConlyTracksThisColl).foldl
    (loopBodyPP IS_MC mcParticle collision) st
  let st := (combinationsFullIndex negativeITSonlyTracksThisColl negativeTPConlyTracksThisColl).foldl
    (loopBodyNN IS_MC mcParticle collision) st
  let st := (combinationsFullIndex negativeITSonlyTracksThisColl positiveTPConlyTracksThisColl).foldl
    (loopBodyNP IS_MC mcParticle collision) st
  let st := (combinationsFullIndex positiveITSonlyTracksThisColl negativeTPConlyTracksThisColl).foldl
    (loopBodyPN IS_MC mcParticle collision) st
  st

/-! ## Vocabulary for the statements about `processPair` -/

/-- The four charge combinations, named after the output tables. -/
inductive PairType where
  | PP
  | NN
  | NP
  | PN
  deriving DecidableEq, Repr

/-- The rows written to the output table of a combination. -/
def PairState.table (st : PairState) : PairType → List PairRecord
  | .PP => st.trackPairForEffTablePP
  | .NN => st.trackPairForEffTableNN
  | .NP => st.trackPairForEffTableNP
  | .PN => st.trackPairForEffTablePN

/-- The ITS-only subset (first table of `combinations`) of the loop that writes the
table of a combination. -/
def subsetITS (positiveITSonly negativeITSonly : List Track) : PairType → List Track
  | .PP => positiveITSonly
  | .NN => negativeITSonly
  | .NP => negativeITSonly
  | .PN => positiveITSonly

/-- The TPC-only subset (second table of `combinations`) of the loop that writes the
table of a combination. -/
def subsetTPC (positiveTPConly negativeTPConly : List Track) : PairType → List Track
  | .PP => positiveTPConly
  | .NN => negativeTPConly
  | .NP => positiveTPConly
  | .PN => negativeTPConly

/-- The condition under which a loop body stores `mcparticle.pt()` rather than
`-mcparticle.pt()`, as written in each of the four loops. -/
def verifiedPrimary (collision : Collision) (mcparticle : McParticle) : Bool :=
  let mcCollID_recoColl := collision.mcCollisionId
  let mcCollID_particle := mcparticle.mcCollisionId
  let indexMatchOK : Bool := mcCollID_recoColl == mcCollID_particle
  let partpdg : Int := mcparticle.pdgCode.natAbs
  indexMatchOK && mcparticle.isPhysicalPrimary &&
    (partpdg == 211 || partpdg == 321 || partpdg == 2212 || partpdg == 11 || partpdg == 13)

/-- The value of `issamemcpt` at the end of a loop body, as a function of the pair:
what the `if constexpr (IS_MC)` block of each loop leaves in it after the reset. -/
def truthTag (IS_MC : Bool) (mcParticle : McBinding) (collision : Collision)
    (track0 track1 : Track) : ℚ :=
  if IS_MC = true ∧ track0.mcParticleId = track1.mcParticleId then
    match mcParticle track0.mcParticleId with
    | some mcparticle =>
      if verifiedPrimary collision mcparticle then mcparticle.pt else -mcparticle.pt
    | none => -9999
  else -9999

/-- The row written for a pair: the arguments of the `trackPairForEffTable..(...)`
call, `track0` from the ITS-only subset and `track1` from the TPC-only subset. -/
def pairRecord (track0 track1 : Track) (issamemcpt : ℚ) : PairRecord :=
  ⟨track1.pt, track1.eta, track1.phi, track0.pt, track0.eta, track0.phi,
    track0.itsNCls, track1.tpcNClsFound, issamemcpt⟩

/-! ## Concrete events used as inputs -/

/-- A particle row with the given species code and mother index array (event 0,
physical primary, pt 1). -/
def mkParticle (pdgCode : Int) (mothersIds : List Int) : McParticle :=
  ⟨pdgCode, mothersIds, 0, true, 1⟩

/-- Rows 0..4 are `d` (a Lambda, 3122), `c` (proton, mother `d`), `a` (gluon, no
mother), `b` (up quark, mother `c`) and `p` (pion, mothers `[a, b]`). -/
def multiMotherEvent : McParticles :=
  ⟨0, [mkParticle 3122 [], mkParticle 2212 [0], mkParticle 21 [], mkParticle 2 [1],
    mkParticle 211 [2, 3]]⟩

/-- A table at offset 10: row 10 a proton without mothers, row 11 a pion whose
mother is row 10. -/
def motherlessEvent : McParticles :=
  ⟨10, [mkParticle 2212 [], mkParticle 211 [10, 10]]⟩

/-- Rows 0..2: a proton, an anti-Lambda (-3122), and a pion whose mother range is
`[0, 1]`. -/
def lambdaEvent : McParticles :=
  ⟨0, [mkParticle 2212 [], mkParticle (-3122) [], mkParticle 211 [0, 1]]⟩

/-- A single-mother chain at offset 10: row 10 is a Lambda, rows 11..14 are
non-strange, each the only mother of the next row, and row 15 is a pion. -/
def chainEvent : McParticles :=
  ⟨10, [mkParticle 3122 [], mkParticle 2212 [10], mkParticle 2 [11], mkParticle 21 [12],
    mkParticle 2212 [13], mkParticle 211 [14]]⟩

/-- A pion of pt 1.2 in simulated event 0, physical primary. -/
def primaryPion : McParticle := ⟨211, [], 0, true, 6 / 5⟩

/-- The same pion, not a physical primary. -/
def secondaryPion : McParticle := ⟨211, [], 0, false, 6 / 5⟩

/-- A positive ITS-only track of pt 1.0 with label 7. -/
def trackITS : Track := ⟨1, 1 / 10, 2, 1, 7, 0, 0, 3 / 2, -1, 7⟩

/-- A positive TPC-only track of pt 1.05 with label 7. -/
def trackTPC : Track := ⟨21 / 20, 1 / 10, 2, 20 / 21, 0, 120, 150, -1, 2, 7⟩

/-- A positive TPC-only track with label 8. -/
def trackTPCother : Track := ⟨21 / 20, 1 / 10, 2, 20 / 21, 0, 120, 150, -1, 2, 8⟩

/-- The binding in which label 7 is `primaryPion` and no other label resolves. -/
def bindPrimary : McBinding := fun i => if i = 7 then some primaryPion else none

/-- The binding in which label 7 is `secondaryPion` and no other label resolves. -/
def bindSecondary : McBinding := fun i => if i = 7 then some secondaryPion else none

/-- A collision of simulated event 0. -/
def collision0 : Collision := ⟨0⟩

/-! ## Index validity and traces -/

/-- The global index `i`, shifted by the offset, is a position of the table. -/
def McParticles.inBounds (particlesMC : McParticles) (i : Int) : Bool :=
  decide (0 ≤ i - particlesMC.offset) &&
    decide (i - particlesMC.offset < particlesMC.rows.length)

/-- Every index of the mother range of every row, shifted by the offset, is a
position of the table. -/
def McParticles.mothersInBounds (particlesMC : McParticles) : Bool :=
  particlesMC.rows.all (fun row => row.motherRange.all (fun j => particlesMC.inBounds j))

/-- The global index looked up by an access. -/
def Access.index : Access → Int
  | .member i => i
  | .mother i => i

/-- The accesses of a trace that follow the first test of a mother with a strange
species code (none when no such test is in the trace). -/
def accessesAfterFirstMatch (particlesMC : McParticles) : List Access → List Access
  | [] => []
  | Access.mother i :: rest =>
    if specIsStrange particlesMC i then rest else accessesAfterFirstMatch particlesMC rest
  | Access.member _ :: rest => accessesAfterFirstMatch particlesMC rest

/-- The indices stored in `arrayIds` and `arrayIdsStage` are positions of the
table. -/
def StoredInBounds (particlesMC : McParticles) (st : WalkState) : Prop :=
  (∀ L ∈ st.arrayIds, ∀ x ∈ L, particlesMC.inBounds x = true)
    ∧ ∀ x ∈ st.arrayIdsStage, particlesMC.inBounds x = true

/-! ## The species filter at its other use sites -/

/-- The species test of `FillRecoMCHisto`: `partpdg = std::abs(pdgCode)` compared
with the five codes. -/
def speciesFillRecoMCHisto (pdgCode : Int) : Bool :=
  let partpdg : Int := pdgCode.natAbs
  partpdg == 211 || partpdg == 321 || partpdg == 2212 || partpdg == 11 || partpdg == 13

/-- The species test of `processRecoMC`. -/
def speciesProcessRecoMC (pdgCode : Int) : Bool :=
  let partpdg : Int := pdgCode.natAbs
  partpdg == 211 || partpdg == 321 || partpdg == 2212 || partpdg == 11 || partpdg == 13

/-- The species test of `processMC`, which takes `std::abs(mcpart.pdgCode())` anew
in each comparison. -/
def speciesProcessMC (pdgCode : Int) : Bool :=
  ((pdgCode.natAbs : Int) == 211) || ((pdgCode.natAbs : Int) == 321) ||
    ((pdgCode.natAbs : Int) == 2212) || ((pdgCode.natAbs : Int) == 11) ||
    ((pdgCode.natAbs : Int) == 13)

/-! ## The track partitions and the classification of `FillDataHistoStd` -/

/-- The member `float fzero = 0.`. -/
def fzero : ℚ := 0

/-- `Partition<Tracksextension> positiveTPConlyTracks`. -/
def positiveTPConlyTracks (t : Track) : Bool :=
  decide (t.signed1Pt > fzero) && decide (t.tpcNClsFindable > 0) && decide (t.itsChi2NCl < 0)

/-- `Partition<Tracksextension> negativeTPConlyTracks`. -/
def negativeTPConlyTracks (t : Track) : Bool :=
  decide (t.signed1Pt < fzero) && decide (t.tpcNClsFindable > 0) && decide (t.itsChi2NCl < 0)

/-- `Partition<Tracksextension> positiveITSonlyTracks`. -/
def positiveITSonlyTracks (t : Track) : Bool :=
  decide (t.signed1Pt > fzero) && decide (t.tpcChi2NCl < 0) && decide (t.itsChi2NCl > 0)

/-- `Partition<Tracksextension> negativeITSonlyTracks`. -/
def negativeITSonlyTracks (t : Track) : Bool :=
  decide (t.signed1Pt < fzero) && decide (t.tpcChi2NCl < 0) && decide (t.itsChi2NCl > 0)

/-- `Partition<TracksextensionMC> positiveTPConlyTracksMC`. -/
def positiveTPConlyTracksMC (t : Track) : Bool :=
  decide (t.signed1Pt > fzero) && decide (t.tpcNClsFindable > 0) && decide (t.itsChi2NCl < 0)

/-- `Partition<TracksextensionMC> negativeTPConlyTracksMC`. -/
def negativeTPConlyTracksMC (t : Track) : Bool :=
  decide (t.signed1Pt < fzero) && decide (t.tpcNClsFindable > 0) && decide (t.itsChi2NCl < 0)

/-- `Partition<TracksextensionMC> positiveITSonlyTracksMC`. -/
def positiveITSonlyTracksMC (t : Track) : Bool :=
  decide (t.signed1Pt > fzero) && decide (t.tpcChi2NCl < 0) && decide (t.itsChi2NCl > 0)

/-- `Partition<TracksextensionMC> negativeITSonlyTracksMC`. -/
def negativeITSonlyTracksMC (t : Track) : Bool :=
  decide (t.signed1Pt < fzero) && decide (t.tpcChi2NCl < 0) && decide (t.itsChi2NCl > 0)

/-- The condition of `FillDataHistoStd` under which `histpt3DITSonly` is filled. -/
def fillsHistpt3DITSonly (t : Track) : Bool :=
  decide (t.itsChi2NCl > 0) && decide (t.tpcChi2NCl < 0)

/-- The condition of `FillDataHistoStd` under which `histpt3DTPConly` is filled. -/
def fillsHistpt3DTPConly (t : Track) : Bool :=
  decide (t.itsChi2NCl < 0) && decide (t.tpcChi2NCl > 0)

/-! ## Further concrete inputs -/

/-- A single pion that is its own mother. -/
def selfMotherEvent : McParticles := ⟨0, [mkParticle 211 [0]]⟩

/-- A single pion whose mother index 5 is outside the table. -/
def danglingMotherEvent : McParticles := ⟨0, [mkParticle 211 [5]]⟩

/-- Rows 0..4: a Lambda, a proton, `a` (up quark, mother the Lambda), `b` (gluon,
mother the proton) and a pion with mothers `[a, b]`. -/
def lateMatchEvent : McParticles :=
  ⟨0, [mkParticle 3122 [], mkParticle 2212 [], mkParticle 2 [0], mkParticle 21 [1],
    mkParticle 211 [2, 3]]⟩

/-- Rows 0..3: a Lambda, `a` (up quark) and `b` (gluon), both with the Lambda as
mother, and a pion with mothers `[a, b]`. -/
def sharedLambdaEvent : McParticles :=
  ⟨0, [mkParticle 3122 [], mkParticle 2 [0], mkParticle 21 [0], mkParticle 211 [1, 2]]⟩

/-- Rows 0..3: a proton, `a` (up quark) and `b` (gluon), both with the proton as
mother, and a pion with mothers `[a, b]`. -/
def sharedProtonEvent : McParticles :=
  ⟨0, [mkParticle 2212 [], mkParticle 2 [0], mkParticle 21 [0], mkParticle 211 [1, 2]]⟩

/-- A positive track with a TPC fit (chi-square 2), no ITS fit (chi-square -1) and
no findable TPC cluster. -/
def trackTPCnoFindable : Track := ⟨1, 0, 0, 1, 0, 0, 0, -1, 2, -1⟩

/-- A positive track with findable TPC clusters and neither fit (both chi-squares
-1). -/
def trackFindableNoFit : Track := ⟨1, 0, 0, 1, 0, 0, 150, -1, -1, -1⟩

/-! ## The walk without the duplicate check -/

/-- The loop over `iMother` with the `std::find` test removed: every mother index is
looked up and tested, and appended to `arrayIdsStage` unless it is strange. -/
def motherLoopNoFind (particlesMC : McParticles) : List Int → WalkState → Option WalkState
  | [], st => some st
  | iMother :: rest, st =>
    match particlesMC.rawIteratorAt (iMother - particlesMC.offset) with
    | none => none
    | some mother =>
      let st1 := { st with trace := st.trace ++ [Access.mother iMother] }
      if isStrangePDG mother.pdgCode then some { st1 with strangeness := 1 }
      else motherLoopNoFind particlesMC rest
        { st1 with arrayIdsStage := st1.arrayIdsStage ++ [iMother] }

/-- The loop over the members of a stage, with `motherLoopNoFind` as inner loop. -/
def memberLoopNoFind (particlesMC : McParticles) : List Int → WalkState → Option WalkState
  | [], st => some st
  | iPart :: rest, st =>
    match particlesMC.rawIteratorAt (iPart - particlesMC.offset) with
    | none => none
    | some particleMother =>
      let st1 := { st with trace := st.trace ++ [Access.member iPart] }
      let afterMothers :=
        if particleMother.has_mothers then
          motherLoopNoFind particlesMC particleMother.motherRange st1
        else some st1
      match afterMothers with
      | none => none
      | some st2 =>
        memberLoopNoFind particlesMC rest { st2 with arrayIds := st2.arrayIds ++ [st2.arrayIdsStage] }

/-- The `while` loop, with `memberLoopNoFind` as body. -/
def whileLoopNoFind (particlesMC : McParticles) : Nat → WalkState → Option WalkResult
  | 0, st => some ⟨4, st.arrayIds, st.strangeness, st.trace⟩
  | todo + 1, st =>
    let stage := 4 - (todo + 1)
    match st.arrayIds.get? stage with
    | none => none
    | some current =>
      if current.length > 0 ∧ st.strangeness = 0 then
        match memberLoopNoFind particlesMC current { st with arrayIdsStage := [] } with
        | none => none
        | some st1 => whileLoopNoFind particlesMC todo st1
      else some ⟨stage, st.arrayIds, st.strangeness, st.trace⟩

/-- The variant of `isFromStrangeDecay` in which the `std::find` test is removed. -/
def isFromStrangeDecayNoFind (particlesMC : McParticles) (particle : Int) : Option Int :=
  (whileLoopNoFind particlesMC 4
    { arrayIds := [[particle]], arrayIdsStage := [], strangeness := 0, trace := [] }).map
    (fun r => r.strangeness)

/-! ## Comparison of the walk with and without the duplicate check -/

/-- Two lists hold the same indices, whatever their order and multiplicity. -/
def SameMembers (a b : List Int) : Prop := ∀ x, x ∈ a ↔ x ∈ b

/-- Every index of `arrayIdsStage` is a row of the table with a non-strange species
code. -/
def GoodStage (particlesMC : McParticles) (st : WalkState) : Prop :=
  ∀ x ∈ st.arrayIdsStage, ∃ row,
    particlesMC.rawIteratorAt (x - particlesMC.offset) = some row
      ∧ isStrangePDG row.pdgCode = false

/-- The locals of the walk (left) and of the walk without the duplicate check (right)
agree up to order and multiplicity inside the lists. -/
def WalkRel (particlesMC : McParticles) (st st' : WalkState) : Prop :=
  st.strangeness = st'.strangeness
    ∧ SameMembers st.arrayIdsStage st'.arrayIdsStage
    ∧ GoodStage particlesMC st
    ∧ List.Forall₂ SameMembers st.arrayIds st'.arrayIds

/-- Two optional values are both absent, or both present and related. -/
def OptionRel {α β : Type} (R : α → β → Prop) : Option α → Option β → Prop
  | none, none => True
  | some a, some b => R a b
  | _, _ => False

/-- The outcome of testing the indices of a mother range in order, each one looked
up: `none` when an index that is no row of the table is met before any strange row,
`some true` when a strange row is met, `some false` otherwise. -/
def scanRange (particlesMC : McParticles) : List Int → Option Bool
  | [] => some false
  | i :: rest =>
    match particlesMC.rawIteratorAt (i - particlesMC.offset) with
    | none => none
    | some row => if isStrangePDG row.pdgCode then some true else scanRange particlesMC rest

/-- The outcome of one member of a stage: `none` when the member is no row of the
table, else the outcome of its mother range. -/
def memberOutcome (particlesMC : McParticles) (y : Int) : Option Bool :=
  match particlesMC.rawIteratorAt (y - particlesMC.offset) with
  | none => none
  | some row => scanRange particlesMC row.motherRange

/-- The outcome of a stage: `none` when the outcome of some member is `none`, else
whether some member met a strange row. -/
def stageOutcome (particlesMC : McParticles) (current : List Int) : Option Bool :=
  if current.all (fun y => (memberOutcome particlesMC y).isSome) then
    some (current.any (fun y => memberOutcome particlesMC y == some true))
  else none

/-! ## Shifting the index space -/

/-- The row with `k` added to every mother index. -/
def McParticle.shift (row : McParticle) (k : Int) : McParticle :=
  { row with mothersIds := row.mothersIds.map (fun m => m + k) }

/-- The table with `k` added to its offset and to every mother index; the global
index of the row at a position grows by `k` with the offset. -/
def McParticles.shift (particlesMC : McParticles) (k : Int) : McParticles :=
  ⟨particlesMC.offset + k, particlesMC.rows.map (fun row => row.shift k)⟩

/-- The access with `k` added to its index. -/
def Access.shift (k : Int) : Access → Access
  | .member i => .member (i + k)
  | .mother i => .mother (i + k)

/-- The locals with `k` added to every stored index. -/
def WalkState.shift (st : WalkState) (k : Int) : WalkState :=
  ⟨st.arrayIds.map (fun L => L.map (fun i => i + k)), st.arrayIdsStage.map (fun i => i + k),
    st.strangeness, st.trace.map (Access.shift k)⟩

/-- The result with `k` added to every stored index. -/
def WalkResult.shift (r : WalkResult) (k : Int) : WalkResult :=
  ⟨r.stage, r.arrayIds.map (fun L => L.map (fun i => i + k)), r.strangeness,
    r.trace.map (Access.shift k)⟩

/-! ## Ancestors, chains of mother links and change of one species code -/

/-- The indices reached from `particle` by exactly `g` mother links, every index of
a mother range counting as a mother. -/
def ancestorGeneration (particlesMC : McParticles) (particle : Int) : Nat → List Int
  | 0 => [particle]
  | g + 1 => (ancestorGeneration particlesMC particle g).flatMap (specMothers particlesMC)

/-- The invariant of the particle collection: mothers precede daughters, every index
of the mother range of a row is smaller than the global index of the row. -/
def McParticles.mothersPrecedeDaughters (particlesMC : McParticles) : Bool :=
  particlesMC.rows.enum.all (fun jr =>
    jr.2.motherRange.all (fun m => decide (m < particlesMC.offset + Int.ofNat jr.1)))

/-- The index `particle` is not among its own ancestors of generations 1 to 4. -/
def notOwnAncestor (particlesMC : McParticles) (particle : Int) : Bool :=
  [1, 2, 3, 4].all (fun g => decide (particle ∉ ancestorGeneration particlesMC particle g))

/-- The table in which the row with global index `particle` gets the species code
`pdgCode`, everything else unchanged. -/
def McParticles.withPdgCode (particlesMC : McParticles) (particle : Int) (pdgCode : Int) :
    McParticles :=
  ⟨particlesMC.offset, particlesMC.rows.enum.map (fun jr =>
    if particlesMC.offset + Int.ofNat jr.1 = particle then { jr.2 with pdgCode := pdgCode }
    else jr.2)⟩

/-- A chain of `n` mother links from `particle` to `x`: `x = particle` for `n = 0`;
for `n + 1`, `x` is an index of the mother range of the end `y` of a chain of `n`
links, and `x` is a row of the table with a non-strange species code. -/
def NonStrangeChain (particlesMC : McParticles) (particle : Int) : Nat → Int → Prop
  | 0, x => x = particle
  | n + 1, x => ∃ y yrow xrow, NonStrangeChain particlesMC particle n y
      ∧ particlesMC.rawIteratorAt (y - particlesMC.offset) = some yrow
      ∧ x ∈ yrow.motherRange
      ∧ particlesMC.rawIteratorAt (x - particlesMC.offset) = some xrow
      ∧ isStrangePDG xrow.pdgCode = false

/-- A chain of `n + 1` mother links, `n < g`, from `particle` to a row with a strange
species code, every row strictly between the two having a non-strange code. -/
def StrangeAncestorWithin (particlesMC : McParticles) (particle : Int) (g : Nat) : Prop :=
  ∃ n y yrow s srow, n < g ∧ NonStrangeChain particlesMC particle n y
    ∧ particlesMC.rawIteratorAt (y - particlesMC.offset) = some yrow
    ∧ s ∈ yrow.motherRange
    ∧ particlesMC.rawIteratorAt (s - particlesMC.offset) = some srow
    ∧ isStrangePDG srow.pdgCode = true

/-- What the locals of stage `s` satisfy during the walk from `particle`: the lists
of `arrayIds` and `arrayIdsStage` hold ends of non-strange chains, no longer than
their position, and a set flag has a strange particle behind it. -/
def SoundAt (particlesMC : McParticles) (particle : Int) (s : Nat) (st : WalkState) : Prop :=
  (∀ j L, st.arrayIds.get? j = some L →
      ∀ x ∈ L, ∃ n, n ≤ j ∧ NonStrangeChain particlesMC particle n x)
    ∧ (∀ x ∈ st.arrayIdsStage, ∃ n, n ≤ s + 1 ∧ NonStrangeChain particlesMC particle n x)
    ∧ s + 1 ≤ st.arrayIds.length
    ∧ (st.strangeness ≠ 0 → StrangeAncestorWithin particlesMC particle 4)

/-- Following the claim's words: `x` and its ancestors up to generation `n - 1` are
rows of the table with at most one index in their mother range, and the ancestor of
generation `n`, if the chain reaches it, is a row of the table. -/
def singleMotherChain (particlesMC : McParticles) : Nat → Int → Bool
  | 0, x => (particlesMC.rawIteratorAt (x - particlesMC.offset)).isSome
  | n + 1, x =>
    match particlesMC.rawIteratorAt (x - particlesMC.offset) with
    | none => false
    | some row =>
      match row.motherRange with
      | [] => true
      | [m] => singleMotherChain particlesMC n m
      | _ => false

/-- Following the claim's words: the first `n` ancestors of `x` along the first index
of each mother range: its mother, the mother of its mother, and so on. -/
def ancestorsUpTo (particlesMC : McParticles) : Nat → Int → List Int
  | 0, _ => []
  | n + 1, x =>
    match specMothers particlesMC x with
    | [] => []
    | m :: _ => m :: ancestorsUpTo particlesMC n m

/-! ## The states at the head of the loop -/

/-- The states in which the condition of the `while` loop is evaluated during
`isFromStrangeDecay(particlesMC, particle)`, each with `4 - stage`: the state before
the loop, and the state after each iteration that the condition lets through. -/
inductive AtLoopHead (particlesMC : McParticles) (particle : Int) : Nat → WalkState → Prop where
  | start : AtLoopHead particlesMC particle 4
      { arrayIds := [[particle]], arrayIdsStage := [], strangeness := 0, trace := [] }
  | next (todo : Nat) (st : WalkState) (current : List Int) (st1 : WalkState) :
      AtLoopHead particlesMC particle (todo + 1) st →
      st.arrayIds.get? (4 - (todo + 1)) = some current →
      (current.length > 0 ∧ st.strangeness = 0) →
      memberLoop particlesMC current { st with arrayIdsStage := [] } = some st1 →
      AtLoopHead particlesMC particle todo st1

/-! ## Further inputs -/

/-- A track with `signed1Pt = 0`, findable TPC clusters and a negative ITS
chi-square. -/
def trackNoCharge : Track := ⟨1, 0, 0, 0, 0, 0, 150, -1, 2, -1⟩

/-- A non-verified pion of pt 9999. -/
def sentinelPion : McParticle := ⟨211, [], 0, false, 9999⟩

/-- The binding in which label 7 is `sentinelPion` and no other label resolves. -/
def bindSentinel : McBinding := fun i => if i = 7 then some sentinelPion else none

/-- Rows 0..1: a proton and a kaon (321) whose mother is the proton. -/
def kaonEvent : McParticles := ⟨0, [mkParticle 2212 [], mkParticle 321 [0]]⟩

/-! ## The mother indices that a member reaches -/

/-- The member `y` reaches the mother index `i`: `y` is a row of the table and `i` is
an index of its mother range with no index of a strange species code before it in the
range, so that the loop over `iMother` gets to `i`. -/
def ReachedBy (particlesMC : McParticles) (y i : Int) : Prop :=
  ∃ yrow pre post, particlesMC.rawIteratorAt (y - particlesMC.offset) = some yrow
    ∧ yrow.motherRange = pre ++ i :: post
    ∧ ∀ j ∈ pre, specIsStrange particlesMC j = false

/-! ## Lemmas on the mother range and the inner loop -/

theorem motherRange_single (row : McParticle) (a : Int)
    (hf : row.mothersIds.head? = some a) (hb : row.mothersIds.getLast? = some a) :
    row.motherRange = [a] := by
  simp [McParticle.motherRange, hf, hb, List.range_succ]

theorem has_mothers_of_head (row : McParticle) (a : Int)
    (hf : row.mothersIds.head? = some a) : row.has_mothers = true := by
  cases h : row.mothersIds with
  | nil => simp [h] at hf
  | cons x xs => simp [McParticle.has_mothers, h]

theorem motherRange_pairwise (row : McParticle) : row.motherRange.Pairwise (· < ·) := by
  unfold McParticle.motherRange
  split
  · rw [List.pairwise_map]
    refine List.Pairwise.imp ?_ (List.pairwise_lt_range _)
    intro a b hab
    simp only [Int.ofNat_eq_coe]
    omega
  · exact List.Pairwise.nil

theorem has_mothers_of_mem_motherRange (row : McParticle) (m : Int)
    (hm : m ∈ row.motherRange) : row.has_mothers = true := by
  cases h : row.mothersIds with
  | nil => simp [McParticle.motherRange, h] at hm
  | cons x xs => simp [McParticle.has_mothers, h]

/-- The inner loop over an increasing list of mother indices that holds a strange
mother `m` ends with `strangeness = 1`, provided the indices up to `m` are positions
of the table and no index already collected for the stage is strange. -/
theorem motherLoop_finds (particlesMC : McParticles) (m : Int) (mrow : McParticle)
    (hm : particlesMC.rawIteratorAt (m - particlesMC.offset) = some mrow)
    (hs : isStrangePDG mrow.pdgCode = true) :
    ∀ (l : List Int) (st : WalkState), l.Pairwise (· < ·) → m ∈ l →
      (∀ i ∈ l, i ≤ m → (particlesMC.rawIteratorAt (i - particlesMC.offset)).isSome = true) →
      (∀ x ∈ st.arrayIdsStage, ∀ row,
        particlesMC.rawIteratorAt (x - particlesMC.offset) = some row →
          isStrangePDG row.pdgCode = false) →
      ∃ st', motherLoop particlesMC l st = some st' ∧ st'.strangeness = 1
        ∧ st'.arrayIds = st.arrayIds := by
  intro l
  induction l with
  | nil => intro st _ hmem; simp at hmem
  | cons h rest ih =>
    intro st hpw hmem hvalid hinv
    have hpw' := List.pairwise_cons.mp hpw
    have hle : h ≤ m := by
      rcases List.mem_cons.mp hmem with h1 | h1
      · omega
      · exact le_of_lt (hpw'.1 m h1)
    have hvalid' : ∀ i ∈ rest, i ≤ m →
        (particlesMC.rawIteratorAt (i - particlesMC.offset)).isSome = true :=
      fun i hi => hvalid i (List.mem_cons_of_mem _ hi)
    unfold motherLoop
    by_cases hin : h ∈ st.arrayIdsStage
    · have hne : m ≠ h := by
        intro e
        subst e
        have := hinv m hin mrow hm
        simp [hs] at this
      have hmem' : m ∈ rest := by
        rcases List.mem_cons.mp hmem with h1 | h1
        · exact absurd h1 hne
        · exact h1
      simp only [hin, if_true]
      exact ih st hpw'.2 hmem' hvalid' hinv
    · simp only [hin, if_false]
      have hv := hvalid h (List.mem_cons_self _ _) hle
      obtain ⟨hrow, hh⟩ := Option.isSome_iff_exists.mp hv
      simp only [hh]
      by_cases hstr : isStrangePDG hrow.pdgCode = true
      · simp [hstr]
      · have hne : m ≠ h := by
          intro e
          subst e
          rw [hm] at hh
          cases hh
          exact hstr hs
        have hmem' : m ∈ rest := by
          rcases List.mem_cons.mp hmem with h1 | h1
          · exact absurd h1 hne
          · exact h1
        simp only [hstr]
        have hstr' : isStrangePDG hrow.pdgCode = false := by simpa using hstr
        obtain ⟨st', h1, h2, h3⟩ := ih
          { st with trace := st.trace ++ [Access.mother h],
                    arrayIdsStage := st.arrayIdsStage ++ [h] } hpw'.2 hmem' hvalid'
          (by
            intro x hx row hxrow
            rcases List.mem_append.mp hx with hx1 | hx1
            · exact hinv x hx1 row hxrow
            · simp at hx1
              subst hx1
              rw [hh] at hxrow
              cases hxrow
              exact hstr')
        exact ⟨st', by simpa using h1, h2, h3⟩

/-! ## Claims on `isFromStrangeDecay` -/

/-- Claim C1, evaluated at the input where the code departs from it: in
`multiMotherEvent` the pion `p` (index 4) has mothers `[a, b]`, `a` has no mother, `b`
has the non-strange mother `c` whose mother `d` is a Lambda. The walk in the spec's
words finds `d` in generation 3, while `isFromStrangeDecay` returns 0: after stage 1
it continues from `arrayIds[2]`, the mothers collected after the first member `a`
alone, which is empty. -/
theorem C1_multi_mother_walk_returns_zero :
    isFromStrangeDecay multiMotherEvent 4 = some 0
      ∧ specFromStrangeDecay multiMotherEvent 4 = true
      ∧ (isFromStrangeDecayRun multiMotherEvent 4).map (fun r => r.arrayIds)
          = some [[4], [2, 3], [], [1]] := by
  decide

/-- Claim C7: for a particle without mothers the function returns 0; the only
lookup is that of the particle itself (no mother is looked up or tested), the one
generation collected is empty and the loop is left with `stage = 1`. -/
theorem C7_no_mothers_returns_zero (particlesMC : McParticles) (particle : Int)
    (row : McParticle)
    (hrow : particlesMC.rawIteratorAt (particle - particlesMC.offset) = some row)
    (hno : row.mothersIds = []) :
    isFromStrangeDecayRun particlesMC particle
        = some ⟨1, [[particle], []], 0, [Access.member particle]⟩
      ∧ isFromStrangeDecay particlesMC particle = some 0 := by
  have hm : row.has_mothers = false := by simp [McParticle.has_mothers, hno]
  have h : isFromStrangeDecayRun particlesMC particle
        = some ⟨1, [[particle], []], 0, [Access.member particle]⟩ := by
    simp [isFromStrangeDecayRun, whileLoop, memberLoop, hrow, hm]
  exact ⟨h, by simp [isFromStrangeDecay, h]⟩

/-- Witness of C7: the proton at global index 10 of `motherlessEvent`. -/
theorem C7_no_mothers_returns_zero_witness :
    isFromStrangeDecayRun motherlessEvent 10
        = some ⟨1, [[10], []], 0, [Access.member 10]⟩
      ∧ isFromStrangeDecay motherlessEvent 10 = some 0 :=
  C7_no_mothers_returns_zero motherlessEvent 10 (mkParticle 2212 []) (by decide) (by decide)

/-- Claim C8: when one index `m` of the particle's mother range is a particle with
a strange species code (such as 3122 or -3122), and the indices of the range up to
`m` are positions of the table, the function returns 1 and the loop is left with
`stage = 1`, that is after its first iteration; nothing is assumed about the other
mothers or about any further ancestor. -/
theorem C8_strange_mother_returns_one (particlesMC : McParticles) (particle m : Int)
    (row mrow : McParticle)
    (hrow : particlesMC.rawIteratorAt (particle - particlesMC.offset) = some row)
    (hmem : m ∈ row.motherRange)
    (hm : particlesMC.rawIteratorAt (m - particlesMC.offset) = some mrow)
    (hs : isStrangePDG mrow.pdgCode = true)
    (hvalid : ∀ i ∈ row.motherRange, i ≤ m →
      (particlesMC.rawIteratorAt (i - particlesMC.offset)).isSome = true) :
    (∃ r, isFromStrangeDecayRun particlesMC particle = some r ∧ r.stage = 1
        ∧ r.strangeness = 1)
      ∧ isFromStrangeDecay particlesMC particle = some 1 := by
  obtain ⟨st', h1, h2, h3⟩ := motherLoop_finds particlesMC m mrow hm hs row.motherRange
    { arrayIds := [[particle]], arrayIdsStage := [], strangeness := 0,
      trace := [Access.member particle] }
    (motherRange_pairwise row) hmem hvalid (by simp)
  have hhas := has_mothers_of_mem_motherRange row m hmem
  simp only at h3
  have hrun : isFromStrangeDecayRun particlesMC particle
      = some ⟨1, [[particle], st'.arrayIdsStage], 1, st'.trace⟩ := by
    simp [isFromStrangeDecayRun, whileLoop, memberLoop, hrow, hhas, h1, h2, h3]
  exact ⟨⟨_, hrun, rfl, rfl⟩, by simp [isFromStrangeDecay, hrun]⟩

/-- Witness of C8: the pion of `lambdaEvent`, whose mothers are a proton and an
anti-Lambda. -/
theorem C8_strange_mother_returns_one_witness :
    (∃ r, isFromStrangeDecayRun lambdaEvent 2 = some r ∧ r.stage = 1 ∧ r.strangeness = 1)
      ∧ isFromStrangeDecay lambdaEvent 2 = some 1 :=
  C8_strange_mother_returns_one lambdaEvent 2 1 (mkParticle 211 [0, 1])
    (mkParticle (-3122) []) (by decide) (by decide) (by decide) (by decide) (by decide)

/-- Claim C9: on a single-mother chain `p <- a1 <- a2 <- a3 <- a4 <- a5` whose
members `a1..a4` are non-strange and whose fifth ancestor `a5` is strange, the
function returns 0; the loop is left with `stage = 4` and the lookups are those of
`p, a1, a2, a3` as members and of `a1, a2, a3, a4` as mothers: `a5` is never
tested. -/
theorem C9_fifth_generation_not_reached (particlesMC : McParticles)
    (p a1 a2 a3 a4 a5 : Int) (r0 r1 r2 r3 r4 r5 : McParticle)
    (h0 : particlesMC.rawIteratorAt (p - particlesMC.offset) = some r0)
    (h1 : particlesMC.rawIteratorAt (a1 - particlesMC.offset) = some r1)
    (h2 : particlesMC.rawIteratorAt (a2 - particlesMC.offset) = some r2)
    (h3 : particlesMC.rawIteratorAt (a3 - particlesMC.offset) = some r3)
    (h4 : particlesMC.rawIteratorAt (a4 - particlesMC.offset) = some r4)
    (_h5 : particlesMC.rawIteratorAt (a5 - particlesMC.offset) = some r5)
    (f0 : r0.mothersIds.head? = some a1) (b0 : r0.mothersIds.getLast? = some a1)
    (f1 : r1.mothersIds.head? = some a2) (b1 : r1.mothersIds.getLast? = some a2)
    (f2 : r2.mothersIds.head? = some a3) (b2 : r2.mothersIds.getLast? = some a3)
    (f3 : r3.mothersIds.head? = some a4) (b3 : r3.mothersIds.getLast? = some a4)
    (_f4 : r4.mothersIds.head? = some a5) (_b4 : r4.mothersIds.getLast? = some a5)
    (s1 : isStrangePDG r1.pdgCode = false) (s2 : isStrangePDG r2.pdgCode = false)
    (s3 : isStrangePDG r3.pdgCode = false) (s4 : isStrangePDG r4.pdgCode = false)
    (_s5 : isStrangePDG r5.pdgCode = true) :
    isFromStrangeDecayRun particlesMC p
        = some ⟨4, [[p], [a1], [a2], [a3], [a4]], 0,
            [Access.member p, Access.mother a1, Access.member a1, Access.mother a2,
              Access.member a2, Access.mother a3, Access.member a3, Access.mother a4]⟩
      ∧ isFromStrangeDecay particlesMC p = some 0 := by
  have hrun : isFromStrangeDecayRun particlesMC p
      = some ⟨4, [[p], [a1], [a2], [a3], [a4]], 0,
          [Access.member p, Access.mother a1, Access.member a1, Access.mother a2,
            Access.member a2, Access.mother a3, Access.member a3, Access.mother a4]⟩ := by
    simp [isFromStrangeDecayRun, whileLoop, memberLoop, motherLoop,
      h0, h1, h2, h3, h4, s1, s2, s3, s4,
      motherRange_single _ _ f0 b0, motherRange_single _ _ f1 b1,
      motherRange_single _ _ f2 b2, motherRange_single _ _ f3 b3,
      has_mothers_of_head _ _ f0, has_mothers_of_head _ _ f1,
      has_mothers_of_head _ _ f2, has_mothers_of_head _ _ f3]
  exact ⟨hrun, by simp [isFromStrangeDecay, hrun]⟩

/-- Witness of C9: the pion at global index 15 of `chainEvent`, whose fifth
ancestor (index 10) is a Lambda. -/
theorem C9_fifth_generation_not_reached_witness :
    isFromStrangeDecayRun chainEvent 15
        = some ⟨4, [[15], [14], [13], [12], [11]], 0,
            [Access.member 15, Access.mother 14, Access.member 14, Access.mother 13,
              Access.member 13, Access.mother 12, Access.member 12, Access.mother 11]⟩
      ∧ isFromStrangeDecay chainEvent 15 = some 0 :=
  C9_fifth_generation_not_reached chainEvent 15 14 13 12 11 10
    (mkParticle 211 [14]) (mkParticle 2212 [13]) (mkParticle 21 [12]) (mkParticle 2 [11])
    (mkParticle 2212 [10]) (mkParticle 3122 [])
    (by decide) (by decide) (by decide) (by decide) (by decide) (by decide)
    (by decide) (by decide) (by decide) (by decide) (by decide) (by decide)
    (by decide) (by decide) (by decide) (by decide) (by decide) (by decide)
    (by decide) (by decide) (by decide)


/-! ## Lemmas on the pairing loops -/

theorem verifiedPrimary_iff (collision : Collision) (p : McParticle) :
    verifiedPrimary collision p = true ↔
      collision.mcCollisionId = p.mcCollisionId ∧ p.isPhysicalPrimary = true ∧
        (p.pdgCode.natAbs = 211 ∨ p.pdgCode.natAbs = 321 ∨ p.pdgCode.natAbs = 2212 ∨
          p.pdgCode.natAbs = 11 ∨ p.pdgCode.natAbs = 13) := by
  simp only [verifiedPrimary, Bool.and_eq_true, Bool.or_eq_true, beq_iff_eq, and_assoc, or_assoc]
  have e : ∀ n : Nat, ((p.pdgCode.natAbs : Int) = (n : Int)) ↔ p.pdgCode.natAbs = n :=
    fun n => Int.ofNat_inj
  have e1 := e 211
  have e2 := e 321
  have e3 := e 2212
  have e4 := e 11
  have e5 := e 13
  simp only [Nat.cast_ofNat] at e1 e2 e3 e4 e5
  rw [e1, e2, e3, e4, e5]

theorem loopBodyPP_tables (IS_MC : Bool) (mcParticle : McBinding) (collision : Collision)
    (st : PairState) (pair : Track × Track) :
    (loopBodyPP IS_MC mcParticle collision st pair).trackPairForEffTablePP
        = st.trackPairForEffTablePP ++
          [pairRecord pair.1 pair.2 (truthTag IS_MC mcParticle collision pair.1 pair.2)]
      ∧ (loopBodyPP IS_MC mcParticle collision st pair).trackPairForEffTableNN
        = st.trackPairForEffTableNN
      ∧ (loopBodyPP IS_MC mcParticle collision st pair).trackPairForEffTableNP
        = st.trackPairForEffTableNP
      ∧ (loopBodyPP IS_MC mcParticle collision st pair).trackPairForEffTablePN
        = st.trackPairForEffTablePN := by
  obtain ⟨track0, track1⟩ := pair
  unfold loopBodyPP truthTag pairRecord verifiedPrimary
  cases IS_MC
  · simp
  · by_cases hid : track0.mcParticleId = track1.mcParticleId
    · cases hp : mcParticle track0.mcParticleId with
      | none => simp only [hid, hp, if_true, true_and]; rw [← hid, hp]; simp
      | some p =>
        simp only [hid, hp, if_true, true_and]
        rw [← hid, hp]
        simp only []
        split <;> simp
    · simp [hid]

theorem loopBodyNN_tables (IS_MC : Bool) (mcParticle : McBinding) (collision : Collision)
    (st : PairState) (pair : Track × Track) :
    (loopBodyNN IS_MC mcParticle collision st pair).trackPairForEffTableNN
        = st.trackPairForEffTableNN ++
          [pairRecord pair.1 pair.2 (truthTag IS_MC mcParticle collision pair.1 pair.2)]
      ∧ (loopBodyNN IS_MC mcParticle collision st pair).trackPairForEffTablePP
        = st.trackPairForEffTablePP
      ∧ (loopBodyNN IS_MC mcParticle collision st pair).trackPairForEffTableNP
        = st.trackPairForEffTableNP
      ∧ (loopBodyNN IS_MC mcParticle collision st pair).trackPairForEffTablePN
        = st.trackPairForEffTablePN := by
  obtain ⟨track0, track1⟩ := pair
  unfold loopBodyNN truthTag pairRecord verifiedPrimary
  cases IS_MC
  · simp
  · by_cases hid : track0.mcParticleId = track1.mcParticleId
    · cases hp : mcParticle track0.mcParticleId with
      | none => simp only [hid, hp, if_true, true_and]; rw [← hid, hp]; simp
      | some p =>
        simp only [hid, hp, if_true, true_and]
        rw [← hid, hp]
        simp only []
        split <;> simp
    · simp [hid]

theorem loopBodyNP_tables (IS_MC : Bool) (mcParticle : McBinding) (collision : Collision)
    (st : PairState) (pair : Track × Track) :
    (loopBodyNP IS_MC mcParticle collision st pair).trackPairForEffTableNP
        = st.trackPairForEffTableNP ++
          [pairRecord pair.1 pair.2 (truthTag IS_MC mcParticle collision pair.1 pair.2)]
      ∧ (loopBodyNP IS_MC mcParticle collision st pair).trackPairForEffTablePP
        = st.trackPairForEffTablePP
      ∧ (loopBodyNP IS_MC mcParticle collision st pair).trackPairForEffTableNN
        = st.trackPairForEffTableNN
      ∧ (loopBodyNP IS_MC mcParticle collision st pair).trackPairForEffTablePN
        = st.trackPairForEffTablePN := by
  obtain ⟨track0, track1⟩ := pair
  unfold loopBodyNP truthTag pairRecord verifiedPrimary
  cases IS_MC
  · simp
  · by_cases hid : track0.mcParticleId = track1.mcParticleId
    · cases hp : mcParticle track0.mcParticleId with
      | none => simp only [hid, hp, if_true, true_and]; rw [← hid, hp]; simp
      | some p =>
        simp only [hid, hp, if_true, true_and]
        rw [← hid, hp]
        simp only []
        split <;> simp
    · simp [hid]

theorem loopBodyPN_tables (IS_MC : Bool) (mcParticle : McBinding) (collision : Collision)
    (st : PairState) (pair : Track × Track) :
    (loopBodyPN IS_MC mcParticle collision st pair).trackPairForEffTablePN
        = st.trackPairForEffTablePN ++
          [pairRecord pair.1 pair.2 (truthTag IS_MC mcParticle collision pair.1 pair.2)]
      ∧ (loopBodyPN IS_MC mcParticle collision st pair).trackPairForEffTablePP
        = st.trackPairForEffTablePP
      ∧ (loopBodyPN IS_MC mcParticle collision st pair).trackPairForEffTableNN
        = st.trackPairForEffTableNN
      ∧ (loopBodyPN IS_MC mcParticle collision st pair).trackPairForEffTableNP
        = st.trackPairForEffTableNP := by
  obtain ⟨track0, track1⟩ := pair
  unfold loopBodyPN truthTag pairRecord verifiedPrimary
  cases IS_MC
  · simp
  · by_cases hid : track0.mcParticleId = track1.mcParticleId
    · cases hp : mcParticle track0.mcParticleId with
      | none => simp only [hid, hp, if_true, true_and]; rw [← hid, hp]; simp
      | some p =>
        simp only [hid, hp, if_true, true_and]
        rw [← hid, hp]
        simp only []
        split <;> simp
    · simp [hid]

/-- A loop whose body appends one row to a table appends the rows of its sequence,
in order. -/
theorem foldl_appends {σ X R : Type} (f : σ → X → σ) (proj : σ → List R) (g : X → R)
    (h : ∀ st x, proj (f st x) = proj st ++ [g x]) :
    ∀ (l : List X) (st : σ), proj (l.foldl f st) = proj st ++ l.map g := by
  intro l
  induction l with
  | nil => intro st; simp
  | cons x rest ih => intro st; simp [List.foldl_cons, ih, h]

/-- A loop whose body leaves a component alone leaves it alone. -/
theorem foldl_keeps {σ X R : Type} (f : σ → X → σ) (proj : σ → R)
    (h : ∀ st x, proj (f st x) = proj st) :
    ∀ (l : List X) (st : σ), proj (l.foldl f st) = proj st := by
  intro l
  induction l with
  | nil => intro st; rfl
  | cons x rest ih => intro st; simp [List.foldl_cons, ih, h]

/-- Each output table of `processPair` holds, in order, one row per pair of the
full-index combinations of its two subsets. -/
theorem processPair_table (IS_MC : Bool) (mcParticle : McBinding) (collision : Collision)
    (pTPC pITS nTPC nITS : List Track) (c : PairType) :
    (processPair IS_MC mcParticle collision pTPC pITS nTPC nITS).table c
      = (combinationsFullIndex (subsetITS pITS nITS c) (subsetTPC pTPC nTPC c)).map
          (fun pair => pairRecord pair.1 pair.2
            (truthTag IS_MC mcParticle collision pair.1 pair.2)) := by
  cases c
  · simp only [PairState.table, subsetITS, subsetTPC, processPair]
    rw [foldl_keeps _ (fun st => st.trackPairForEffTablePP)
          (fun st x => (loopBodyPN_tables IS_MC mcParticle collision st x).2.1),
        foldl_keeps _ (fun st => st.trackPairForEffTablePP)
          (fun st x => (loopBodyNP_tables IS_MC mcParticle collision st x).2.1),
        foldl_keeps _ (fun st => st.trackPairForEffTablePP)
          (fun st x => (loopBodyNN_tables IS_MC mcParticle collision st x).2.1),
        foldl_appends _ (fun st => st.trackPairForEffTablePP) _
          (fun st x => (loopBodyPP_tables IS_MC mcParticle collision st x).1)]
    simp
  · simp only [PairState.table, subsetITS, subsetTPC, processPair]
    rw [foldl_keeps _ (fun st => st.trackPairForEffTableNN)
          (fun st x => (loopBodyPN_tables IS_MC mcParticle collision st x).2.2.1),
        foldl_keeps _ (fun st => st.trackPairForEffTableNN)
          (fun st x => (loopBodyNP_tables IS_MC mcParticle collision st x).2.2.1),
        foldl_appends _ (fun st => st.trackPairForEffTableNN) _
          (fun st x => (loopBodyNN_tables IS_MC mcParticle collision st x).1),
        foldl_keeps _ (fun st => st.trackPairForEffTableNN)
          (fun st x => (loopBodyPP_tables IS_MC mcParticle collision st x).2.1)]
    simp
  · simp only [PairState.table, subsetITS, subsetTPC, processPair]
    rw [foldl_keeps _ (fun st => st.trackPairForEffTableNP)
          (fun st x => (loopBodyPN_tables IS_MC mcParticle collision st x).2.2.2),
        foldl_appends _ (fun st => st.trackPairForEffTableNP) _
          (fun st x => (loopBodyNP_tables IS_MC mcParticle collision st x).1),
        foldl_keeps _ (fun st => st.trackPairForEffTableNP)
          (fun st x => (loopBodyNN_tables IS_MC mcParticle collision st x).2.2.1),
        foldl_keeps _ (fun st => st.trackPairForEffTableNP)
          (fun st x => (loopBodyPP_tables IS_MC mcParticle collision st x).2.2.1)]
    simp
  · simp only [PairState.table, subsetITS, subsetTPC, processPair]
    rw [foldl_appends _ (fun st => st.trackPairForEffTablePN) _
          (fun st x => (loopBodyPN_tables IS_MC mcParticle collision st x).1),
        foldl_keeps _ (fun st => st.trackPairForEffTablePN)
          (fun st x => (loopBodyNP_tables IS_MC mcParticle collision st x).2.2.2),
        foldl_keeps _ (fun st => st.trackPairForEffTablePN)
          (fun st x => (loopBodyNN_tables IS_MC mcParticle collision st x).2.2.2),
        foldl_keeps _ (fun st => st.trackPairForEffTablePN)
          (fun st x => (loopBodyPP_tables IS_MC mcParticle collision st x).2.2.2)]
    simp

/-! ## Lemmas on the full-index combinations -/

theorem length_combinationsFullIndex {α β : Type} (t0 : List α) (t1 : List β) :
    (combinationsFullIndex t0 t1).length = t0.length * t1.length := by
  induction t0 with
  | nil => simp [combinationsFullIndex]
  | cons a rest ih => simp [combinationsFullIndex, ih, Nat.succ_mul, Nat.add_comm]

theorem mem_combinationsFullIndex {α β : Type} (t0 : List α) (t1 : List β) (a : α) (b : β) :
    (a, b) ∈ combinationsFullIndex t0 t1 ↔ a ∈ t0 ∧ b ∈ t1 := by
  induction t0 with
  | nil => simp [combinationsFullIndex]
  | cons x rest ih =>
    simp only [combinationsFullIndex, List.mem_append, List.mem_map, Prod.mk.injEq, ih,
      List.mem_cons]
    constructor
    · rintro (⟨b', hb', rfl, rfl⟩ | ⟨h1, h2⟩)
      · exact ⟨Or.inl rfl, hb'⟩
      · exact ⟨Or.inr h1, h2⟩
    · rintro ⟨rfl | h1, h2⟩
      · exact Or.inl ⟨b, h2, rfl, rfl⟩
      · exact Or.inr ⟨h1, h2⟩

theorem nodup_combinationsFullIndex {α β : Type} (t0 : List α) (t1 : List β)
    (h0 : t0.Nodup) (h1 : t1.Nodup) : (combinationsFullIndex t0 t1).Nodup := by
  induction t0 with
  | nil => simp [combinationsFullIndex]
  | cons x rest ih =>
    have hx := List.nodup_cons.mp h0
    simp only [combinationsFullIndex]
    refine List.Nodup.append ?_ (ih hx.2) ?_
    · exact h1.map (fun b b' e => (Prod.mk.inj e).2)
    · intro pr hpr1 hpr2
      obtain ⟨a, b⟩ := pr
      simp only [List.mem_map, Prod.mk.injEq] at hpr1
      obtain ⟨b', _, rfl, rfl⟩ := hpr1
      exact hx.1 ((mem_combinationsFullIndex rest t1 _ _).mp hpr2).1

theorem nodup_enum {α : Type} (l : List α) : l.enum.Nodup := by
  have h : (l.enum.map Prod.fst).Nodup := by simp [List.nodup_range]
  exact List.Nodup.of_map _ h

theorem map_snd_combinationsFullIndex {α β α' β' : Type} (f : α → α') (g : β → β')
    (t0 : List α) (t1 : List β) :
    combinationsFullIndex (t0.map f) (t1.map g)
      = (combinationsFullIndex t0 t1).map (fun pr => (f pr.1, g pr.2)) := by
  induction t0 with
  | nil => simp [combinationsFullIndex]
  | cons a rest ih => simp [combinationsFullIndex, ih]

theorem countP_fst_combinationsFullIndex {α β : Type} [DecidableEq α] (t0 : List α)
    (t1 : List β) (a : α) :
    (combinationsFullIndex t0 t1).countP (fun pr => decide (pr.1 = a))
      = t0.count a * t1.length := by
  induction t0 with
  | nil => simp [combinationsFullIndex]
  | cons x rest ih =>
    simp only [combinationsFullIndex, List.countP_append, ih, List.countP_map, List.count_cons]
    by_cases hx : x = a
    · subst hx
      simp [Function.comp_def, Nat.add_mul, Nat.add_comm]
    · have hx' : ¬ (x == a) = true := by simpa using hx
      simp [Function.comp_def, hx, hx']

theorem countP_snd_combinationsFullIndex {α β : Type} [DecidableEq β] (t0 : List α)
    (t1 : List β) (b : β) :
    (combinationsFullIndex t0 t1).countP (fun pr => decide (pr.2 = b))
      = t0.length * t1.count b := by
  induction t0 with
  | nil => simp [combinationsFullIndex]
  | cons x rest ih =>
    simp only [combinationsFullIndex, List.countP_append, ih, List.countP_map, List.length_cons]
    have : List.countP ((fun pr : α × β => decide (pr.2 = b)) ∘ fun b => (x, b)) t1
        = t1.count b := by
      simp [Function.comp_def, List.count, List.countP_eq_length_filter]
      congr 1
    rw [this, Nat.succ_mul, Nat.add_comm]


/-! ## Claims on `processPair` -/

/-- Claim C2: in simulation mode, for the `k`-th pair `(trackA, trackB)` of any of the
four combinations, if both tracks carry the same particle index, the index resolves
to a particle, the collision and the particle have the same simulated-event id, the
absolute species code is 211, 321, 2212, 11 or 13 and the particle is a physical
primary, then the truth tag of the `k`-th row of that combination's table is the
particle's pt (hence non-negative when the pt is). -/
theorem C2_verified_primary_tag_is_pt (mcParticle : McBinding) (collision : Collision)
    (pTPC pITS nTPC nITS : List Track) (c : PairType) (k : Nat) (trackA trackB : Track)
    (particle : McParticle)
    (hpair : (combinationsFullIndex (subsetITS pITS nITS c) (subsetTPC pTPC nTPC c))[k]?
      = some (trackA, trackB))
    (hsame : trackA.mcParticleId = trackB.mcParticleId)
    (hres : mcParticle trackA.mcParticleId = some particle)
    (hcoll : collision.mcCollisionId = particle.mcCollisionId)
    (hpdg : particle.pdgCode.natAbs ∈ [211, 321, 2212, 11, 13])
    (hprim : particle.isPhysicalPrimary = true) :
    ∃ r : PairRecord, ((processPair true mcParticle collision pTPC pITS nTPC nITS).table c)[k]? = some r
      ∧ r.mcPtIfisSamePart = particle.pt
      ∧ (0 ≤ particle.pt → 0 ≤ r.mcPtIfisSamePart) := by
  have hv : verifiedPrimary collision particle = true :=
    (verifiedPrimary_iff collision particle).mpr ⟨hcoll, hprim, by simpa using hpdg⟩
  refine ⟨pairRecord trackA trackB particle.pt, ?_, rfl, fun h => h⟩
  rw [processPair_table, List.getElem?_map, hpair]
  simp [truthTag, hsame.symm, hres, hv]

/-- Witness of C2: one positive ITS-only track and one positive TPC-only track, both
labelled with a primary pion of pt 1.2, give the single row of table PP, with truth
tag 1.2. -/
theorem C2_verified_primary_tag_is_pt_witness :
    (processPair true bindPrimary collision0 [trackTPC] [trackITS] [] []).trackPairForEffTablePP
        = [pairRecord trackITS trackTPC (6 / 5)]
      ∧ ∃ r : PairRecord, ((processPair true bindPrimary collision0 [trackTPC] [trackITS] [] []).table
            PairType.PP)[0]? = some r
          ∧ r.mcPtIfisSamePart = primaryPion.pt
          ∧ (0 ≤ primaryPion.pt → 0 ≤ r.mcPtIfisSamePart) :=
  ⟨rfl, C2_verified_primary_tag_is_pt bindPrimary collision0 [trackTPC] [trackITS] [] []
    PairType.PP 0 trackITS trackTPC primaryPion rfl rfl rfl rfl (by decide) rfl⟩

/-- Claim C3: in simulation mode, for the `k`-th pair of any of the four combinations
whose tracks carry the same particle index resolving to a particle, if the particle
is not a physical primary, or its absolute species code is none of 211, 321, 2212,
11, 13, or the collision's simulated-event id differs from the particle's, then the
truth tag of the `k`-th row of that combination's table is minus the particle's
pt. -/
theorem C3_unverified_match_tag_is_minus_pt (mcParticle : McBinding) (collision : Collision)
    (pTPC pITS nTPC nITS : List Track) (c : PairType) (k : Nat) (trackA trackB : Track)
    (particle : McParticle)
    (hpair : (combinationsFullIndex (subsetITS pITS nITS c) (subsetTPC pTPC nTPC c))[k]?
      = some (trackA, trackB))
    (hsame : trackA.mcParticleId = trackB.mcParticleId)
    (hres : mcParticle trackA.mcParticleId = some particle)
    (hfail : particle.isPhysicalPrimary = false
      ∨ particle.pdgCode.natAbs ∉ [211, 321, 2212, 11, 13]
      ∨ collision.mcCollisionId ≠ particle.mcCollisionId) :
    ∃ r : PairRecord, ((processPair true mcParticle collision pTPC pITS nTPC nITS).table c)[k]? = some r
      ∧ r.mcPtIfisSamePart = -particle.pt := by
  have hv : verifiedPrimary collision particle = false := by
    rw [← Bool.not_eq_true, verifiedPrimary_iff]
    rintro ⟨h1, h2, h3⟩
    rcases hfail with h | h | h
    · simp [h2] at h
    · exact h (by simpa using h3)
    · exact h h1
  refine ⟨pairRecord trackA trackB (-particle.pt), ?_, rfl⟩
  rw [processPair_table, List.getElem?_map, hpair]
  simp [truthTag, hsame.symm, hres, hv]

/-- Witness of C3: the same two tracks, the pion of pt 1.2 not being a physical
primary: the single row of table PP has truth tag -1.2. -/
theorem C3_unverified_match_tag_is_minus_pt_witness :
    (processPair true bindSecondary collision0 [trackTPC] [trackITS] [] []).trackPairForEffTablePP
        = [pairRecord trackITS trackTPC (-(6 / 5))]
      ∧ ∃ r : PairRecord, ((processPair true bindSecondary collision0 [trackTPC] [trackITS] [] []).table
            PairType.PP)[0]? = some r
          ∧ r.mcPtIfisSamePart = -secondaryPion.pt :=
  ⟨rfl, C3_unverified_match_tag_is_minus_pt bindSecondary collision0 [trackTPC] [trackITS] [] []
    PairType.PP 0 trackITS trackTPC secondaryPion rfl rfl rfl (Or.inl rfl)⟩

/-- Claim C4: in simulation mode, for the `k`-th pair of any of the four combinations
whose tracks carry different particle indices, or one of whose tracks has no
resolved particle, the truth tag of the `k`-th row of that combination's table is
-9999. -/
theorem C4_no_shared_particle_tag_is_sentinel (mcParticle : McBinding) (collision : Collision)
    (pTPC pITS nTPC nITS : List Track) (c : PairType) (k : Nat) (trackA trackB : Track)
    (hpair : (combinationsFullIndex (subsetITS pITS nITS c) (subsetTPC pTPC nTPC c))[k]?
      = some (trackA, trackB))
    (hno : trackA.mcParticleId ≠ trackB.mcParticleId
      ∨ mcParticle trackA.mcParticleId = none
      ∨ mcParticle trackB.mcParticleId = none) :
    ∃ r : PairRecord, ((processPair true mcParticle collision pTPC pITS nTPC nITS).table c)[k]? = some r
      ∧ r.mcPtIfisSamePart = -9999 := by
  refine ⟨pairRecord trackA trackB (-9999), ?_, rfl⟩
  rw [processPair_table, List.getElem?_map, hpair]
  by_cases hid : trackA.mcParticleId = trackB.mcParticleId
  · have hA : mcParticle trackA.mcParticleId = none := by
      rcases hno with h | h | h
      · exact absurd hid h
      · exact h
      · rw [hid]; exact h
    simp [truthTag, hid.symm, hA]
  · simp [truthTag, hid]

/-- Witness of C4: an ITS-only track labelled 7 with a TPC-only track labelled 8. -/
theorem C4_no_shared_particle_tag_is_sentinel_witness :
    ∃ r : PairRecord, ((processPair true bindPrimary collision0 [trackTPCother] [trackITS] [] []).table
          PairType.PP)[0]? = some r
      ∧ r.mcPtIfisSamePart = -9999 :=
  C4_no_shared_particle_tag_is_sentinel bindPrimary collision0 [trackTPCother] [trackITS] [] []
    PairType.PP 0 trackITS trackTPCother rfl (Or.inl (by decide))

/-- Claim C5: with `m` positive ITS-only, `n` positive TPC-only, `p` negative ITS-only
and `q` negative TPC-only tracks, `processPair` writes `m * n` rows to table PP,
`p * q` to NN, `p * n` to NP and `m * q` to PN, so `m * n + p * q + p * n + m * q`
rows in all; a combination one of whose subsets is empty gets no row, and with four
empty subsets nothing is written. -/
theorem C5_pair_counts (IS_MC : Bool) (mcParticle : McBinding) (collision : Collision)
    (pTPC pITS nTPC nITS : List Track) :
    (processPair IS_MC mcParticle collision pTPC pITS nTPC nITS).trackPairForEffTablePP.length
        = pITS.length * pTPC.length
      ∧ (processPair IS_MC mcParticle collision pTPC pITS nTPC nITS).trackPairForEffTableNN.length
        = nITS.length * nTPC.length
      ∧ (processPair IS_MC mcParticle collision pTPC pITS nTPC nITS).trackPairForEffTableNP.length
        = nITS.length * pTPC.length
      ∧ (processPair IS_MC mcParticle collision pTPC pITS nTPC nITS).trackPairForEffTablePN.length
        = pITS.length * nTPC.length
      ∧ (processPair IS_MC mcParticle collision pTPC pITS nTPC nITS).trackPairForEffTablePP.length
          + (processPair IS_MC mcParticle collision pTPC pITS nTPC nITS).trackPairForEffTableNN.length
          + (processPair IS_MC mcParticle collision pTPC pITS nTPC nITS).trackPairForEffTableNP.length
          + (processPair IS_MC mcParticle collision pTPC pITS nTPC nITS).trackPairForEffTablePN.length
        = pITS.length * pTPC.length + nITS.length * nTPC.length + nITS.length * pTPC.length
          + pITS.length * nTPC.length
      ∧ (∀ c : PairType, subsetITS pITS nITS c = [] ∨ subsetTPC pTPC nTPC c = [] →
          (processPair IS_MC mcParticle collision pTPC pITS nTPC nITS).table c = [])
      ∧ (processPair IS_MC mcParticle collision [] [] [] [])
        = ⟨-9999, [], [], [], [], []⟩ := by
  have hPP := processPair_table IS_MC mcParticle collision pTPC pITS nTPC nITS PairType.PP
  have hNN := processPair_table IS_MC mcParticle collision pTPC pITS nTPC nITS PairType.NN
  have hNP := processPair_table IS_MC mcParticle collision pTPC pITS nTPC nITS PairType.NP
  have hPN := processPair_table IS_MC mcParticle collision pTPC pITS nTPC nITS PairType.PN
  simp only [PairState.table, subsetITS, subsetTPC] at hPP hNN hNP hPN
  have l1 := congrArg List.length hPP
  have l2 := congrArg List.length hNN
  have l3 := congrArg List.length hNP
  have l4 := congrArg List.length hPN
  simp only [List.length_map, length_combinationsFullIndex] at l1 l2 l3 l4
  refine ⟨l1, l2, l3, l4, by rw [l1, l2, l3, l4], ?_, rfl⟩
  intro c hc
  apply List.eq_nil_of_length_eq_zero
  rw [processPair_table, List.length_map, length_combinationsFullIndex]
  rcases hc with h | h <;> simp [h]

/-- Witness of C5: without positive TPC-only tracks table PP stays empty. -/
theorem C5_pair_counts_witness :
    (processPair true bindPrimary collision0 [] [trackITS] [trackTPC] []).table PairType.PP = [] :=
  (C5_pair_counts true bindPrimary collision0 [] [trackITS] [trackTPC] []).2.2.2.2.2.1
    PairType.PP (Or.inr rfl)

/-- Claim C6: for each combination the rows of its table are, position by position,
the images of the full-index combinations of the two subsets with their positions
(`enum`), and those combinations list every pair (position in the ITS-only subset,
position in the TPC-only subset) exactly once and nothing else. Tracks stay in their
subsets: a track of the positive ITS-only subset is in `n + q` pairs (tables PP and
PN), a track of the positive TPC-only subset in `m + p` pairs (tables PP and NP). -/
theorem C6_full_cross_product (IS_MC : Bool) (mcParticle : McBinding) (collision : Collision)
    (pTPC pITS nTPC nITS : List Track) :
    (∀ c : PairType,
      (processPair IS_MC mcParticle collision pTPC pITS nTPC nITS).table c
          = (combinationsFullIndex (subsetITS pITS nITS c).enum (subsetTPC pTPC nTPC c).enum).map
              (fun pr => pairRecord pr.1.2 pr.2.2
                (truthTag IS_MC mcParticle collision pr.1.2 pr.2.2))
        ∧ (combinationsFullIndex (subsetITS pITS nITS c).enum (subsetTPC pTPC nTPC c).enum).Nodup
        ∧ ∀ (a b : Nat × Track),
            (a, b) ∈ combinationsFullIndex (subsetITS pITS nITS c).enum
                (subsetTPC pTPC nTPC c).enum
              ↔ a ∈ (subsetITS pITS nITS c).enum ∧ b ∈ (subsetTPC pTPC nTPC c).enum)
      ∧ (∀ a ∈ pITS.enum,
          (combinationsFullIndex pITS.enum pTPC.enum).countP (fun pr => decide (pr.1 = a))
            + (combinationsFullIndex pITS.enum nTPC.enum).countP (fun pr => decide (pr.1 = a))
          = pTPC.length + nTPC.length)
      ∧ (∀ b ∈ pTPC.enum,
          (combinationsFullIndex pITS.enum pTPC.enum).countP (fun pr => decide (pr.2 = b))
            + (combinationsFullIndex nITS.enum pTPC.enum).countP (fun pr => decide (pr.2 = b))
          = pITS.length + nITS.length) := by
  refine ⟨fun c => ⟨?_, ?_, ?_⟩, ?_, ?_⟩
  · rw [processPair_table]
    conv_lhs => rw [← List.enum_map_snd (subsetITS pITS nITS c),
      ← List.enum_map_snd (subsetTPC pTPC nTPC c)]
    rw [map_snd_combinationsFullIndex, List.map_map]
    rfl
  · exact nodup_combinationsFullIndex _ _ (nodup_enum _) (nodup_enum _)
  · exact fun a b => mem_combinationsFullIndex _ _ a b
  · intro a ha
    have hc := List.count_eq_one_of_mem (nodup_enum pITS) ha
    rw [countP_fst_combinationsFullIndex, countP_fst_combinationsFullIndex, hc]
    simp
  · intro b hb
    have hc := List.count_eq_one_of_mem (nodup_enum pTPC) hb
    rw [countP_snd_combinationsFullIndex, countP_snd_combinationsFullIndex, hc]
    simp

/-- Witness of C6: with one positive ITS-only track, two positive and one negative
TPC-only tracks, the ITS-only track is in 2 + 1 pairs. -/
theorem C6_full_cross_product_witness :
    (combinationsFullIndex [trackITS].enum [trackTPC, trackTPCother].enum).countP
          (fun pr => decide (pr.1 = (0, trackITS)))
        + (combinationsFullIndex [trackITS].enum [trackTPC].enum).countP
          (fun pr => decide (pr.1 = (0, trackITS)))
      = [trackTPC, trackTPCother].length + [trackTPC].length :=
  (C6_full_cross_product true bindPrimary collision0 [trackTPC, trackTPCother] [trackITS]
    [trackTPC] []).2.1 (0, trackITS) (by simp)

/-- Claim C10: for the `k`-th pair `(trackA, trackB)` of a combination, `trackA` from
its ITS-only subset and `trackB` from its TPC-only subset, the `k`-th row of that
combination's table is (`trackB.pt`, `trackB.eta`, `trackB.phi`, `trackA.pt`,
`trackA.eta`, `trackA.phi`, `trackA.itsNCls`, `trackB.tpcNClsFound`, truth tag), the
columns in the order of the table declaration, and the table has as many rows as the
combination has pairs. -/
theorem C10_record_fields (IS_MC : Bool) (mcParticle : McBinding) (collision : Collision)
    (pTPC pITS nTPC nITS : List Track) (c : PairType) (k : Nat) (trackA trackB : Track)
    (hpair : (combinationsFullIndex (subsetITS pITS nITS c) (subsetTPC pTPC nTPC c))[k]?
      = some (trackA, trackB)) :
    ((processPair IS_MC mcParticle collision pTPC pITS nTPC nITS).table c)[k]?
        = some { ptTPCtr := trackB.pt, etaTPCtr := trackB.eta, phiTPCtr := trackB.phi,
                 ptITStr := trackA.pt, etaITStr := trackA.eta, phiITStr := trackA.phi,
                 nClustITS := trackA.itsNCls, nClustTPC := trackB.tpcNClsFound,
                 mcPtIfisSamePart := truthTag IS_MC mcParticle collision trackA trackB }
      ∧ ((processPair IS_MC mcParticle collision pTPC pITS nTPC nITS).table c).length
        = (combinationsFullIndex (subsetITS pITS nITS c) (subsetTPC pTPC nTPC c)).length := by
  rw [processPair_table, List.getElem?_map, hpair]
  exact ⟨rfl, by simp⟩

/-- Witness of C10: the row written to table PN for a positive ITS-only track and a
negative TPC-only track, in data mode. -/
theorem C10_record_fields_witness :
    ((processPair false bindPrimary collision0 [] [trackITS] [trackTPC] []).table PairType.PN)[0]?
        = some { ptTPCtr := trackTPC.pt, etaTPCtr := trackTPC.eta, phiTPCtr := trackTPC.phi,
                 ptITStr := trackITS.pt, etaITStr := trackITS.eta, phiITStr := trackITS.phi,
                 nClustITS := trackITS.itsNCls, nClustTPC := trackTPC.tpcNClsFound,
                 mcPtIfisSamePart := truthTag false bindPrimary collision0 trackITS trackTPC }
      ∧ ((processPair false bindPrimary collision0 [] [trackITS] [trackTPC] []).table
          PairType.PN).length
        = (combinationsFullIndex (subsetITS [trackITS] [] PairType.PN)
            (subsetTPC [] [trackTPC] PairType.PN)).length :=
  C10_record_fields false bindPrimary collision0 [] [trackITS] [trackTPC] [] PairType.PN 0
    trackITS trackTPC rfl

/-! ## Claims on the species tests and on the tag outside simulation mode -/

theorem loopBodyPP_issamemcpt (IS_MC : Bool) (mcParticle : McBinding) (collision : Collision)
    (st : PairState) (pair : Track × Track) :
    (loopBodyPP IS_MC mcParticle collision st pair).issamemcpt
      = truthTag IS_MC mcParticle collision pair.1 pair.2 := by
  obtain ⟨track0, track1⟩ := pair
  unfold loopBodyPP truthTag verifiedPrimary
  cases IS_MC
  · simp
  · by_cases hid : track0.mcParticleId = track1.mcParticleId
    · cases hp : mcParticle track0.mcParticleId with
      | none => simp only [hid, hp, if_true, true_and]; rw [← hid, hp]
      | some p =>
        simp only [hid, hp, if_true, true_and]
        rw [← hid, hp]
        simp only []
        split <;> simp
    · simp [hid]

theorem loopBodyNN_issamemcpt (IS_MC : Bool) (mcParticle : McBinding) (collision : Collision)
    (st : PairState) (pair : Track × Track) :
    (loopBodyNN IS_MC mcParticle collision st pair).issamemcpt
      = truthTag IS_MC mcParticle collision pair.1 pair.2 := by
  obtain ⟨track0, track1⟩ := pair
  unfold loopBodyNN truthTag verifiedPrimary
  cases IS_MC
  · simp
  · by_cases hid : track0.mcParticleId = track1.mcParticleId
    · cases hp : mcParticle track0.mcParticleId with
      | none => simp only [hid, hp, if_true, true_and]; rw [← hid, hp]
      | some p =>
        simp only [hid, hp, if_true, true_and]
        rw [← hid, hp]
        simp only []
        split <;> simp
    · simp [hid]

theorem loopBodyNP_issamemcpt (IS_MC : Bool) (mcParticle : McBinding) (collision : Collision)
    (st : PairState) (pair : Track × Track) :
    (loopBodyNP IS_MC mcParticle collision st pair).issamemcpt
      = truthTag IS_MC mcParticle collision pair.1 pair.2 := by
  obtain ⟨track0, track1⟩ := pair
  unfold loopBodyNP truthTag verifiedPrimary
  cases IS_MC
  · simp
  · by_cases hid : track0.mcParticleId = track1.mcParticleId
    · cases hp : mcParticle track0.mcParticleId with
      | none => simp only [hid, hp, if_true, true_and]; rw [← hid, hp]
      | some p =>
        simp only [hid, hp, if_true, true_and]
        rw [← hid, hp]
        simp only []
        split <;> simp
    · simp [hid]

theorem loopBodyPN_issamemcpt (IS_MC : Bool) (mcParticle : McBinding) (collision : Collision)
    (st : PairState) (pair : Track × Track) :
    (loopBodyPN IS_MC mcParticle collision st pair).issamemcpt
      = truthTag IS_MC mcParticle collision pair.1 pair.2 := by
  obtain ⟨track0, track1⟩ := pair
  unfold loopBodyPN truthTag verifiedPrimary
  cases IS_MC
  · simp
  · by_cases hid : track0.mcParticleId = track1.mcParticleId
    · cases hp : mcParticle track0.mcParticleId with
      | none => simp only [hid, hp, if_true, true_and]; rw [← hid, hp]
      | some p =>
        simp only [hid, hp, if_true, true_and]
        rw [← hid, hp]
        simp only []
        split <;> simp
    · simp [hid]

theorem truthTag_data (mcParticle : McBinding) (collision : Collision) (track0 track1 : Track) :
    truthTag false mcParticle collision track0 track1 = -9999 := by
  simp [truthTag]

/-- Claim C11: outside simulation mode (`IS_MC = false`) every row written by
`processPair`, in each of the four tables, has truth tag -9999, whatever the tracks,
the collision and the particle binding. -/
theorem C11_data_mode_tag_is_sentinel (mcParticle : McBinding) (collision : Collision)
    (pTPC pITS nTPC nITS : List Track) (c : PairType) (r : PairRecord)
    (hr : r ∈ (processPair false mcParticle collision pTPC pITS nTPC nITS).table c) :
    r.mcPtIfisSamePart = -9999 := by
  rw [processPair_table] at hr
  obtain ⟨pair, _, rfl⟩ := List.mem_map.mp hr
  simp [pairRecord, truthTag_data]

/-- Witness of C11: in data mode the row written for two tracks that share the
label of a primary pion is in table PP, with tag -9999. -/
theorem C11_data_mode_tag_is_sentinel_witness :
    pairRecord trackITS trackTPC (-9999)
        ∈ (processPair false bindPrimary collision0 [trackTPC] [trackITS] [] []).table PairType.PP
      ∧ (pairRecord trackITS trackTPC (-9999)).mcPtIfisSamePart = -9999 :=
  have h : pairRecord trackITS trackTPC (-9999)
      ∈ (processPair false bindPrimary collision0 [trackTPC] [trackITS] [] []).table
          PairType.PP := by
    rw [processPair_table]
    simp [subsetITS, subsetTPC, combinationsFullIndex, truthTag_data]
  ⟨h, C11_data_mode_tag_is_sentinel bindPrimary collision0 [trackTPC] [trackITS] [] []
    PairType.PP (pairRecord trackITS trackTPC (-9999)) h⟩

/-- Claim C12: the strangeness test on a signed species code `c`, with `a = |c|` and
integer division, is `a / 1000 = 3`, or `a / 1000 = 0` and `a / 100 = 3`; it holds
exactly when `3000 ≤ |c| ≤ 3999` or `300 ≤ |c| ≤ 399`. So 3122, 3334, 310 and 321
pass, 130, 211, 2212, 431 and 13122 do not, and `c` and `-c` get the same answer. -/
theorem C12_strange_code_ranges (c : Int) :
    (isStrangePDG c = true ↔
        ((c.natAbs : Int) / 1000 = 3 ∨ ((c.natAbs : Int) / 1000 = 0 ∧ (c.natAbs : Int) / 100 = 3)))
      ∧ (isStrangePDG c = true ↔
        (3000 ≤ c.natAbs ∧ c.natAbs ≤ 3999) ∨ (300 ≤ c.natAbs ∧ c.natAbs ≤ 399))
      ∧ isStrangePDG (-c) = isStrangePDG c
      ∧ isStrangePDG 3122 = true ∧ isStrangePDG 3334 = true ∧ isStrangePDG 310 = true
      ∧ isStrangePDG 321 = true ∧ isStrangePDG 130 = false ∧ isStrangePDG 211 = false
      ∧ isStrangePDG 2212 = false ∧ isStrangePDG 431 = false ∧ isStrangePDG 13122 = false := by
  have h1 : isStrangePDG c = true ↔
      ((c.natAbs : Int) / 1000 = 3 ∨ ((c.natAbs : Int) / 1000 = 0 ∧ (c.natAbs : Int) / 100 = 3)) := by
    unfold isStrangePDG
    simp only []
    split
    · simp_all
    · split <;> simp_all
  refine ⟨h1, ?_, ?_, by decide, by decide, by decide, by decide, by decide, by decide,
    by decide, by decide, by decide⟩
  · rw [h1]
    omega
  · simp [isStrangePDG]

theorem speciesFillRecoMCHisto_iff (c : Int) :
    speciesFillRecoMCHisto c = true ↔ c.natAbs ∈ [211, 321, 2212, 11, 13] := by
  simp only [speciesFillRecoMCHisto, Bool.or_eq_true, beq_iff_eq, List.mem_cons,
    List.mem_singleton, List.not_mem_nil, or_false, or_assoc]
  omega

theorem speciesProcessRecoMC_iff (c : Int) :
    speciesProcessRecoMC c = true ↔ c.natAbs ∈ [211, 321, 2212, 11, 13] := by
  simp only [speciesProcessRecoMC, Bool.or_eq_true, beq_iff_eq, List.mem_cons,
    List.mem_singleton, List.not_mem_nil, or_false, or_assoc]
  omega

theorem speciesProcessMC_iff (c : Int) :
    speciesProcessMC c = true ↔ c.natAbs ∈ [211, 321, 2212, 11, 13] := by
  simp only [speciesProcessMC, Bool.or_eq_true, beq_iff_eq, List.mem_cons,
    List.mem_singleton, List.not_mem_nil, or_false, or_assoc]
  omega

/-- The tag of a pair whose tracks share a resolved particle of the collision's
simulated event that is a physical primary is decided by the species code alone. -/
theorem truthTag_species (mcParticle : McBinding) (collision : Collision)
    (track0 track1 : Track) (p : McParticle)
    (hsame : track0.mcParticleId = track1.mcParticleId)
    (hres : mcParticle track0.mcParticleId = some p)
    (hcoll : collision.mcCollisionId = p.mcCollisionId)
    (hprim : p.isPhysicalPrimary = true) :
    truthTag true mcParticle collision track0 track1
      = if p.pdgCode.natAbs ∈ [211, 321, 2212, 11, 13] then p.pt else -p.pt := by
  have hv : (verifiedPrimary collision p = true) ↔ p.pdgCode.natAbs ∈ [211, 321, 2212, 11, 13] := by
    rw [verifiedPrimary_iff]
    simp [hcoll, hprim]
  simp only [truthTag, hsame, hres, true_and, if_true]
  rw [← hsame, hres]
  simp only []
  by_cases h : p.pdgCode.natAbs ∈ [211, 321, 2212, 11, 13]
  · rw [if_pos (hv.mpr h), if_pos h]
  · rw [if_neg (fun hh => h (hv.mp hh)), if_neg h]

/-- Claim C13: the species filter accepts a signed code `c` exactly when `|c|` is
211, 321, 2212, 11 or 13, at each use site: the tests of `FillRecoMCHisto`,
`processRecoMC` and `processMC`, and the tag condition of each of the four pairing
loops (for a pair whose shared particle is a physical primary of the collision's
simulated event, the loop stores `pt` when the code is accepted and `-pt`
otherwise); `c` and `-c` are treated alike. -/
theorem C13_species_filter_same_everywhere (c : Int) :
    (speciesFillRecoMCHisto c = true ↔ c.natAbs ∈ [211, 321, 2212, 11, 13])
      ∧ (speciesProcessRecoMC c = true ↔ c.natAbs ∈ [211, 321, 2212, 11, 13])
      ∧ (speciesProcessMC c = true ↔ c.natAbs ∈ [211, 321, 2212, 11, 13])
      ∧ speciesFillRecoMCHisto (-c) = speciesFillRecoMCHisto c
      ∧ speciesProcessRecoMC (-c) = speciesProcessRecoMC c
      ∧ speciesProcessMC (-c) = speciesProcessMC c
      ∧ ∀ (mcParticle : McBinding) (collision : Collision) (st : PairState)
          (track0 track1 : Track) (p : McParticle),
          track0.mcParticleId = track1.mcParticleId →
          mcParticle track0.mcParticleId = some p →
          collision.mcCollisionId = p.mcCollisionId →
          p.isPhysicalPrimary = true →
          p.pdgCode = c ∨ p.pdgCode = -c →
          (loopBodyPP true mcParticle collision st (track0, track1)).issamemcpt
              = (if c.natAbs ∈ [211, 321, 2212, 11, 13] then p.pt else -p.pt)
            ∧ (loopBodyNN true mcParticle collision st (track0, track1)).issamemcpt
              = (if c.natAbs ∈ [211, 321, 2212, 11, 13] then p.pt else -p.pt)
            ∧ (loopBodyNP true mcParticle collision st (track0, track1)).issamemcpt
              = (if c.natAbs ∈ [211, 321, 2212, 11, 13] then p.pt else -p.pt)
            ∧ (loopBodyPN true mcParticle collision st (track0, track1)).issamemcpt
              = (if c.natAbs ∈ [211, 321, 2212, 11, 13] then p.pt else -p.pt) := by
  refine ⟨speciesFillRecoMCHisto_iff c, speciesProcessRecoMC_iff c, speciesProcessMC_iff c,
    by simp [speciesFillRecoMCHisto], by simp [speciesProcessRecoMC],
    by simp [speciesProcessMC], ?_⟩
  intro mcParticle collision st track0 track1 p hsame hres hcoll hprim hc
  have hn : p.pdgCode.natAbs = c.natAbs := by
    rcases hc with h | h <;> simp [h]
  rw [loopBodyPP_issamemcpt, loopBodyNN_issamemcpt, loopBodyNP_issamemcpt,
    loopBodyPN_issamemcpt]
  simp only []
  rw [truthTag_species mcParticle collision track0 track1 p hsame hres hcoll hprim, hn]
  exact ⟨rfl, rfl, rfl, rfl⟩

/-- Witness of C13: a negative pion (-211) that is a physical primary of the
collision's event gets tag `pt` in the first loop. -/
theorem C13_species_filter_same_everywhere_witness :
    (loopBodyPP true bindPrimary collision0 ⟨-9999, [], [], [], [], []⟩
        (trackITS, trackTPC)).issamemcpt
      = (if (-211 : Int).natAbs ∈ [211, 321, 2212, 11, 13] then primaryPion.pt
          else -primaryPion.pt) :=
  ((C13_species_filter_same_everywhere (-211)).2.2.2.2.2.2 bindPrimary collision0
    ⟨-9999, [], [], [], [], []⟩ trackITS trackTPC primaryPion rfl rfl rfl rfl
    (Or.inr (by decide))).1

/-- Claim C14: in simulation mode, for the `k`-th pair of any of the four combinations
whose tracks carry equal particle indices that do not resolve to a particle, the row
is still written, with truth tag -9999, and no particle is read: the simulation block
of each loop body leaves the state as in data mode, except that the first loop prints
one line. -/
theorem C14_unresolved_label_keeps_sentinel (mcParticle : McBinding) (collision : Collision)
    (pTPC pITS nTPC nITS : List Track) (c : PairType) (k : Nat) (trackA trackB : Track)
    (hpair : (combinationsFullIndex (subsetITS pITS nITS c) (subsetTPC pTPC nTPC c))[k]?
      = some (trackA, trackB))
    (hsame : trackA.mcParticleId = trackB.mcParticleId)
    (hno : mcParticle trackA.mcParticleId = none) :
    ((processPair true mcParticle collision pTPC pITS nTPC nITS).table c)[k]?
        = some (pairRecord trackA trackB (-9999))
      ∧ (∀ st : PairState,
          loopBodyPP true mcParticle collision st (trackA, trackB)
            = { loopBodyPP false mcParticle collision st (trackA, trackB) with
                printed := st.printed ++ ["track MC matched but not has_mcParticle"] })
      ∧ (∀ st : PairState,
          loopBodyNN true mcParticle collision st (trackA, trackB)
            = loopBodyNN false mcParticle collision st (trackA, trackB))
      ∧ (∀ st : PairState,
          loopBodyNP true mcParticle collision st (trackA, trackB)
            = loopBodyNP false mcParticle collision st (trackA, trackB))
      ∧ (∀ st : PairState,
          loopBodyPN true mcParticle collision st (trackA, trackB)
            = loopBodyPN false mcParticle collision st (trackA, trackB)) := by
  refine ⟨?_, ?_, ?_, ?_, ?_⟩
  · rw [processPair_table, List.getElem?_map, hpair]
    simp [truthTag, hsame.symm, hno]
  · intro st
    simp [loopBodyPP, hsame.symm, hno]
  · intro st
    simp [loopBodyNN, hsame.symm, hno]
  · intro st
    simp [loopBodyNP, hsame.symm, hno]
  · intro st
    simp [loopBodyPN, hsame.symm, hno]

/-- Witness of C14: two tracks with label 8, which the binding does not resolve. -/
theorem C14_unresolved_label_keeps_sentinel_witness :
    ((processPair true bindPrimary collision0 [trackTPCother] [trackTPCother] [] []).table
        PairType.PP)[0]?
      = some (pairRecord trackTPCother trackTPCother (-9999)) :=
  (C14_unresolved_label_keeps_sentinel bindPrimary collision0 [trackTPCother] [trackTPCother]
    [] [] PairType.PP 0 trackTPCother trackTPCother rfl rfl (by decide)).1

/-- Claim C17 as stated fails at two tracks: `trackTPCnoFindable` has a negative ITS
and a positive TPC chi-square (and fills the TPC-only histogram) but is in no TPC-only
subset, having no findable TPC cluster; `trackFindableNoFit` is in the positive
TPC-only subset with a negative TPC chi-square, and does not fill the TPC-only
histogram. -/
theorem C17_tpc_only_subset_ignores_tpc_chi2 :
    (trackTPCnoFindable.itsChi2NCl < 0 ∧ 0 < trackTPCnoFindable.tpcChi2NCl
        ∧ 0 < trackTPCnoFindable.signed1Pt
        ∧ positiveTPConlyTracks trackTPCnoFindable = false
        ∧ negativeTPConlyTracks trackTPCnoFindable = false
        ∧ fillsHistpt3DTPConly trackTPCnoFindable = true)
      ∧ (positiveTPConlyTracks trackFindableNoFit = true
        ∧ ¬ (0 < trackFindableNoFit.tpcChi2NCl)
        ∧ fillsHistpt3DTPConly trackFindableNoFit = false) := by
  decide

/-- Claim C17, amended: the ITS-only subsets are decided by the charge sign and the
signs of the two chi-squares (TPC negative, ITS positive) and hold exactly the
charged tracks that fill the ITS-only histogram; the TPC-only subsets are decided by
the charge sign, `tpcNClsFindable > 0` and a negative ITS chi-square, without reading
the TPC chi-square, so they hold exactly the charged tracks that fill the TPC-only
histogram among the tracks for which `tpcNClsFindable > 0` and a positive TPC
chi-square go together. The partitions of the simulation table are the same. -/
theorem C17_partition_membership (t : Track) :
    (positiveITSonlyTracks t = true ↔ 0 < t.signed1Pt ∧ t.tpcChi2NCl < 0 ∧ 0 < t.itsChi2NCl)
      ∧ (negativeITSonlyTracks t = true ↔ t.signed1Pt < 0 ∧ t.tpcChi2NCl < 0 ∧ 0 < t.itsChi2NCl)
      ∧ (positiveTPConlyTracks t = true ↔
          0 < t.signed1Pt ∧ 0 < t.tpcNClsFindable ∧ t.itsChi2NCl < 0)
      ∧ (negativeTPConlyTracks t = true ↔
          t.signed1Pt < 0 ∧ 0 < t.tpcNClsFindable ∧ t.itsChi2NCl < 0)
      ∧ (positiveITSonlyTracksMC t = positiveITSonlyTracks t
        ∧ negativeITSonlyTracksMC t = negativeITSonlyTracks t
        ∧ positiveTPConlyTracksMC t = positiveTPConlyTracks t
        ∧ negativeTPConlyTracksMC t = negativeTPConlyTracks t)
      ∧ ((positiveITSonlyTracks t = true ∨ negativeITSonlyTracks t = true) ↔
          fillsHistpt3DITSonly t = true ∧ t.signed1Pt ≠ 0)
      ∧ ((0 < t.tpcNClsFindable ↔ 0 < t.tpcChi2NCl) →
          ((positiveTPConlyTracks t = true ∨ negativeTPConlyTracks t = true) ↔
            fillsHistpt3DTPConly t = true ∧ t.signed1Pt ≠ 0)) := by
  refine ⟨?_, ?_, ?_, ?_, ⟨rfl, rfl, rfl, rfl⟩, ?_, ?_⟩
  · simp [positiveITSonlyTracks, fzero, and_assoc]
  · simp [negativeITSonlyTracks, fzero, and_assoc]
  · simp [positiveTPConlyTracks, fzero, and_assoc]
  · simp [negativeTPConlyTracks, fzero, and_assoc]
  · simp only [positiveITSonlyTracks, negativeITSonlyTracks, fillsHistpt3DITSonly, fzero,
      Bool.and_eq_true, decide_eq_true_eq, gt_iff_lt, and_assoc]
    constructor
    · rintro (⟨h1, h2, h3⟩ | ⟨h1, h2, h3⟩)
      · exact ⟨h3, h2, ne_of_gt h1⟩
      · exact ⟨h3, h2, ne_of_lt h1⟩
    · rintro ⟨h3, h2, h1⟩
      rcases lt_or_gt_of_ne h1 with h | h
      · exact Or.inr ⟨h, h2, h3⟩
      · exact Or.inl ⟨h, h2, h3⟩
  · intro hft
    simp only [positiveTPConlyTracks, negativeTPConlyTracks, fillsHistpt3DTPConly, fzero,
      Bool.and_eq_true, decide_eq_true_eq, gt_iff_lt, and_assoc]
    constructor
    · rintro (⟨h1, h2, h3⟩ | ⟨h1, h2, h3⟩)
      · exact ⟨h3, hft.mp h2, ne_of_gt h1⟩
      · exact ⟨h3, hft.mp h2, ne_of_lt h1⟩
    · rintro ⟨h3, h2, h1⟩
      rcases lt_or_gt_of_ne h1 with h | h
      · exact Or.inr ⟨h, hft.mpr h2, h3⟩
      · exact Or.inl ⟨h, hft.mpr h2, h3⟩

/-- Witness of C17: `trackTPC` has findable TPC clusters and a positive TPC
chi-square, is in the positive TPC-only subset and fills the TPC-only histogram. -/
theorem C17_partition_membership_witness :
    (positiveTPConlyTracks trackTPC = true ∨ negativeTPConlyTracks trackTPC = true) ↔
      fillsHistpt3DTPConly trackTPC = true ∧ trackTPC.signed1Pt ≠ 0 :=
  (C17_partition_membership trackTPC).2.2.2.2.2.2
    (by simp [trackTPC])

theorem truthTag_congr (IS_MC : Bool) (mcParticle mcParticle' : McBinding)
    (collision : Collision) (track0 track1 : Track)
    (h : mcParticle track0.mcParticleId = mcParticle' track0.mcParticleId) :
    truthTag IS_MC mcParticle collision track0 track1
      = truthTag IS_MC mcParticle' collision track0 track1 := by
  simp only [truthTag, h]

/-- Claim C20: `processPair` carries nothing from one pair to the next: the value of
`issamemcpt` left by each loop body does not depend on the incoming state (it is
reset to -9999 first), and the row written for a pair depends only on its two tracks,
the collision and the particle bound to the first track's label: the same pair gives
the same row at any position, among any other tracks and under any binding that
agrees on that label. The model is a function of its arguments, so two calls with
the same arguments write the same rows. -/
theorem C20_rows_depend_on_their_pair_only (IS_MC : Bool) (mcParticle mcParticle' : McBinding)
    (collision : Collision) (pTPC pITS nTPC nITS pTPC' pITS' nTPC' nITS' : List Track)
    (c : PairType) (k k' : Nat) (trackA trackB : Track)
    (hpair : (combinationsFullIndex (subsetITS pITS nITS c) (subsetTPC pTPC nTPC c))[k]?
      = some (trackA, trackB))
    (hpair' : (combinationsFullIndex (subsetITS pITS' nITS' c) (subsetTPC pTPC' nTPC' c))[k']?
      = some (trackA, trackB))
    (hbind : mcParticle trackA.mcParticleId = mcParticle' trackA.mcParticleId) :
    ((processPair IS_MC mcParticle collision pTPC pITS nTPC nITS).table c)[k]?
        = ((processPair IS_MC mcParticle' collision pTPC' pITS' nTPC' nITS').table c)[k']?
      ∧ (∀ (st st' : PairState) (pair : Track × Track),
          (loopBodyPP IS_MC mcParticle collision st pair).issamemcpt
              = (loopBodyPP IS_MC mcParticle collision st' pair).issamemcpt
            ∧ (loopBodyNN IS_MC mcParticle collision st pair).issamemcpt
              = (loopBodyNN IS_MC mcParticle collision st' pair).issamemcpt
            ∧ (loopBodyNP IS_MC mcParticle collision st pair).issamemcpt
              = (loopBodyNP IS_MC mcParticle collision st' pair).issamemcpt
            ∧ (loopBodyPN IS_MC mcParticle collision st pair).issamemcpt
              = (loopBodyPN IS_MC mcParticle collision st' pair).issamemcpt) := by
  constructor
  · rw [processPair_table, processPair_table, List.getElem?_map, List.getElem?_map,
      hpair, hpair']
    simp only [Option.map_some']
    rw [truthTag_congr IS_MC mcParticle mcParticle' collision trackA trackB hbind]
  · intro st st' pair
    simp only [loopBodyPP_issamemcpt, loopBodyNN_issamemcpt, loopBodyNP_issamemcpt,
      loopBodyPN_issamemcpt, and_self]

/-- Witness of C20: the pair `(trackITS, trackTPC)` alone, and the same pair in
second position behind a pair with another TPC-only track, give the same row. -/
theorem C20_rows_depend_on_their_pair_only_witness :
    ((processPair true bindPrimary collision0 [trackTPC] [trackITS] [] []).table PairType.PP)[0]?
      = ((processPair true bindPrimary collision0 [trackTPCother, trackTPC] [trackITS] []
          []).table PairType.PP)[1]? :=
  (C20_rows_depend_on_their_pair_only true bindPrimary bindPrimary collision0
    [trackTPC] [trackITS] [] [] [trackTPCother, trackTPC] [trackITS] [] []
    PairType.PP 0 1 trackITS trackTPC rfl rfl rfl).1

/-! ## Invariants of the walk -/

theorem inBounds_iff_isSome (particlesMC : McParticles) (i : Int) :
    particlesMC.inBounds i = true
      ↔ (particlesMC.rawIteratorAt (i - particlesMC.offset)).isSome = true := by
  unfold McParticles.inBounds McParticles.rawIteratorAt
  by_cases h0 : 0 ≤ i - particlesMC.offset
  · simp only [h0, decide_True, Bool.true_and, decide_eq_true_eq, if_true]
    rw [List.get?_eq_getElem?, Option.isSome_iff_ne_none, ne_eq, List.getElem?_eq_none_iff]
    omega
  · simp [h0]

theorem rawIteratorAt_mem (particlesMC : McParticles) (j : Int) (row : McParticle)
    (h : particlesMC.rawIteratorAt j = some row) : row ∈ particlesMC.rows := by
  unfold McParticles.rawIteratorAt at h
  split at h
  · exact List.get?_mem h
  · cases h

theorem mothersInBounds_row (particlesMC : McParticles)
    (hwf : particlesMC.mothersInBounds = true) (j : Int) (row : McParticle)
    (h : particlesMC.rawIteratorAt j = some row) :
    ∀ m ∈ row.motherRange, particlesMC.inBounds m = true := by
  unfold McParticles.mothersInBounds at hwf
  rw [List.all_eq_true] at hwf
  have := hwf row (rawIteratorAt_mem particlesMC j row h)
  rw [List.all_eq_true] at this
  exact this

/-- A property of the locals that every step of the inner loop keeps is kept by the
inner loop. The two steps are the test of a strange mother (trace extended,
`strangeness = 1`) and the test of another mother (trace extended, index stored). -/
theorem motherLoop_inv (particlesMC : McParticles) (Inv : WalkState → Prop)
    (hstrange : ∀ (st : WalkState) (i : Int) (row : McParticle), Inv st →
      i ∉ st.arrayIdsStage →
      particlesMC.rawIteratorAt (i - particlesMC.offset) = some row →
      isStrangePDG row.pdgCode = true →
      Inv { st with trace := st.trace ++ [Access.mother i], strangeness := 1 })
    (hplain : ∀ (st : WalkState) (i : Int) (row : McParticle), Inv st →
      i ∉ st.arrayIdsStage →
      particlesMC.rawIteratorAt (i - particlesMC.offset) = some row →
      isStrangePDG row.pdgCode = false →
      Inv { st with trace := st.trace ++ [Access.mother i],
                    arrayIdsStage := st.arrayIdsStage ++ [i] }) :
    ∀ (l : List Int) (st st' : WalkState), Inv st →
      motherLoop particlesMC l st = some st' → Inv st' := by
  intro l
  induction l with
  | nil =>
    intro st st' hinv h
    simp only [motherLoop, Option.some.injEq] at h
    exact h ▸ hinv
  | cons i rest ih =>
    intro st st' hinv h
    unfold motherLoop at h
    by_cases hin : i ∈ st.arrayIdsStage
    · simp only [hin, if_true] at h
      exact ih st st' hinv h
    · simp only [hin, if_false] at h
      cases hrow : particlesMC.rawIteratorAt (i - particlesMC.offset) with
      | none => simp [hrow] at h
      | some row =>
        simp only [hrow] at h
        by_cases hs : isStrangePDG row.pdgCode = true
        · simp only [hs, if_true, Option.some.injEq] at h
          exact h ▸ hstrange st i row hinv hin hrow hs
        · have hs' : isStrangePDG row.pdgCode = false := by simpa using hs
          simp only [hs', Bool.false_eq_true, if_false] at h
          exact ih _ st' (hplain st i row hinv hin hrow hs') h

/-- A property of the locals that every step keeps is kept by the loop over the
members of a stage. Besides the two steps of the inner loop, the steps are the
lookup of a member and the append of `arrayIdsStage` to `arrayIds`. -/
theorem memberLoop_inv (particlesMC : McParticles) (Inv : WalkState → Prop)
    (hstrange : ∀ (st : WalkState) (i : Int) (row : McParticle), Inv st →
      i ∉ st.arrayIdsStage →
      particlesMC.rawIteratorAt (i - particlesMC.offset) = some row →
      isStrangePDG row.pdgCode = true →
      Inv { st with trace := st.trace ++ [Access.mother i], strangeness := 1 })
    (hplain : ∀ (st : WalkState) (i : Int) (row : McParticle), Inv st →
      i ∉ st.arrayIdsStage →
      particlesMC.rawIteratorAt (i - particlesMC.offset) = some row →
      isStrangePDG row.pdgCode = false →
      Inv { st with trace := st.trace ++ [Access.mother i],
                    arrayIdsStage := st.arrayIdsStage ++ [i] })
    (hmember : ∀ (st : WalkState) (i : Int) (row : McParticle), Inv st →
      particlesMC.rawIteratorAt (i - particlesMC.offset) = some row →
      Inv { st with trace := st.trace ++ [Access.member i] })
    (hpush : ∀ (st : WalkState), Inv st →
      Inv { st with arrayIds := st.arrayIds ++ [st.arrayIdsStage] }) :
    ∀ (l : List Int) (st st' : WalkState), Inv st →
      memberLoop particlesMC l st = some st' → Inv st' := by
  intro l
  induction l with
  | nil =>
    intro st st' hinv h
    simp only [memberLoop, Option.some.injEq] at h
    exact h ▸ hinv
  | cons i rest ih =>
    intro st st' hinv h
    unfold memberLoop at h
    cases hrow : particlesMC.rawIteratorAt (i - particlesMC.offset) with
    | none => simp [hrow] at h
    | some row =>
      simp only [hrow] at h
      have h1 := hmember st i row hinv hrow
      by_cases hm : row.has_mothers = true
      · simp only [hm, if_true] at h
        cases hml : motherLoop particlesMC row.motherRange
            { st with trace := st.trace ++ [Access.member i] } with
        | none => simp [hml] at h
        | some st2 =>
          simp only [hml] at h
          have h2 := motherLoop_inv particlesMC Inv hstrange hplain _ _ st2 h1 hml
          exact ih _ st' (hpush st2 h2) h
      · simp only [hm, if_false] at h
        exact ih _ st' (hpush _ h1) h

/-- One iteration of the `while` loop, at `stage = 4 - (todo + 1)`. -/
theorem whileLoop_succ (particlesMC : McParticles) (todo : Nat) (st : WalkState) :
    whileLoop particlesMC (todo + 1) st
      = match st.arrayIds.get? (4 - (todo + 1)) with
        | none => none
        | some current =>
          if current.length > 0 ∧ st.strangeness = 0 then
            match memberLoop particlesMC current { st with arrayIdsStage := [] } with
            | none => none
            | some st1 => whileLoop particlesMC todo st1
          else some ⟨4 - (todo + 1), st.arrayIds, st.strangeness, st.trace⟩ := rfl

/-- A property of the locals that every step keeps, and that emptying
`arrayIdsStage` at the start of a stage keeps, holds when the `while` loop is left. -/
theorem whileLoop_inv (particlesMC : McParticles) (Inv : WalkState → Prop)
    (hstrange : ∀ (st : WalkState) (i : Int) (row : McParticle), Inv st →
      i ∉ st.arrayIdsStage →
      particlesMC.rawIteratorAt (i - particlesMC.offset) = some row →
      isStrangePDG row.pdgCode = true →
      Inv { st with trace := st.trace ++ [Access.mother i], strangeness := 1 })
    (hplain : ∀ (st : WalkState) (i : Int) (row : McParticle), Inv st →
      i ∉ st.arrayIdsStage →
      particlesMC.rawIteratorAt (i - particlesMC.offset) = some row →
      isStrangePDG row.pdgCode = false →
      Inv { st with trace := st.trace ++ [Access.mother i],
                    arrayIdsStage := st.arrayIdsStage ++ [i] })
    (hmember : ∀ (st : WalkState) (i : Int) (row : McParticle), Inv st →
      particlesMC.rawIteratorAt (i - particlesMC.offset) = some row →
      Inv { st with trace := st.trace ++ [Access.member i] })
    (hpush : ∀ (st : WalkState), Inv st →
      Inv { st with arrayIds := st.arrayIds ++ [st.arrayIdsStage] })
    (hreset : ∀ (st : WalkState), Inv st → Inv { st with arrayIdsStage := [] }) :
    ∀ (todo : Nat) (st : WalkState) (r : WalkResult), Inv st →
      whileLoop particlesMC todo st = some r →
      ∃ stageIds, Inv ⟨r.arrayIds, stageIds, r.strangeness, r.trace⟩ := by
  intro todo
  induction todo with
  | zero =>
    intro st r hinv h
    simp only [whileLoop, Option.some.injEq] at h
    subst h
    exact ⟨st.arrayIdsStage, hinv⟩
  | succ todo ih =>
    intro st r hinv h
    rw [whileLoop_succ] at h
    cases hcur : st.arrayIds.get? (4 - (todo + 1)) with
    | none => rw [hcur] at h; cases h
    | some current =>
      rw [hcur] at h
      simp only [] at h
      by_cases hc : current.length > 0 ∧ st.strangeness = 0
      · rw [if_pos hc] at h
        cases hml : memberLoop particlesMC current { st with arrayIdsStage := [] } with
        | none => rw [hml] at h; cases h
        | some st1 =>
          rw [hml] at h
          exact ih st1 r
            (memberLoop_inv particlesMC Inv hstrange hplain hmember hpush _ _ st1
              (hreset st hinv) hml) h
      · rw [if_neg hc] at h
        simp only [Option.some.injEq] at h
        subst h
        exact ⟨st.arrayIdsStage, hinv⟩

/-! ## The walk returns a result on tables with valid mother ranges -/

theorem motherLoop_some (particlesMC : McParticles) :
    ∀ (l : List Int) (st : WalkState), (∀ j ∈ l, particlesMC.inBounds j = true) →
      ∃ st', motherLoop particlesMC l st = some st' := by
  intro l
  induction l with
  | nil => intro st _; exact ⟨st, rfl⟩
  | cons i rest ih =>
    intro st hl
    have hrest : ∀ j ∈ rest, particlesMC.inBounds j = true :=
      fun j hj => hl j (List.mem_cons_of_mem _ hj)
    unfold motherLoop
    by_cases hin : i ∈ st.arrayIdsStage
    · simp only [hin, if_true]
      exact ih st hrest
    · simp only [hin, if_false]
      obtain ⟨row, hrow⟩ := Option.isSome_iff_exists.mp
        ((inBounds_iff_isSome particlesMC i).mp (hl i (List.mem_cons_self _ _)))
      simp only [hrow]
      by_cases hs : isStrangePDG row.pdgCode = true
      · simp [hs]
      · simp only [hs, if_false]
        exact ih _ hrest

theorem motherLoop_arrayIds (particlesMC : McParticles) (l : List Int) (st st' : WalkState)
    (h : motherLoop particlesMC l st = some st') : st'.arrayIds = st.arrayIds :=
  motherLoop_inv particlesMC (fun s => s.arrayIds = st.arrayIds)
    (fun _ _ _ hs _ _ _ => hs) (fun _ _ _ hs _ _ _ => hs) l st st' rfl h

theorem motherLoop_trace_length (particlesMC : McParticles) :
    ∀ (l : List Int) (st st' : WalkState), motherLoop particlesMC l st = some st' →
      st'.trace.length ≤ st.trace.length + l.length := by
  intro l
  induction l with
  | nil =>
    intro st st' h
    simp only [motherLoop, Option.some.injEq] at h
    subst h
    simp
  | cons i rest ih =>
    intro st st' h
    unfold motherLoop at h
    by_cases hin : i ∈ st.arrayIdsStage
    · simp only [hin, if_true] at h
      have := ih st st' h
      simp only [List.length_cons]
      omega
    · simp only [hin, if_false] at h
      cases hrow : particlesMC.rawIteratorAt (i - particlesMC.offset) with
      | none => simp [hrow] at h
      | some row =>
        simp only [hrow] at h
        by_cases hs : isStrangePDG row.pdgCode = true
        · simp only [hs, if_true, Option.some.injEq] at h
          subst h
          simp
        · simp only [hs, if_false] at h
          have := ih _ st' h
          simp only [List.length_append, List.length_singleton, List.length_cons, List.length_nil] at this ⊢
          omega

theorem memberLoop_some (particlesMC : McParticles)
    (hwf : particlesMC.mothersInBounds = true) :
    ∀ (l : List Int) (st : WalkState), (∀ i ∈ l, particlesMC.inBounds i = true) →
      ∃ st', memberLoop particlesMC l st = some st' := by
  intro l
  induction l with
  | nil => intro st _; exact ⟨st, rfl⟩
  | cons i rest ih =>
    intro st hl
    have hrest : ∀ j ∈ rest, particlesMC.inBounds j = true :=
      fun j hj => hl j (List.mem_cons_of_mem _ hj)
    obtain ⟨row, hrow⟩ := Option.isSome_iff_exists.mp
      ((inBounds_iff_isSome particlesMC i).mp (hl i (List.mem_cons_self _ _)))
    unfold memberLoop
    simp only [hrow]
    by_cases hm : row.has_mothers = true
    · simp only [hm, if_true]
      obtain ⟨st2, h2⟩ := motherLoop_some particlesMC row.motherRange
        { st with trace := st.trace ++ [Access.member i] }
        (mothersInBounds_row particlesMC hwf _ row hrow)
      simp only [h2]
      exact ih _ hrest
    · simp only [hm, if_false]
      exact ih _ hrest

/-- The loop over the members of a stage appends one list to `arrayIds` per member. -/
theorem memberLoop_length (particlesMC : McParticles) :
    ∀ (l : List Int) (st st' : WalkState), memberLoop particlesMC l st = some st' →
      st'.arrayIds.length = st.arrayIds.length + l.length := by
  intro l
  induction l with
  | nil =>
    intro st st' h
    simp only [memberLoop, Option.some.injEq] at h
    subst h
    simp
  | cons i rest ih =>
    intro st st' h
    unfold memberLoop at h
    cases hrow : particlesMC.rawIteratorAt (i - particlesMC.offset) with
    | none => simp [hrow] at h
    | some row =>
      simp only [hrow] at h
      by_cases hm : row.has_mothers = true
      · simp only [hm, if_true] at h
        cases hml : motherLoop particlesMC row.motherRange
            { st with trace := st.trace ++ [Access.member i] } with
        | none => simp [hml] at h
        | some st2 =>
          simp only [hml] at h
          have h1 := ih _ st' h
          have h2 := motherLoop_arrayIds particlesMC _ _ st2 hml
          simp only [List.length_append, List.length_singleton, List.length_cons, List.length_nil, h2] at h1 ⊢
          omega
      · simp only [hm, if_false] at h
        have h1 := ih _ st' h
        simp only [List.length_append, List.length_singleton, List.length_cons, List.length_nil] at h1 ⊢
        omega

theorem memberLoop_storedInBounds (particlesMC : McParticles) (l : List Int)
    (st st' : WalkState) (hinv : StoredInBounds particlesMC st)
    (h : memberLoop particlesMC l st = some st') : StoredInBounds particlesMC st' := by
  refine memberLoop_inv particlesMC (StoredInBounds particlesMC) ?_ ?_ ?_ ?_ l st st' hinv h
  · intro s i row hs _ _ _
    exact hs
  · intro s i row hs _ hrow _
    refine ⟨hs.1, ?_⟩
    intro x hx
    rcases List.mem_append.mp hx with hx | hx
    · exact hs.2 x hx
    · simp only [List.mem_singleton] at hx
      subst hx
      exact (inBounds_iff_isSome particlesMC x).mpr (by simp [hrow])
  · intro s i row hs _
    exact hs
  · intro s hs
    refine ⟨?_, hs.2⟩
    intro L hL
    rcases List.mem_append.mp hL with hL | hL
    · exact hs.1 L hL
    · simp only [List.mem_singleton] at hL
      subst hL
      exact hs.2

/-- On a table with valid mother ranges the `while` loop returns a result, from any
state whose stored indices are valid and whose `arrayIds` reaches the current stage;
it is left with `stage` between the starting stage and 4. -/
theorem whileLoop_some (particlesMC : McParticles)
    (hwf : particlesMC.mothersInBounds = true) :
    ∀ (todo : Nat) (st : WalkState), todo ≤ 4 → StoredInBounds particlesMC st →
      (todo = 0 ∨ 4 - todo < st.arrayIds.length) →
      ∃ r, whileLoop particlesMC todo st = some r ∧ 4 - todo ≤ r.stage ∧ r.stage ≤ 4 := by
  intro todo
  induction todo with
  | zero => intro st _ _ _; exact ⟨_, rfl, by simp, by simp⟩
  | succ todo ih =>
    intro st htodo hinv hlen
    have hlen' : 4 - (todo + 1) < st.arrayIds.length := by
      rcases hlen with h | h
      · omega
      · exact h
    rw [whileLoop_succ]
    obtain ⟨current, hcur⟩ : ∃ current, st.arrayIds.get? (4 - (todo + 1)) = some current :=
      ⟨_, List.get?_eq_get hlen'⟩
    rw [hcur]
    simp only []
    by_cases hc : current.length > 0 ∧ st.strangeness = 0
    · rw [if_pos hc]
      have hcurmem : current ∈ st.arrayIds := List.get?_mem hcur
      obtain ⟨st1, h1⟩ := memberLoop_some particlesMC hwf current
        { st with arrayIdsStage := [] } (hinv.1 current hcurmem)
      rw [h1]
      have hinv1 : StoredInBounds particlesMC st1 :=
        memberLoop_storedInBounds particlesMC current { st with arrayIdsStage := [] } st1
          ⟨hinv.1, by simp⟩ h1
      have hl1 := memberLoop_length particlesMC current _ st1 h1
      simp only at hl1
      obtain ⟨r, hr, hr1, hr2⟩ := ih st1 (by omega) hinv1 (Or.inr (by omega))
      exact ⟨r, hr, by omega, hr2⟩
    · rw [if_neg hc]
      exact ⟨_, rfl, by simp, by simp; omega⟩

theorem isFromStrangeDecayRun_some (particlesMC : McParticles) (particle : Int)
    (hwf : particlesMC.mothersInBounds = true) (hp : particlesMC.inBounds particle = true) :
    ∃ r, isFromStrangeDecayRun particlesMC particle = some r ∧ r.stage ≤ 4 := by
  obtain ⟨r, hr, _, hr2⟩ := whileLoop_some particlesMC hwf 4
    { arrayIds := [[particle]], arrayIdsStage := [], strangeness := 0, trace := [] }
    (by omega) ⟨by simpa using hp, by simp⟩ (Or.inr (by simp))
  exact ⟨r, hr, hr2⟩

/-! ## Claims on termination and on the bounds of the lookups -/

theorem whileLoop_stage_le (particlesMC : McParticles) :
    ∀ (todo : Nat) (st : WalkState) (r : WalkResult),
      whileLoop particlesMC todo st = some r → r.stage ≤ 4 := by
  intro todo
  induction todo with
  | zero =>
    intro st r h
    simp only [whileLoop, Option.some.injEq] at h
    subst h
    exact Nat.le_refl 4
  | succ todo ih =>
    intro st r h
    rw [whileLoop_succ] at h
    cases hcur : st.arrayIds.get? (4 - (todo + 1)) with
    | none => rw [hcur] at h; cases h
    | some current =>
      rw [hcur] at h
      simp only [] at h
      by_cases hc : current.length > 0 ∧ st.strangeness = 0
      · rw [if_pos hc] at h
        cases hml : memberLoop particlesMC current { st with arrayIdsStage := [] } with
        | none => rw [hml] at h; cases h
        | some st1 =>
          rw [hml] at h
          exact ih st1 r h
      · rw [if_neg hc] at h
        simp only [Option.some.injEq] at h
        subst h
        exact Nat.sub_le 4 (todo + 1)

/-- Claim C15: on every table whose mother ranges are valid, whatever the order of
its rows and also when mother references form a cycle, `isFromStrangeDecay` returns a
result. On every table the `while` loop is left with `stage ≤ 4`, that is after at
most four iterations, the loop over a stage runs once per member of the stage list
(one list is appended to `arrayIds` per member), and the loop over a mother range
tests at most as many mothers as the range `front..back` has indices. -/
theorem C15_walk_terminates (particlesMC : McParticles) (particle : Int) :
    (particlesMC.mothersInBounds = true → particlesMC.inBounds particle = true →
        (∃ r, isFromStrangeDecayRun particlesMC particle = some r ∧ r.stage ≤ 4)
          ∧ ∃ s, isFromStrangeDecay particlesMC particle = some s)
      ∧ (∀ r, isFromStrangeDecayRun particlesMC particle = some r → r.stage ≤ 4)
      ∧ (∀ (l : List Int) (st st' : WalkState), memberLoop particlesMC l st = some st' →
          st'.arrayIds.length = st.arrayIds.length + l.length)
      ∧ (∀ (l : List Int) (st st' : WalkState), motherLoop particlesMC l st = some st' →
          st'.trace.length ≤ st.trace.length + l.length)
      ∧ (∀ (row : McParticle) (front back : Int), row.mothersIds.head? = some front →
          row.mothersIds.getLast? = some back →
          row.motherRange.length = (back - front + 1).toNat) := by
  refine ⟨?_, fun r hr => whileLoop_stage_le particlesMC 4 _ r hr,
    memberLoop_length particlesMC, motherLoop_trace_length particlesMC, ?_⟩
  · intro hwf hp
    obtain ⟨r, hr, hr4⟩ := isFromStrangeDecayRun_some particlesMC particle hwf hp
    exact ⟨⟨r, hr, hr4⟩, ⟨r.strangeness, by simp [isFromStrangeDecay, hr]⟩⟩
  · intro row front back hf hb
    simp [McParticle.motherRange, hf, hb]

/-- Witness of C15: a pion that is its own mother; the walk goes through the cycle
four times and returns 0. -/
theorem C15_walk_terminates_witness :
    isFromStrangeDecayRun selfMotherEvent 0
        = some ⟨4, [[0], [0], [0], [0], [0]], 0,
            [Access.member 0, Access.mother 0, Access.member 0, Access.mother 0,
              Access.member 0, Access.mother 0, Access.member 0, Access.mother 0]⟩
      ∧ (∃ r, isFromStrangeDecayRun selfMotherEvent 0 = some r ∧ r.stage ≤ 4)
      ∧ ∃ s, isFromStrangeDecay selfMotherEvent 0 = some s :=
  ⟨by decide, (C15_walk_terminates selfMotherEvent 0).1 (by decide) (by decide)⟩

theorem whileLoop_trace_inBounds (particlesMC : McParticles) (todo : Nat) (st : WalkState)
    (r : WalkResult) (hinv : ∀ a ∈ st.trace, particlesMC.inBounds a.index = true)
    (h : whileLoop particlesMC todo st = some r) :
    ∀ a ∈ r.trace, particlesMC.inBounds a.index = true := by
  have hstep : ∀ (s : WalkState) (a : Access) (row : McParticle),
      (∀ b ∈ s.trace, particlesMC.inBounds b.index = true) →
      particlesMC.rawIteratorAt (a.index - particlesMC.offset) = some row →
      ∀ b ∈ s.trace ++ [a], particlesMC.inBounds b.index = true := by
    intro s a row hs hrow b hb
    rcases List.mem_append.mp hb with hb | hb
    · exact hs b hb
    · simp only [List.mem_singleton] at hb
      subst hb
      exact (inBounds_iff_isSome particlesMC _).mpr (by simp [hrow])
  obtain ⟨_, hres⟩ := whileLoop_inv particlesMC
    (fun s => ∀ a ∈ s.trace, particlesMC.inBounds a.index = true)
    (fun s i row hs _ hrow _ => hstep s (Access.mother i) row hs hrow)
    (fun s i row hs _ hrow _ => hstep s (Access.mother i) row hs hrow)
    (fun s i row hs hrow => hstep s (Access.member i) row hs hrow)
    (fun _ hs => hs) (fun _ hs => hs) todo st r hinv h
  exact hres

/-- Claim C16: when the starting index and every index of every mother range,
shifted by the offset, are positions of the table, the function returns a result and
every lookup it made, of a stage member or of a mother, was at a position of the
table. The function checks no bound: started outside the table, or at a particle
whose first mother index is outside the table, it has no defined result. -/
theorem C16_lookups_in_bounds (particlesMC : McParticles) (particle : Int) :
    (particlesMC.mothersInBounds = true → particlesMC.inBounds particle = true →
        ∃ r, isFromStrangeDecayRun particlesMC particle = some r
          ∧ ∀ a ∈ r.trace, particlesMC.inBounds a.index = true)
      ∧ (particlesMC.inBounds particle = false →
          isFromStrangeDecayRun particlesMC particle = none)
      ∧ (∀ (row : McParticle) (front : Int),
          particlesMC.rawIteratorAt (particle - particlesMC.offset) = some row →
          row.motherRange.head? = some front →
          particlesMC.inBounds front = false →
          isFromStrangeDecayRun particlesMC particle = none) := by
  refine ⟨?_, ?_, ?_⟩
  · intro hwf hp
    obtain ⟨r, hr, _⟩ := isFromStrangeDecayRun_some particlesMC particle hwf hp
    exact ⟨r, hr, whileLoop_trace_inBounds particlesMC 4 _ r (by simp) hr⟩
  · intro hp
    have hnone : particlesMC.rawIteratorAt (particle - particlesMC.offset) = none := by
      cases h : particlesMC.rawIteratorAt (particle - particlesMC.offset) with
      | none => rfl
      | some row =>
        have := (inBounds_iff_isSome particlesMC particle).mpr (by simp [h])
        simp [hp] at this
    simp [isFromStrangeDecayRun, whileLoop, memberLoop, hnone]
  · intro row front hrow hfront hout
    have hnone : particlesMC.rawIteratorAt (front - particlesMC.offset) = none := by
      cases h : particlesMC.rawIteratorAt (front - particlesMC.offset) with
      | none => rfl
      | some row' =>
        have := (inBounds_iff_isSome particlesMC front).mpr (by simp [h])
        simp [hout] at this
    obtain ⟨rest, hrange⟩ : ∃ rest, row.motherRange = front :: rest := by
      cases hr : row.motherRange with
      | nil => simp [hr] at hfront
      | cons x xs =>
        simp only [hr, List.head?_cons, Option.some.injEq] at hfront
        exact ⟨xs, by rw [hfront]⟩
    have hhas : row.has_mothers = true :=
      has_mothers_of_mem_motherRange row front (by simp [hrange])
    simp [isFromStrangeDecayRun, whileLoop, memberLoop, motherLoop, hrow, hhas, hrange, hnone]

/-- Witness of C16: every lookup of the walk from index 15 of `chainEvent` is at a
position of the table, and the walk from the pion of `danglingMotherEvent`, whose
mother index 5 is outside the table, has no defined result. -/
theorem C16_lookups_in_bounds_witness :
    (∃ r, isFromStrangeDecayRun chainEvent 15 = some r
        ∧ ∀ a ∈ r.trace, chainEvent.inBounds a.index = true)
      ∧ isFromStrangeDecayRun danglingMotherEvent 0 = none :=
  ⟨(C16_lookups_in_bounds chainEvent 15).1 (by decide) (by decide),
    (C16_lookups_in_bounds danglingMotherEvent 0).2.2 (mkParticle 211 [5]) 5
      (by decide) (by decide) (by decide)⟩

/-! ## Claims on the early exit and on duplicates -/

theorem memberLoop_strangeness (particlesMC : McParticles) (l : List Int)
    (st st' : WalkState) (h : memberLoop particlesMC l st = some st')
    (hs : st.strangeness = 1) : st'.strangeness = 1 :=
  memberLoop_inv particlesMC (fun s => s.strangeness = 1)
    (fun _ _ _ _ _ _ _ => rfl) (fun _ _ _ h1 _ _ _ => h1) (fun _ _ _ h1 _ => h1)
    (fun _ h1 => h1) l st st' hs h

theorem whileLoop_flag_set (particlesMC : McParticles) (todo : Nat) (st : WalkState)
    (r : WalkResult) (hs : st.strangeness ≠ 0)
    (h : whileLoop particlesMC todo st = some r) :
    r.trace = st.trace ∧ r.strangeness = st.strangeness ∧ r.arrayIds = st.arrayIds := by
  cases todo with
  | zero =>
    simp only [whileLoop, Option.some.injEq] at h
    subst h
    exact ⟨rfl, rfl, rfl⟩
  | succ todo =>
    rw [whileLoop_succ] at h
    cases hcur : st.arrayIds.get? (4 - (todo + 1)) with
    | none => rw [hcur] at h; cases h
    | some current =>
      rw [hcur] at h
      simp only [] at h
      rw [if_neg (fun hc => hs hc.2)] at h
      simp only [Option.some.injEq] at h
      subst h
      exact ⟨rfl, rfl, rfl⟩

theorem whileLoop_match_sets_flag (particlesMC : McParticles) (todo : Nat) (st : WalkState)
    (r : WalkResult)
    (hinv : (∃ i, Access.mother i ∈ st.trace ∧ specIsStrange particlesMC i = true) →
      st.strangeness = 1)
    (h : whileLoop particlesMC todo st = some r) :
    (∃ i, Access.mother i ∈ r.trace ∧ specIsStrange particlesMC i = true) →
      r.strangeness = 1 := by
  obtain ⟨_, hres⟩ := whileLoop_inv particlesMC
    (fun s => (∃ i, Access.mother i ∈ s.trace ∧ specIsStrange particlesMC i = true) →
      s.strangeness = 1)
    (fun _ _ _ _ _ _ _ _ => rfl)
    (fun s i row hs _ hrow hns => by
      rintro ⟨j, hj, hjs⟩
      rcases List.mem_append.mp hj with hj | hj
      · exact hs ⟨j, hj, hjs⟩
      · simp only [List.mem_singleton, Access.mother.injEq] at hj
        subst hj
        simp [specIsStrange, hrow, hns] at hjs)
    (fun s i row hs hrow => by
      rintro ⟨j, hj, hjs⟩
      rcases List.mem_append.mp hj with hj | hj
      · exact hs ⟨j, hj, hjs⟩
      · simp at hj)
    (fun _ hs => hs) (fun _ hs => hs) todo st r hinv h
  exact hres

theorem motherLoop_count_mono (particlesMC : McParticles) (l : List Int) (st st' : WalkState)
    (h : motherLoop particlesMC l st = some st') (a : Access) :
    st.trace.count a ≤ st'.trace.count a :=
  motherLoop_inv particlesMC (fun s => st.trace.count a ≤ s.trace.count a)
    (fun _ _ _ hs _ _ _ => by
      simp only [List.count_append]
      exact Nat.le_trans hs (Nat.le_add_right _ _))
    (fun _ _ _ hs _ _ _ => by
      simp only [List.count_append]
      exact Nat.le_trans hs (Nat.le_add_right _ _)) l st st' (le_refl _) h

theorem memberLoop_count_mono (particlesMC : McParticles) (l : List Int) (st st' : WalkState)
    (h : memberLoop particlesMC l st = some st') (a : Access) :
    st.trace.count a ≤ st'.trace.count a :=
  memberLoop_inv particlesMC (fun s => st.trace.count a ≤ s.trace.count a)
    (fun _ _ _ hs _ _ _ => by
      simp only [List.count_append]
      exact Nat.le_trans hs (Nat.le_add_right _ _))
    (fun _ _ _ hs _ _ _ => by
      simp only [List.count_append]
      exact Nat.le_trans hs (Nat.le_add_right _ _))
    (fun _ _ _ hs _ => by
      simp only [List.count_append]
      exact Nat.le_trans hs (Nat.le_add_right _ _))
    (fun _ hs => hs) l st st' (le_refl _) h

/-- What the loops keep about the tests made since a reference point, where the
stored indices were `stored` and the test of `x` had been made `tests x` times: no
test is lost, and every index stored since has been tested since. -/
theorem testedSince_step (stored : List Int) (tests : Int → Nat) (s : WalkState) (a : Access)
    (h : (∀ x, tests x ≤ s.trace.count (Access.mother x))
      ∧ ∀ x ∈ s.arrayIdsStage, x ∈ stored ∨ tests x < s.trace.count (Access.mother x)) :
    (∀ x, tests x ≤ (s.trace ++ [a]).count (Access.mother x))
      ∧ ∀ x ∈ s.arrayIdsStage,
          x ∈ stored ∨ tests x < (s.trace ++ [a]).count (Access.mother x) := by
  constructor
  · intro x
    have := h.1 x
    rw [List.count_append]
    omega
  · intro x hx
    rcases h.2 x hx with h1 | h1
    · exact Or.inl h1
    · right
      rw [List.count_append]
      omega

theorem testedSince_store (stored : List Int) (tests : Int → Nat) (s : WalkState) (i : Int)
    (h : (∀ x, tests x ≤ s.trace.count (Access.mother x))
      ∧ ∀ x ∈ s.arrayIdsStage, x ∈ stored ∨ tests x < s.trace.count (Access.mother x)) :
    (∀ x, tests x ≤ (s.trace ++ [Access.mother i]).count (Access.mother x))
      ∧ ∀ x ∈ s.arrayIdsStage ++ [i],
          x ∈ stored ∨ tests x < (s.trace ++ [Access.mother i]).count (Access.mother x) := by
  have hstep := testedSince_step stored tests s (Access.mother i) h
  refine ⟨hstep.1, ?_⟩
  intro x hx
  rcases List.mem_append.mp hx with hx | hx
  · exact hstep.2 x hx
  · have hxi : x = i := by simpa using hx
    subst hxi
    right
    have := h.1 x
    rw [List.count_append, List.count_singleton_self]
    omega

theorem motherLoop_testedSince (particlesMC : McParticles) (stored : List Int)
    (tests : Int → Nat) (l : List Int) (st st' : WalkState)
    (hinv : (∀ x, tests x ≤ st.trace.count (Access.mother x))
      ∧ ∀ x ∈ st.arrayIdsStage, x ∈ stored ∨ tests x < st.trace.count (Access.mother x))
    (h : motherLoop particlesMC l st = some st') :
    (∀ x, tests x ≤ st'.trace.count (Access.mother x))
      ∧ ∀ x ∈ st'.arrayIdsStage, x ∈ stored ∨ tests x < st'.trace.count (Access.mother x) :=
  motherLoop_inv particlesMC
    (fun s => (∀ x, tests x ≤ s.trace.count (Access.mother x))
      ∧ ∀ x ∈ s.arrayIdsStage, x ∈ stored ∨ tests x < s.trace.count (Access.mother x))
    (fun s i _ hs _ _ _ => testedSince_step stored tests s (Access.mother i) hs)
    (fun s i _ hs _ _ _ => testedSince_store stored tests s i hs) l st st' hinv h

theorem memberLoop_testedSince (particlesMC : McParticles) (stored : List Int)
    (tests : Int → Nat) (l : List Int) (st st' : WalkState)
    (hinv : (∀ x, tests x ≤ st.trace.count (Access.mother x))
      ∧ ∀ x ∈ st.arrayIdsStage, x ∈ stored ∨ tests x < st.trace.count (Access.mother x))
    (h : memberLoop particlesMC l st = some st') :
    (∀ x, tests x ≤ st'.trace.count (Access.mother x))
      ∧ ∀ x ∈ st'.arrayIdsStage, x ∈ stored ∨ tests x < st'.trace.count (Access.mother x) :=
  memberLoop_inv particlesMC
    (fun s => (∀ x, tests x ≤ s.trace.count (Access.mother x))
      ∧ ∀ x ∈ s.arrayIdsStage, x ∈ stored ∨ tests x < s.trace.count (Access.mother x))
    (fun s i _ hs _ _ _ => testedSince_step stored tests s (Access.mother i) hs)
    (fun s i _ hs _ _ _ => testedSince_store stored tests s i hs)
    (fun s i _ hs _ => testedSince_step stored tests s (Access.member i) hs)
    (fun _ hs => hs) l st st' hinv h

/-- The loop over `iMother` gets to every index of the range that has no strange
index before it: such an index is tested, unless it is already stored. -/
theorem motherLoop_tests_reached (particlesMC : McParticles) (stored : List Int)
    (tests : Int → Nat) (i : Int) (post : List Int) :
    ∀ (pre : List Int) (st st' : WalkState),
      motherLoop particlesMC (pre ++ i :: post) st = some st' →
      (∀ j ∈ pre, specIsStrange particlesMC j = false) →
      ((∀ x, tests x ≤ st.trace.count (Access.mother x))
        ∧ ∀ x ∈ st.arrayIdsStage, x ∈ stored ∨ tests x < st.trace.count (Access.mother x)) →
      i ∈ stored ∨ tests i < st'.trace.count (Access.mother i) := by
  intro pre
  induction pre with
  | nil =>
    intro st st' h _ hinv
    simp only [List.nil_append] at h
    by_cases hin : i ∈ st.arrayIdsStage
    · rcases hinv.2 i hin with h1 | h1
      · exact Or.inl h1
      · right
        have := motherLoop_count_mono particlesMC _ st st' h (Access.mother i)
        omega
    · unfold motherLoop at h
      simp only [hin, if_false] at h
      cases hrow : particlesMC.rawIteratorAt (i - particlesMC.offset) with
      | none => simp [hrow] at h
      | some row =>
        simp only [hrow] at h
        have hnow : tests i < (st.trace ++ [Access.mother i]).count (Access.mother i) := by
          have := hinv.1 i
          rw [List.count_append, List.count_singleton_self]
          omega
        by_cases hs : isStrangePDG row.pdgCode = true
        · simp only [hs, if_true, Option.some.injEq] at h
          subst h
          exact Or.inr hnow
        · have hs' : isStrangePDG row.pdgCode = false := by simpa using hs
          simp only [hs', Bool.false_eq_true, if_false] at h
          right
          have := motherLoop_count_mono particlesMC _ _ st' h (Access.mother i)
          simp only at this
          omega
  | cons j pre ih =>
    intro st st' h hpre hinv
    have hj : specIsStrange particlesMC j = false := hpre j (List.mem_cons_self _ _)
    have hpre' : ∀ k ∈ pre, specIsStrange particlesMC k = false :=
      fun k hk => hpre k (List.mem_cons_of_mem _ hk)
    simp only [List.cons_append] at h
    unfold motherLoop at h
    by_cases hin : j ∈ st.arrayIdsStage
    · simp only [hin, if_true] at h
      exact ih st st' h hpre' hinv
    · simp only [hin, if_false] at h
      cases hrow : particlesMC.rawIteratorAt (j - particlesMC.offset) with
      | none => simp [hrow] at h
      | some row =>
        simp only [hrow] at h
        have hs' : isStrangePDG row.pdgCode = false := by
          simpa [specIsStrange, hrow] using hj
        simp only [hs', Bool.false_eq_true, if_false] at h
        exact ih _ st' h hpre' (testedSince_store stored tests st j hinv)

/-- Every member of a stage has its mothers tested, whatever happened for the members
before it: each index that a member reaches is tested during the stage, unless it
was stored before. -/
theorem memberLoop_tests_reached (particlesMC : McParticles) (stored : List Int)
    (tests : Int → Nat) (i : Int) :
    ∀ (l : List Int) (st st' : WalkState), memberLoop particlesMC l st = some st' →
      ((∀ x, tests x ≤ st.trace.count (Access.mother x))
        ∧ ∀ x ∈ st.arrayIdsStage, x ∈ stored ∨ tests x < st.trace.count (Access.mother x)) →
      (∃ y ∈ l, ReachedBy particlesMC y i) →
      i ∈ stored ∨ tests i < st'.trace.count (Access.mother i) := by
  intro l
  induction l with
  | nil => intro st st' _ _ hex; obtain ⟨y, hy, _⟩ := hex; cases hy
  | cons y rest ih =>
    intro st st' h hinv hex
    unfold memberLoop at h
    cases hrow : particlesMC.rawIteratorAt (y - particlesMC.offset) with
    | none => simp [hrow] at h
    | some yrow =>
      simp only [hrow] at h
      have hinv1 := testedSince_step stored tests st (Access.member y) hinv
      by_cases hm : yrow.has_mothers = true
      · simp only [hm, if_true] at h
        cases hml : motherLoop particlesMC yrow.motherRange
            { st with trace := st.trace ++ [Access.member y] } with
        | none => simp [hml] at h
        | some st2 =>
          simp only [hml] at h
          have hinv2 := motherLoop_testedSince particlesMC stored tests _ _ st2 hinv1 hml
          obtain ⟨z, hz, hreach⟩ := hex
          rcases List.mem_cons.mp hz with hzy | hzr
          · subst hzy
            obtain ⟨zrow, pre, post, hzrow, hrange, hpre⟩ := hreach
            rw [hrow] at hzrow
            cases hzrow
            rw [hrange] at hml
            rcases motherLoop_tests_reached particlesMC stored tests i post pre _ st2 hml hpre
              hinv1 with ht | ht
            · exact Or.inl ht
            · right
              have := memberLoop_count_mono particlesMC rest _ st' h (Access.mother i)
              simp only at this
              omega
          · exact ih _ st' h hinv2 ⟨z, hzr, hreach⟩
      · have hm' : yrow.has_mothers = false := by simpa using hm
        simp only [hm', Bool.false_eq_true, if_false] at h
        obtain ⟨z, hz, hreach⟩ := hex
        rcases List.mem_cons.mp hz with hzy | hzr
        · subst hzy
          obtain ⟨zrow, pre, post, hzrow, hrange, _⟩ := hreach
          rw [hrow] at hzrow
          cases hzrow
          have hempty : yrow.motherRange = [] := by
            cases yrow with
            | mk pdgCode mothersIds mcCollisionId isPhysicalPrimary pt =>
              cases mothersIds with
              | nil => rfl
              | cons a r => simp [McParticle.has_mothers] at hm'
          rw [hempty] at hrange
          cases pre <;> cases hrange
        · exact ih _ st' h hinv1 ⟨z, hzr, hreach⟩

/-- Every member of a stage is looked up, once for each of its occurrences in the
list of the stage, whatever the value of the flag. -/
theorem memberLoop_member_count (particlesMC : McParticles) (y : Int) :
    ∀ (l : List Int) (st st' : WalkState), memberLoop particlesMC l st = some st' →
      st'.trace.count (Access.member y) = st.trace.count (Access.member y) + l.count y := by
  intro l
  induction l with
  | nil =>
    intro st st' h
    simp only [memberLoop, Option.some.injEq] at h
    subst h
    simp
  | cons z rest ih =>
    intro st st' h
    have hinner : ∀ (r : List Int) (s s2 : WalkState), motherLoop particlesMC r s = some s2 →
        s2.trace.count (Access.member y) = s.trace.count (Access.member y) := by
      intro r s s2 hr
      exact motherLoop_inv particlesMC
        (fun t => t.trace.count (Access.member y) = s.trace.count (Access.member y))
        (fun _ _ _ hs _ _ _ => by
          simp only [List.count_append, List.count_singleton, beq_iff_eq, if_false,
            Nat.add_zero]
          exact hs)
        (fun _ _ _ hs _ _ _ => by
          simp only [List.count_append, List.count_singleton, beq_iff_eq, if_false,
            Nat.add_zero]
          exact hs) r s s2 rfl hr
    unfold memberLoop at h
    cases hrow : particlesMC.rawIteratorAt (z - particlesMC.offset) with
    | none => simp [hrow] at h
    | some zrow =>
      simp only [hrow] at h
      have hstep : (st.trace ++ [Access.member z]).count (Access.member y)
          = st.trace.count (Access.member y) + [z].count y := by
        simp only [List.count_append, List.count_singleton, beq_iff_eq, Access.member.injEq]
      have hcons : (z :: rest).count y = [z].count y + rest.count y := by
        rw [← List.count_append]
        rfl
      by_cases hm : zrow.has_mothers = true
      · simp only [hm, if_true] at h
        cases hml : motherLoop particlesMC zrow.motherRange
            { st with trace := st.trace ++ [Access.member z] } with
        | none => simp [hml] at h
        | some st2 =>
          simp only [hml] at h
          have h1 := hinner _ _ st2 hml
          have h2 := ih _ st' h
          simp only at h1 h2
          rw [h2, h1, hstep, hcons]
          omega
      · simp only [hm, Bool.false_eq_true, if_false] at h
        have h2 := ih _ st' h
        simp only at h2
        rw [h2, hstep, hcons]
        omega

/-- The loop over `iMother` does not read the flag: run with the flag set, it makes
the same lookups and stores the same indices. -/
theorem motherLoop_flag_set (particlesMC : McParticles) :
    ∀ (l : List Int) (st : WalkState),
      motherLoop particlesMC l { st with strangeness := 1 }
        = (motherLoop particlesMC l st).map (fun s => { s with strangeness := 1 }) := by
  intro l
  induction l with
  | nil => intro st; rfl
  | cons i rest ih =>
    intro st
    unfold motherLoop
    by_cases hin : i ∈ st.arrayIdsStage
    · simp only [hin, if_true]
      exact ih st
    · simp only [hin, if_false]
      cases hrow : particlesMC.rawIteratorAt (i - particlesMC.offset) with
      | none => rfl
      | some row =>
        simp only []
        by_cases hs : isStrangePDG row.pdgCode = true
        · simp only [hs, if_true, Option.map_some']
        · have hs' : isStrangePDG row.pdgCode = false := by simpa using hs
          simp only [hs', Bool.false_eq_true, if_false]
          exact ih { st with trace := st.trace ++ [Access.mother i],
                             arrayIdsStage := st.arrayIdsStage ++ [i] }

/-- The loop over the members of a stage does not read the flag: run with the flag
set, it looks up the same members, tests the same mothers and stores the same
indices. -/
theorem memberLoop_flag_set (particlesMC : McParticles) :
    ∀ (l : List Int) (st : WalkState),
      memberLoop particlesMC l { st with strangeness := 1 }
        = (memberLoop particlesMC l st).map (fun s => { s with strangeness := 1 }) := by
  intro l
  induction l with
  | nil => intro st; rfl
  | cons y rest ih =>
    intro st
    unfold memberLoop
    cases hrow : particlesMC.rawIteratorAt (y - particlesMC.offset) with
    | none => rfl
    | some yrow =>
      simp only []
      by_cases hm : yrow.has_mothers = true
      · simp only [hm, if_true]
        have hml := motherLoop_flag_set particlesMC yrow.motherRange
          { st with trace := st.trace ++ [Access.member y] }
        simp only at hml
        rw [hml]
        cases motherLoop particlesMC yrow.motherRange
            { st with trace := st.trace ++ [Access.member y] } with
        | none => rfl
        | some st2 =>
          simp only [Option.map_some']
          exact ih { st2 with arrayIds := st2.arrayIds ++ [st2.arrayIdsStage] }
      · simp only [hm, Bool.false_eq_true, if_false]
        exact ih { st with trace := st.trace ++ [Access.member y],
                           arrayIds := st.arrayIds ++ [st.arrayIdsStage] }

/-- Claim C18 as stated fails at `lateMatchEvent`: the Lambda is found as mother of
`a`, the first member of stage 1, and the walk then still looks up the second member
`b` (index 3) and tests its mother (index 1) before it returns 1. -/
theorem C18_remaining_members_still_visited :
    (isFromStrangeDecayRun lateMatchEvent 4).map (fun r => r.trace)
        = some [Access.member 4, Access.mother 2, Access.mother 3, Access.member 2,
            Access.mother 0, Access.member 3, Access.mother 1]
      ∧ (isFromStrangeDecayRun lateMatchEvent 4).map
          (fun r => accessesAfterFirstMatch lateMatchEvent r.trace)
        = some [Access.member 3, Access.mother 1]
      ∧ isFromStrangeDecay lateMatchEvent 4 = some 1 := by
  decide

/-- Claim C18, amended: when a strange mother is found the loop over the mothers of
the member being processed stops there (the rest of its mother range is not tested),
`strangeness` stays 1 through the remaining members of the stage, the `while` loop
does not start another stage (it is left with the trace it is entered with), and the
function returns 1. The remaining members of the stage are still processed: every
member of the stage is looked up, once for each of its occurrences in the list of the
stage; every mother index that a member reaches is tested during the stage unless it
was stored before; and a stage run with the flag already set makes the same lookups
and tests and stores the same indices as with the flag unset. -/
theorem C18_match_stops_mother_loop_and_later_stages (particlesMC : McParticles) :
    (∀ (st : WalkState) (i : Int) (rest : List Int) (row : McParticle),
        i ∉ st.arrayIdsStage →
        particlesMC.rawIteratorAt (i - particlesMC.offset) = some row →
        isStrangePDG row.pdgCode = true →
        motherLoop particlesMC (i :: rest) st
          = some { st with trace := st.trace ++ [Access.mother i], strangeness := 1 })
      ∧ (∀ (l : List Int) (st st' : WalkState), memberLoop particlesMC l st = some st' →
          st.strangeness = 1 → st'.strangeness = 1)
      ∧ (∀ (todo : Nat) (st : WalkState) (r : WalkResult), st.strangeness ≠ 0 →
          whileLoop particlesMC todo st = some r →
          r.trace = st.trace ∧ r.strangeness = st.strangeness ∧ r.arrayIds = st.arrayIds)
      ∧ (∀ (particle : Int) (r : WalkResult),
          isFromStrangeDecayRun particlesMC particle = some r →
          (∃ i, Access.mother i ∈ r.trace ∧ specIsStrange particlesMC i = true) →
          r.strangeness = 1 ∧ isFromStrangeDecay particlesMC particle = some 1)
      ∧ (∀ (l : List Int) (st st' : WalkState) (y : Int),
          memberLoop particlesMC l st = some st' →
          st'.trace.count (Access.member y) = st.trace.count (Access.member y) + l.count y)
      ∧ (∀ (l : List Int) (st st' : WalkState) (i : Int),
          memberLoop particlesMC l st = some st' →
          (∃ y ∈ l, ReachedBy particlesMC y i) →
          i ∈ st.arrayIdsStage
            ∨ st.trace.count (Access.mother i) < st'.trace.count (Access.mother i))
      ∧ (∀ (l : List Int) (st : WalkState),
          memberLoop particlesMC l { st with strangeness := 1 }
            = (memberLoop particlesMC l st).map (fun s => { s with strangeness := 1 })) := by
  refine ⟨?_, ?_, ?_, ?_, ?_, ?_, ?_⟩
  · intro st i rest row hin hrow hs
    simp [motherLoop, hin, hrow, hs]
  · intro l st st' h hs
    exact memberLoop_strangeness particlesMC l st st' h hs
  · intro todo st r hs h
    exact whileLoop_flag_set particlesMC todo st r hs h
  · intro particle r h hex
    have h1 := whileLoop_match_sets_flag particlesMC 4 _ r (by simp) h hex
    exact ⟨h1, by simp [isFromStrangeDecay, h, h1]⟩
  · intro l st st' y h
    exact memberLoop_member_count particlesMC y l st st' h
  · intro l st st' i h hex
    exact memberLoop_tests_reached particlesMC st.arrayIdsStage
      (fun x => st.trace.count (Access.mother x)) i l st st' h
      ⟨fun _ => le_refl _, fun x hx => Or.inl hx⟩ hex
  · intro l st
    exact memberLoop_flag_set particlesMC l st

/-- Witness of C18: in `lateMatchEvent` the test of index 0 is in the trace and index 0
is a Lambda, so the walk from index 4 returns 1; and from the state reached when that
match is made, with `strangeness = 1`, the remaining member `b` (index 3) of the stage
is looked up and its mother (index 1) tested. -/
theorem C18_match_stops_mother_loop_and_later_stages_witness :
    isFromStrangeDecay lateMatchEvent 4 = some 1
      ∧ memberLoop lateMatchEvent [3]
          ⟨[[4], [2, 3], []], [], 1,
            [Access.member 4, Access.mother 2, Access.mother 3, Access.member 2,
              Access.mother 0]⟩
        = some ⟨[[4], [2, 3], [], [1]], [1], 1,
            [Access.member 4, Access.mother 2, Access.mother 3, Access.member 2,
              Access.mother 0, Access.member 3, Access.mother 1]⟩
      ∧ ([Access.member 4, Access.mother 2, Access.mother 3, Access.member 2,
            Access.mother 0, Access.member 3, Access.mother 1].count (Access.member 3)
          = [Access.member 4, Access.mother 2, Access.mother 3, Access.member 2,
              Access.mother 0].count (Access.member 3) + [(3 : Int)].count 3)
      ∧ ((1 : Int) ∈ ([] : List Int)
          ∨ [Access.member 4, Access.mother 2, Access.mother 3, Access.member 2,
              Access.mother 0].count (Access.mother 1)
            < [Access.member 4, Access.mother 2, Access.mother 3, Access.member 2,
                Access.mother 0, Access.member 3, Access.mother 1].count (Access.mother 1)) :=
  ⟨((C18_match_stops_mother_loop_and_later_stages lateMatchEvent).2.2.2.1 4
      ⟨2, [[4], [2, 3], [], [1]], 1,
        [Access.member 4, Access.mother 2, Access.mother 3, Access.member 2,
          Access.mother 0, Access.member 3, Access.mother 1]⟩
      (by decide) ⟨0, by decide, by decide⟩).2,
    by decide,
    (C18_match_stops_mother_loop_and_later_stages lateMatchEvent).2.2.2.2.1 [3]
      ⟨[[4], [2, 3], []], [], 1,
        [Access.member 4, Access.mother 2, Access.mother 3, Access.member 2,
          Access.mother 0]⟩
      ⟨[[4], [2, 3], [], [1]], [1], 1,
        [Access.member 4, Access.mother 2, Access.mother 3, Access.member 2,
          Access.mother 0, Access.member 3, Access.mother 1]⟩ 3 (by decide),
    (C18_match_stops_mother_loop_and_later_stages lateMatchEvent).2.2.2.2.2.1 [3]
      ⟨[[4], [2, 3], []], [], 1,
        [Access.member 4, Access.mother 2, Access.mother 3, Access.member 2,
          Access.mother 0]⟩
      ⟨[[4], [2, 3], [], [1]], [1], 1,
        [Access.member 4, Access.mother 2, Access.mother 3, Access.member 2,
          Access.mother 0, Access.member 3, Access.mother 1]⟩ 1 (by decide)
      ⟨3, by simp, mkParticle 21 [1], [], [], by decide, by decide, by simp⟩⟩

/-- Every list of `arrayIds`, and `arrayIdsStage`, is free of duplicates. -/
theorem memberLoop_nodup (particlesMC : McParticles) (l : List Int) (st st' : WalkState)
    (hinv : st.arrayIdsStage.Nodup ∧ ∀ L ∈ st.arrayIds, L.Nodup)
    (h : memberLoop particlesMC l st = some st') :
    st'.arrayIdsStage.Nodup ∧ ∀ L ∈ st'.arrayIds, L.Nodup := by
  refine memberLoop_inv particlesMC (fun s => s.arrayIdsStage.Nodup ∧ ∀ L ∈ s.arrayIds, L.Nodup)
    (fun _ _ _ hs _ _ _ => hs) ?_ (fun _ _ _ hs _ => hs) ?_ l st st' hinv h
  · intro s i row hs hin _ _
    refine ⟨?_, hs.2⟩
    exact List.Nodup.append hs.1 (List.nodup_singleton i)
      (by
        intro x hx hx'
        simp only [List.mem_singleton] at hx'
        subst hx'
        exact hin hx)
  · intro s hs
    refine ⟨hs.1, ?_⟩
    intro L hL
    rcases List.mem_append.mp hL with hL | hL
    · exact hs.2 L hL
    · simp only [List.mem_singleton] at hL
      subst hL
      exact hs.1

theorem motherLoop_nodup (particlesMC : McParticles) (l : List Int) (st st' : WalkState)
    (hinv : st.arrayIdsStage.Nodup)
    (h : motherLoop particlesMC l st = some st') : st'.arrayIdsStage.Nodup := by
  refine motherLoop_inv particlesMC (fun s => s.arrayIdsStage.Nodup)
    (fun _ _ _ hs _ _ _ => hs) ?_ l st st' hinv h
  intro s i row hs hin _ _
  exact List.Nodup.append hs (List.nodup_singleton i)
    (by
      intro x hx hx'
      simp only [List.mem_singleton] at hx'
      subst hx'
      exact hin hx)

theorem memberLoop_stage_nodup (particlesMC : McParticles) (l : List Int)
    (st st' : WalkState) (hinv : st.arrayIdsStage.Nodup)
    (h : memberLoop particlesMC l st = some st') : st'.arrayIdsStage.Nodup := by
  refine memberLoop_inv particlesMC (fun s => s.arrayIdsStage.Nodup)
    (fun _ _ _ hs _ _ _ => hs) ?_ (fun _ _ _ hs _ => hs) (fun _ hs => hs) l st st' hinv h
  intro s i row hs hin _ _
  exact List.Nodup.append hs (List.nodup_singleton i)
    (by
      intro x hx hx'
      simp only [List.mem_singleton] at hx'
      subst hx'
      exact hin hx)

theorem whileLoop_nodup (particlesMC : McParticles) (todo : Nat) (st : WalkState)
    (r : WalkResult) (hinv : st.arrayIdsStage.Nodup ∧ ∀ L ∈ st.arrayIds, L.Nodup)
    (h : whileLoop particlesMC todo st = some r) : ∀ L ∈ r.arrayIds, L.Nodup := by
  obtain ⟨_, hres⟩ := whileLoop_inv particlesMC
    (fun s => s.arrayIdsStage.Nodup ∧ ∀ L ∈ s.arrayIds, L.Nodup)
    (fun _ _ _ hs _ _ _ => hs)
    (fun s i row hs hin _ _ => ⟨List.Nodup.append hs.1 (List.nodup_singleton i)
      (by
        intro x hx hx'
        simp only [List.mem_singleton] at hx'
        subst hx'
        exact hin hx), hs.2⟩)
    (fun _ _ _ hs _ => hs)
    (fun s hs => ⟨hs.1, by
      intro L hL
      rcases List.mem_append.mp hL with hL | hL
      · exact hs.2 L hL
      · simp only [List.mem_singleton] at hL
        subst hL
        exact hs.1⟩)
    (fun _ hs => ⟨List.nodup_nil, hs.2⟩) todo st r hinv h
  exact hres.2

/-- Within one stage a mother without a strange code is tested at most once: its
tests in the trace are those made before the stage, plus one exactly when it is in
`arrayIdsStage`. -/
theorem memberLoop_tested_once (particlesMC : McParticles) (i : Int) (row : McParticle)
    (hrow : particlesMC.rawIteratorAt (i - particlesMC.offset) = some row)
    (hns : isStrangePDG row.pdgCode = false) (before : Nat) (l : List Int)
    (st st' : WalkState)
    (hinv : st.trace.count (Access.mother i)
      = before + (if i ∈ st.arrayIdsStage then 1 else 0))
    (h : memberLoop particlesMC l st = some st') :
    st'.trace.count (Access.mother i)
      = before + (if i ∈ st'.arrayIdsStage then 1 else 0) := by
  refine memberLoop_inv particlesMC
    (fun s => s.trace.count (Access.mother i)
      = before + (if i ∈ s.arrayIdsStage then 1 else 0)) ?_ ?_ ?_ (fun _ hs => hs)
    l st st' hinv h
  · intro s j rowj hs _ hj hjs
    have hne : j ≠ i := by
      intro e
      subst e
      rw [hrow] at hj
      cases hj
      simp [hns] at hjs
    simp only [List.count_append, List.count_singleton, beq_iff_eq, Access.mother.injEq, hne,
      if_false, Nat.add_zero]
    exact hs
  · intro s j rowj hs hin _ _
    by_cases e : j = i
    · subst e
      simp only [List.count_append, List.count_singleton, beq_self_eq_true, if_true,
        List.mem_append, List.mem_singleton, or_true]
      simp only [hin, if_false, Nat.add_zero] at hs
      omega
    · have e' : ¬ i = j := fun h' => e h'.symm
      simp only [List.count_append, List.count_singleton, beq_iff_eq, Access.mother.injEq, e,
        if_false, Nat.add_zero, List.mem_append, List.mem_singleton, e', or_false]
      exact hs
  · intro s j rowj hs _
    simp only [List.count_append, List.count_singleton, beq_iff_eq, if_false, Nat.add_zero]
    exact hs

theorem motherLoop_stage_mono (particlesMC : McParticles) (l : List Int) (st st' : WalkState)
    (h : motherLoop particlesMC l st = some st') :
    ∀ x ∈ st.arrayIdsStage, x ∈ st'.arrayIdsStage :=
  motherLoop_inv particlesMC (fun s => ∀ x ∈ st.arrayIdsStage, x ∈ s.arrayIdsStage)
    (fun _ _ _ hs _ _ _ => hs)
    (fun _ _ _ hs _ _ _ x hx => List.mem_append_left _ (hs x hx)) l st st'
    (fun _ hx => hx) h

theorem memberLoop_stage_mono (particlesMC : McParticles) (l : List Int) (st st' : WalkState)
    (h : memberLoop particlesMC l st = some st') :
    ∀ x ∈ st.arrayIdsStage, x ∈ st'.arrayIdsStage :=
  memberLoop_inv particlesMC (fun s => ∀ x ∈ st.arrayIdsStage, x ∈ s.arrayIdsStage)
    (fun _ _ _ hs _ _ _ => hs)
    (fun _ _ _ hs _ _ _ x hx => List.mem_append_left _ (hs x hx))
    (fun _ _ _ hs _ => hs) (fun _ hs => hs) l st st' (fun _ hx => hx) h

theorem motherLoop_goodStage (particlesMC : McParticles) (l : List Int) (st st' : WalkState)
    (hinv : GoodStage particlesMC st) (h : motherLoop particlesMC l st = some st') :
    GoodStage particlesMC st' := by
  refine motherLoop_inv particlesMC (GoodStage particlesMC) (fun _ _ _ hs _ _ _ => hs) ?_
    l st st' hinv h
  intro s i row hs _ hrow hns x hx
  rcases List.mem_append.mp hx with hx | hx
  · exact hs x hx
  · have hxi : x = i := by simpa using hx
    subst hxi
    exact ⟨row, hrow, hns⟩

/-- The loop over `iMother` stores every index without a strange code that it gets
to. -/
theorem motherLoop_stores_reached (particlesMC : McParticles) (i : Int) (row : McParticle)
    (hrow : particlesMC.rawIteratorAt (i - particlesMC.offset) = some row)
    (hns : isStrangePDG row.pdgCode = false) (post : List Int) :
    ∀ (pre : List Int) (st st' : WalkState),
      motherLoop particlesMC (pre ++ i :: post) st = some st' →
      (∀ j ∈ pre, specIsStrange particlesMC j = false) → i ∈ st'.arrayIdsStage := by
  intro pre
  induction pre with
  | nil =>
    intro st st' h _
    simp only [List.nil_append] at h
    by_cases hin : i ∈ st.arrayIdsStage
    · exact motherLoop_stage_mono particlesMC _ st st' h i hin
    · unfold motherLoop at h
      simp only [hin, if_false, hrow, hns, Bool.false_eq_true] at h
      exact motherLoop_stage_mono particlesMC _ _ st' h i
        (List.mem_append_right _ (List.mem_singleton.mpr rfl))
  | cons j pre ih =>
    intro st st' h hpre
    have hj : specIsStrange particlesMC j = false := hpre j (List.mem_cons_self _ _)
    have hpre' : ∀ k ∈ pre, specIsStrange particlesMC k = false :=
      fun k hk => hpre k (List.mem_cons_of_mem _ hk)
    simp only [List.cons_append] at h
    unfold motherLoop at h
    by_cases hin : j ∈ st.arrayIdsStage
    · simp only [hin, if_true] at h
      exact ih st st' h hpre'
    · simp only [hin, if_false] at h
      cases hjrow : particlesMC.rawIteratorAt (j - particlesMC.offset) with
      | none => simp [hjrow] at h
      | some jrow =>
        simp only [hjrow] at h
        have hs' : isStrangePDG jrow.pdgCode = false := by
          simpa [specIsStrange, hjrow] using hj
        simp only [hs', Bool.false_eq_true, if_false] at h
        exact ih _ st' h hpre'

/-- An index stored by the loop over `iMother` was stored before or is an index of
the range with no strange index before it. -/
theorem motherLoop_stored_reached (particlesMC : McParticles) :
    ∀ (l : List Int) (st st' : WalkState), GoodStage particlesMC st →
      motherLoop particlesMC l st = some st' →
      ∀ x ∈ st'.arrayIdsStage, x ∈ st.arrayIdsStage
        ∨ ∃ pre post, l = pre ++ x :: post ∧ ∀ j ∈ pre, specIsStrange particlesMC j = false := by
  intro l
  induction l with
  | nil =>
    intro st st' _ h x hx
    simp only [motherLoop, Option.some.injEq] at h
    subst h
    exact Or.inl hx
  | cons i rest ih =>
    intro st st' hgood h x hx
    unfold motherLoop at h
    by_cases hin : i ∈ st.arrayIdsStage
    · simp only [hin, if_true] at h
      obtain ⟨irow, hirow, hins⟩ := hgood i hin
      rcases ih st st' hgood h x hx with h1 | ⟨pre, post, hl, hpre⟩
      · exact Or.inl h1
      · refine Or.inr ⟨i :: pre, post, by rw [hl]; rfl, ?_⟩
        intro j hj
        rcases List.mem_cons.mp hj with hji | hjp
        · subst hji
          simp [specIsStrange, hirow, hins]
        · exact hpre j hjp
    · simp only [hin, if_false] at h
      cases hirow : particlesMC.rawIteratorAt (i - particlesMC.offset) with
      | none => simp [hirow] at h
      | some irow =>
        simp only [hirow] at h
        by_cases hs : isStrangePDG irow.pdgCode = true
        · simp only [hs, if_true, Option.some.injEq] at h
          subst h
          exact Or.inl hx
        · have hs' : isStrangePDG irow.pdgCode = false := by simpa using hs
          simp only [hs', Bool.false_eq_true, if_false] at h
          have hgood' : GoodStage particlesMC
              { st with trace := st.trace ++ [Access.mother i],
                        arrayIdsStage := st.arrayIdsStage ++ [i] } := by
            intro z hz
            rcases List.mem_append.mp hz with hz | hz
            · exact hgood z hz
            · have hzi : z = i := by simpa using hz
              subst hzi
              exact ⟨irow, hirow, hs'⟩
          rcases ih _ st' hgood' h x hx with h1 | ⟨pre, post, hl, hpre⟩
          · rcases List.mem_append.mp h1 with h2 | h2
            · exact Or.inl h2
            · have hxi : x = i := by simpa using h2
              subst hxi
              exact Or.inr ⟨[], rest, rfl, by intro j hj; cases hj⟩
          · refine Or.inr ⟨i :: pre, post, by rw [hl]; rfl, ?_⟩
            intro j hj
            rcases List.mem_cons.mp hj with hji | hjp
            · subst hji
              simp [specIsStrange, hirow, hs']
            · exact hpre j hjp

/-- Within a stage, an index without a strange code that some member reaches is
stored. -/
theorem memberLoop_stores_reached (particlesMC : McParticles) (i : Int) (row : McParticle)
    (hrow : particlesMC.rawIteratorAt (i - particlesMC.offset) = some row)
    (hns : isStrangePDG row.pdgCode = false) :
    ∀ (l : List Int) (st st' : WalkState), memberLoop particlesMC l st = some st' →
      (∃ y ∈ l, ReachedBy particlesMC y i) → i ∈ st'.arrayIdsStage := by
  intro l
  induction l with
  | nil => intro st st' _ hex; obtain ⟨y, hy, _⟩ := hex; cases hy
  | cons y rest ih =>
    intro st st' h hex
    unfold memberLoop at h
    cases hyrow : particlesMC.rawIteratorAt (y - particlesMC.offset) with
    | none => simp [hyrow] at h
    | some yrow =>
      simp only [hyrow] at h
      by_cases hm : yrow.has_mothers = true
      · simp only [hm, if_true] at h
        cases hml : motherLoop particlesMC yrow.motherRange
            { st with trace := st.trace ++ [Access.member y] } with
        | none => simp [hml] at h
        | some st2 =>
          simp only [hml] at h
          obtain ⟨z, hz, hreach⟩ := hex
          rcases List.mem_cons.mp hz with hzy | hzr
          · subst hzy
            obtain ⟨zrow, pre, post, hzrow, hrange, hpre⟩ := hreach
            rw [hyrow] at hzrow
            cases hzrow
            rw [hrange] at hml
            have hst := motherLoop_stores_reached particlesMC i row hrow hns post pre _ st2
              hml hpre
            exact memberLoop_stage_mono particlesMC rest _ st' h i hst
          · exact ih _ st' h ⟨z, hzr, hreach⟩
      · have hm' : yrow.has_mothers = false := by simpa using hm
        simp only [hm', Bool.false_eq_true, if_false] at h
        obtain ⟨z, hz, hreach⟩ := hex
        rcases List.mem_cons.mp hz with hzy | hzr
        · subst hzy
          obtain ⟨zrow, pre, post, hzrow, hrange, _⟩ := hreach
          rw [hyrow] at hzrow
          cases hzrow
          have hempty : yrow.motherRange = [] := by
            cases yrow with
            | mk pdgCode mothersIds mcCollisionId isPhysicalPrimary pt =>
              cases mothersIds with
              | nil => rfl
              | cons a r => simp [McParticle.has_mothers] at hm'
          rw [hempty] at hrange
          cases pre <;> cases hrange
        · exact ih _ st' h ⟨z, hzr, hreach⟩

/-- Within a stage, an index is stored only if it was stored before or some member
reaches it. -/
theorem memberLoop_stored_reached (particlesMC : McParticles) :
    ∀ (l : List Int) (st st' : WalkState), GoodStage particlesMC st →
      memberLoop particlesMC l st = some st' →
      ∀ x ∈ st'.arrayIdsStage, x ∈ st.arrayIdsStage ∨ ∃ y ∈ l, ReachedBy particlesMC y x := by
  intro l
  induction l with
  | nil =>
    intro st st' _ h x hx
    simp only [memberLoop, Option.some.injEq] at h
    subst h
    exact Or.inl hx
  | cons y rest ih =>
    intro st st' hgood h x hx
    unfold memberLoop at h
    cases hyrow : particlesMC.rawIteratorAt (y - particlesMC.offset) with
    | none => simp [hyrow] at h
    | some yrow =>
      simp only [hyrow] at h
      have hgood1 : GoodStage particlesMC { st with trace := st.trace ++ [Access.member y] } :=
        hgood
      have hlift : (x ∈ st.arrayIdsStage ∨ ∃ z ∈ rest, ReachedBy particlesMC z x) →
          x ∈ st.arrayIdsStage ∨ ∃ z ∈ y :: rest, ReachedBy particlesMC z x := by
        rintro (h1 | ⟨z, hz, hr⟩)
        · exact Or.inl h1
        · exact Or.inr ⟨z, List.mem_cons_of_mem _ hz, hr⟩
      by_cases hm : yrow.has_mothers = true
      · simp only [hm, if_true] at h
        cases hml : motherLoop particlesMC yrow.motherRange
            { st with trace := st.trace ++ [Access.member y] } with
        | none => simp [hml] at h
        | some st2 =>
          simp only [hml] at h
          have hgood2 := motherLoop_goodStage particlesMC _ _ st2 hgood1 hml
          have hgood3 : GoodStage particlesMC
              { st2 with arrayIds := st2.arrayIds ++ [st2.arrayIdsStage] } := hgood2
          rcases ih _ st' hgood3 h x hx with h1 | ⟨z, hz, hr⟩
          · rcases motherLoop_stored_reached particlesMC _ _ st2 hgood1 hml x h1 with
              h2 | ⟨pre, post, hl, hpre⟩
            · exact Or.inl h2
            · exact Or.inr ⟨y, List.mem_cons_self _ _, yrow, pre, post, hyrow, hl, hpre⟩
          · exact Or.inr ⟨z, List.mem_cons_of_mem _ hz, hr⟩
      · simp only [hm, Bool.false_eq_true, if_false] at h
        have hgood3 : GoodStage particlesMC
            { st with trace := st.trace ++ [Access.member y],
                      arrayIds := st.arrayIds ++ [st.arrayIdsStage] } := hgood
        exact hlift (ih _ st' hgood3 h x hx)

/-- Claim C19 as stated fails at `sharedLambdaEvent`: the Lambda (index 0) is the
mother of both members of stage 1; it is tested twice, once for each member, and
stored in no list. -/
theorem C19_shared_strange_mother_tested_twice :
    (isFromStrangeDecayRun sharedLambdaEvent 3).map
          (fun r => r.trace.count (Access.mother 0)) = some 2
      ∧ (isFromStrangeDecayRun sharedLambdaEvent 3).map (fun r => r.arrayIds)
        = some [[3], [1, 2], [], []]
      ∧ (isFromStrangeDecayRun sharedLambdaEvent 3).map (fun r => r.trace)
        = some [Access.member 3, Access.mother 1, Access.mother 2, Access.member 1,
            Access.mother 0, Access.member 2, Access.mother 0] := by
  decide

/-- Claim C19, amended: every list of `arrayIds` is free of duplicates when the
function returns, and at every point of the walk (each loop keeps `arrayIdsStage` and
every list of `arrayIds` free of duplicates); within a stage a mother index without a
strange code is stored at most once and tested at most once, however many members
refer to it: exactly once each when some member reaches it (it is in the mother range
of the member with no strange index before it), and not at all otherwise. -/
theorem C19_stage_lists_have_no_duplicates (particlesMC : McParticles) (particle : Int)
    (r : WalkResult) (hrun : isFromStrangeDecayRun particlesMC particle = some r) :
    (∀ L ∈ r.arrayIds, L.Nodup)
      ∧ (∀ (l : List Int) (st st' : WalkState), motherLoop particlesMC l st = some st' →
          st.arrayIdsStage.Nodup → st'.arrayIdsStage.Nodup)
      ∧ (∀ (l : List Int) (st st' : WalkState), memberLoop particlesMC l st = some st' →
          (st.arrayIdsStage.Nodup ∧ ∀ L ∈ st.arrayIds, L.Nodup) →
          st'.arrayIdsStage.Nodup ∧ ∀ L ∈ st'.arrayIds, L.Nodup)
      ∧ (∀ (l : List Int) (st st' : WalkState) (i : Int) (row : McParticle),
          memberLoop particlesMC l st = some st' → st.arrayIdsStage = [] →
          particlesMC.rawIteratorAt (i - particlesMC.offset) = some row →
          isStrangePDG row.pdgCode = false →
          st'.trace.count (Access.mother i) ≤ st.trace.count (Access.mother i) + 1
            ∧ st'.arrayIdsStage.count i ≤ 1)
      ∧ (∀ (l : List Int) (st st' : WalkState) (i : Int) (row : McParticle),
          memberLoop particlesMC l st = some st' → st.arrayIdsStage = [] →
          particlesMC.rawIteratorAt (i - particlesMC.offset) = some row →
          isStrangePDG row.pdgCode = false →
          (∃ y ∈ l, ReachedBy particlesMC y i) →
          st'.trace.count (Access.mother i) = st.trace.count (Access.mother i) + 1
            ∧ st'.arrayIdsStage.count i = 1)
      ∧ (∀ (l : List Int) (st st' : WalkState) (i : Int) (row : McParticle),
          memberLoop particlesMC l st = some st' → st.arrayIdsStage = [] →
          particlesMC.rawIteratorAt (i - particlesMC.offset) = some row →
          isStrangePDG row.pdgCode = false →
          (¬ ∃ y ∈ l, ReachedBy particlesMC y i) →
          st'.trace.count (Access.mother i) = st.trace.count (Access.mother i)
            ∧ st'.arrayIdsStage.count i = 0) := by
  refine ⟨?_, ?_, ?_, ?_, ?_, ?_⟩
  · exact whileLoop_nodup particlesMC 4 _ r ⟨List.nodup_nil, by simp⟩ hrun
  · intro l st st' h hn
    exact motherLoop_nodup particlesMC l st st' hn h
  · intro l st st' h hn
    exact memberLoop_nodup particlesMC l st st' hn h
  · intro l st st' i row h hempty hrow hns
    have h1 := memberLoop_tested_once particlesMC i row hrow hns
      (st.trace.count (Access.mother i)) l st st' (by simp [hempty]) h
    have h2 := memberLoop_stage_nodup particlesMC l st st' (by simp [hempty]) h
    refine ⟨?_, List.nodup_iff_count_le_one.mp h2 i⟩
    rw [h1]
    split <;> omega
  · intro l st st' i row h hempty hrow hns hex
    have h1 := memberLoop_tested_once particlesMC i row hrow hns
      (st.trace.count (Access.mother i)) l st st' (by simp [hempty]) h
    have h2 := memberLoop_stage_nodup particlesMC l st st' (by simp [hempty]) h
    have h3 := memberLoop_stores_reached particlesMC i row hrow hns l st st' h hex
    rw [if_pos h3] at h1
    exact ⟨h1, List.count_eq_one_of_mem h2 h3⟩
  · intro l st st' i row h hempty hrow hns hex
    have h1 := memberLoop_tested_once particlesMC i row hrow hns
      (st.trace.count (Access.mother i)) l st st' (by simp [hempty]) h
    have h3 : i ∉ st'.arrayIdsStage := by
      intro hmem
      rcases memberLoop_stored_reached particlesMC l st st'
        (by intro x hx; rw [hempty] at hx; cases hx) h i hmem with h4 | h4
      · rw [hempty] at h4
        cases h4
      · exact hex h4
    rw [if_neg h3] at h1
    exact ⟨h1, List.count_eq_zero_of_not_mem h3⟩

/-- Witness of C19: in `sharedProtonEvent` both members of stage 1 (indices 1 and 2)
have the proton (index 0) as mother; the lists `[1, 2]` and `[0]` of `arrayIds` are
free of duplicates, and during stage 1 the proton is tested once and stored once. -/
theorem C19_stage_lists_have_no_duplicates_witness :
    ([1, 2] : List Int).Nodup ∧ ([0] : List Int).Nodup
      ∧ memberLoop sharedProtonEvent [1, 2]
          ⟨[[3], [1, 2]], [], 0, [Access.member 3, Access.mother 1, Access.mother 2]⟩
        = some ⟨[[3], [1, 2], [0], [0]], [0], 0,
            [Access.member 3, Access.mother 1, Access.mother 2, Access.member 1,
              Access.mother 0, Access.member 2]⟩
      ∧ [Access.member 3, Access.mother 1, Access.mother 2, Access.member 1,
            Access.mother 0, Access.member 2].count (Access.mother 0)
          = [Access.member 3, Access.mother 1, Access.mother 2].count (Access.mother 0) + 1
      ∧ ([0] : List Int).count 0 = 1 :=
  have h := C19_stage_lists_have_no_duplicates sharedProtonEvent 3
    ⟨4, [[3], [1, 2], [0], [0], [], []], 0,
      [Access.member 3, Access.mother 1, Access.mother 2, Access.member 1, Access.mother 0,
        Access.member 2, Access.member 0, Access.member 0]⟩
    (by decide)
  have h5 := h.2.2.2.2.1 [1, 2]
    ⟨[[3], [1, 2]], [], 0, [Access.member 3, Access.mother 1, Access.mother 2]⟩
    ⟨[[3], [1, 2], [0], [0]], [0], 0,
      [Access.member 3, Access.mother 1, Access.mother 2, Access.member 1,
        Access.mother 0, Access.member 2]⟩ 0 (mkParticle 2212 []) (by decide) rfl
    (by decide) (by decide)
    ⟨1, by simp, mkParticle 2 [0], [], [], by decide, by decide, by simp⟩
  ⟨h.1 [1, 2] (by decide), h.1 [0] (by decide), by decide, h5.1, h5.2⟩

/-! ## Invariants that know the member being processed -/

/-- The inner loop keeps a property of the locals that its two steps keep for the
mother indices it is run on (those satisfying `Q`). -/
theorem motherLoop_inv_mem (particlesMC : McParticles) (Inv : WalkState → Prop)
    (Q : Int → Prop)
    (hstrange : ∀ (st : WalkState) (i : Int) (row : McParticle), Inv st → Q i →
      i ∉ st.arrayIdsStage →
      particlesMC.rawIteratorAt (i - particlesMC.offset) = some row →
      isStrangePDG row.pdgCode = true →
      Inv { st with trace := st.trace ++ [Access.mother i], strangeness := 1 })
    (hplain : ∀ (st : WalkState) (i : Int) (row : McParticle), Inv st → Q i →
      i ∉ st.arrayIdsStage →
      particlesMC.rawIteratorAt (i - particlesMC.offset) = some row →
      isStrangePDG row.pdgCode = false →
      Inv { st with trace := st.trace ++ [Access.mother i],
                    arrayIdsStage := st.arrayIdsStage ++ [i] }) :
    ∀ (l : List Int) (st st' : WalkState), (∀ i ∈ l, Q i) → Inv st →
      motherLoop particlesMC l st = some st' → Inv st' := by
  intro l
  induction l with
  | nil =>
    intro st st' _ hinv h
    simp only [motherLoop, Option.some.injEq] at h
    exact h ▸ hinv
  | cons i rest ih =>
    intro st st' hl hinv h
    have hrest : ∀ j ∈ rest, Q j := fun j hj => hl j (List.mem_cons_of_mem _ hj)
    have hi : Q i := hl i (List.mem_cons_self _ _)
    unfold motherLoop at h
    by_cases hin : i ∈ st.arrayIdsStage
    · simp only [hin, if_true] at h
      exact ih st st' hrest hinv h
    · simp only [hin, if_false] at h
      cases hrow : particlesMC.rawIteratorAt (i - particlesMC.offset) with
      | none => simp [hrow] at h
      | some row =>
        simp only [hrow] at h
        by_cases hs : isStrangePDG row.pdgCode = true
        · simp only [hs, if_true, Option.some.injEq] at h
          exact h ▸ hstrange st i row hinv hi hin hrow hs
        · have hs' : isStrangePDG row.pdgCode = false := by simpa using hs
          simp only [hs', Bool.false_eq_true, if_false] at h
          exact ih _ st' hrest (hplain st i row hinv hi hin hrow hs') h

/-- The loop over the members of a stage keeps a property of the locals that its
steps keep for the members it is run on (those satisfying `M`) and for the indices
of their mother ranges. -/
theorem memberLoop_inv_mem (particlesMC : McParticles) (Inv : WalkState → Prop)
    (M : Int → Prop)
    (hstrange : ∀ (st : WalkState) (y : Int) (yrow : McParticle) (i : Int) (row : McParticle),
      Inv st → M y → particlesMC.rawIteratorAt (y - particlesMC.offset) = some yrow →
      i ∈ yrow.motherRange → i ∉ st.arrayIdsStage →
      particlesMC.rawIteratorAt (i - particlesMC.offset) = some row →
      isStrangePDG row.pdgCode = true →
      Inv { st with trace := st.trace ++ [Access.mother i], strangeness := 1 })
    (hplain : ∀ (st : WalkState) (y : Int) (yrow : McParticle) (i : Int) (row : McParticle),
      Inv st → M y → particlesMC.rawIteratorAt (y - particlesMC.offset) = some yrow →
      i ∈ yrow.motherRange → i ∉ st.arrayIdsStage →
      particlesMC.rawIteratorAt (i - particlesMC.offset) = some row →
      isStrangePDG row.pdgCode = false →
      Inv { st with trace := st.trace ++ [Access.mother i],
                    arrayIdsStage := st.arrayIdsStage ++ [i] })
    (hmember : ∀ (st : WalkState) (i : Int) (row : McParticle), Inv st →
      particlesMC.rawIteratorAt (i - particlesMC.offset) = some row →
      Inv { st with trace := st.trace ++ [Access.member i] })
    (hpush : ∀ (st : WalkState), Inv st →
      Inv { st with arrayIds := st.arrayIds ++ [st.arrayIdsStage] }) :
    ∀ (l : List Int) (st st' : WalkState), (∀ y ∈ l, M y) → Inv st →
      memberLoop particlesMC l st = some st' → Inv st' := by
  intro l
  induction l with
  | nil =>
    intro st st' _ hinv h
    simp only [memberLoop, Option.some.injEq] at h
    exact h ▸ hinv
  | cons y rest ih =>
    intro st st' hl hinv h
    have hrest : ∀ j ∈ rest, M j := fun j hj => hl j (List.mem_cons_of_mem _ hj)
    have hy : M y := hl y (List.mem_cons_self _ _)
    unfold memberLoop at h
    cases hrow : particlesMC.rawIteratorAt (y - particlesMC.offset) with
    | none => simp [hrow] at h
    | some yrow =>
      simp only [hrow] at h
      have h1 := hmember st y yrow hinv hrow
      by_cases hm : yrow.has_mothers = true
      · simp only [hm, if_true] at h
        cases hml : motherLoop particlesMC yrow.motherRange
            { st with trace := st.trace ++ [Access.member y] } with
        | none => simp [hml] at h
        | some st2 =>
          simp only [hml] at h
          have h2 := motherLoop_inv_mem particlesMC Inv (fun i => i ∈ yrow.motherRange)
            (fun s i row hs hq hin hr hst => hstrange s y yrow i row hs hy hrow hq hin hr hst)
            (fun s i row hs hq hin hr hst => hplain s y yrow i row hs hy hrow hq hin hr hst)
            _ _ st2 (fun i hi => hi) h1 hml
          exact ih _ st' hrest (hpush st2 h2) h
      · simp only [hm, if_false] at h
        exact ih _ st' hrest (hpush _ h1) h

/-! ## Shift of the index space -/

theorem motherRange_shift (row : McParticle) (k : Int) :
    (row.shift k).motherRange = row.motherRange.map (fun i => i + k) := by
  unfold McParticle.motherRange McParticle.shift
  simp only [List.head?_map, List.getLast?_map]
  cases hf : row.mothersIds.head? with
  | none => simp
  | some front =>
    cases hb : row.mothersIds.getLast? with
    | none => simp
    | some back =>
      simp only [Option.map_some', List.map_map]
      have e : back + k - (front + k) + 1 = back - front + 1 := by omega
      rw [e]
      apply List.map_congr_left
      intro j _
      simp only [Function.comp_apply]
      omega

theorem has_mothers_shift (row : McParticle) (k : Int) :
    (row.shift k).has_mothers = row.has_mothers := by
  cases row with
  | mk pdgCode mothersIds pt isPhysicalPrimary globalIndex =>
    cases mothersIds <;> rfl

theorem rawIteratorAt_shift (particlesMC : McParticles) (k i : Int) :
    (particlesMC.shift k).rawIteratorAt (i + k - (particlesMC.shift k).offset)
      = (particlesMC.rawIteratorAt (i - particlesMC.offset)).map (fun row => row.shift k) := by
  have e : i + k - (particlesMC.offset + k) = i - particlesMC.offset := by omega
  simp only [McParticles.rawIteratorAt, McParticles.shift, e]
  split
  · simp [List.get?_eq_getElem?]
  · rfl

theorem motherLoop_shift (particlesMC : McParticles) (k : Int) :
    ∀ (l : List Int) (st : WalkState),
      motherLoop (particlesMC.shift k) (l.map (fun i => i + k)) (st.shift k)
        = (motherLoop particlesMC l st).map (fun s => s.shift k) := by
  intro l
  induction l with
  | nil => intro st; rfl
  | cons i rest ih =>
    intro st
    simp only [List.map_cons]
    unfold motherLoop
    have hmem : (i + k ∈ (st.shift k).arrayIdsStage) ↔ i ∈ st.arrayIdsStage := by
      simp [WalkState.shift]
    by_cases hin : i ∈ st.arrayIdsStage
    · simp only [hin, hmem.mpr hin, if_true]
      exact ih st
    · have hin' : ¬ (i + k ∈ (st.shift k).arrayIdsStage) := fun h => hin (hmem.mp h)
      simp only [hin, hin', if_false]
      rw [rawIteratorAt_shift]
      cases hrow : particlesMC.rawIteratorAt (i - particlesMC.offset) with
      | none => rfl
      | some row =>
        simp only [Option.map_some']
        have hpdg : (row.shift k).pdgCode = row.pdgCode := rfl
        rw [hpdg]
        by_cases hs : isStrangePDG row.pdgCode = true
        · simp [hs, WalkState.shift, Access.shift]
        · simp only [hs, if_false]
          have := ih { st with trace := st.trace ++ [Access.mother i],
                               arrayIdsStage := st.arrayIdsStage ++ [i] }
          simp only [WalkState.shift, List.map_append, List.map_cons, List.map_nil,
            Access.shift] at this ⊢
          exact this

theorem memberLoop_shift (particlesMC : McParticles) (k : Int) :
    ∀ (l : List Int) (st : WalkState),
      memberLoop (particlesMC.shift k) (l.map (fun i => i + k)) (st.shift k)
        = (memberLoop particlesMC l st).map (fun s => s.shift k) := by
  intro l
  induction l with
  | nil => intro st; rfl
  | cons y rest ih =>
    intro st
    simp only [List.map_cons]
    unfold memberLoop
    rw [rawIteratorAt_shift]
    cases hrow : particlesMC.rawIteratorAt (y - particlesMC.offset) with
    | none => rfl
    | some yrow =>
      simp only [Option.map_some', has_mothers_shift, motherRange_shift]
      have hst : ({ st.shift k with trace := (st.shift k).trace ++ [Access.member (y + k)] }
          : WalkState)
          = ({ st with trace := st.trace ++ [Access.member y] } : WalkState).shift k := by
        simp [WalkState.shift, Access.shift]
      rw [hst]
      by_cases hm : yrow.has_mothers = true
      · simp only [hm, if_true]
        rw [motherLoop_shift]
        cases hml : motherLoop particlesMC yrow.motherRange
            { st with trace := st.trace ++ [Access.member y] } with
        | none => rfl
        | some st2 =>
          simp only [Option.map_some']
          have := ih { st2 with arrayIds := st2.arrayIds ++ [st2.arrayIdsStage] }
          simp only [WalkState.shift, List.map_append, List.map_cons, List.map_nil] at this ⊢
          exact this
      · simp only [hm, if_false]
        have := ih { st with trace := st.trace ++ [Access.member y],
                             arrayIds := st.arrayIds ++ [st.arrayIdsStage] }
        simp only [WalkState.shift, List.map_append, List.map_cons, List.map_nil] at this ⊢
        exact this

theorem whileLoop_shift (particlesMC : McParticles) (k : Int) :
    ∀ (todo : Nat) (st : WalkState),
      whileLoop (particlesMC.shift k) todo (st.shift k)
        = (whileLoop particlesMC todo st).map (fun r => r.shift k) := by
  intro todo
  induction todo with
  | zero => intro st; rfl
  | succ todo ih =>
    intro st
    rw [whileLoop_succ, whileLoop_succ]
    have hget : (st.shift k).arrayIds.get? (4 - (todo + 1))
        = (st.arrayIds.get? (4 - (todo + 1))).map (fun L => L.map (fun i => i + k)) := by
      simp [WalkState.shift, List.get?_eq_getElem?]
    rw [hget]
    cases hcur : st.arrayIds.get? (4 - (todo + 1)) with
    | none => rfl
    | some current =>
      simp only [Option.map_some', List.length_map]
      have hs : (st.shift k).strangeness = st.strangeness := rfl
      rw [hs]
      by_cases hc : current.length > 0 ∧ st.strangeness = 0
      · rw [if_pos hc, if_pos hc]
        have hml := memberLoop_shift particlesMC k current { st with arrayIdsStage := [] }
        simp only [WalkState.shift, List.map_nil] at hml ⊢
        rw [hml]
        cases hml : memberLoop particlesMC current { st with arrayIdsStage := [] } with
        | none => rfl
        | some st1 =>
          simp only [Option.map_some']
          exact ih st1
      · rw [if_neg hc, if_neg hc]
        rfl

/-- Claim C21: `isFromStrangeDecay` is invariant under a shift of the index space: for
every table, starting index and integer `k`, adding `k` to the offset (hence to the
global index of every row), to every mother index and to the starting index gives the
same result; the run is the same with `k` added to every stored and looked-up
index. -/
theorem C21_shift_invariant (particlesMC : McParticles) (particle k : Int) :
    isFromStrangeDecay (particlesMC.shift k) (particle + k)
        = isFromStrangeDecay particlesMC particle
      ∧ isFromStrangeDecayRun (particlesMC.shift k) (particle + k)
        = (isFromStrangeDecayRun particlesMC particle).map (fun r => r.shift k) := by
  have hrun : isFromStrangeDecayRun (particlesMC.shift k) (particle + k)
      = (isFromStrangeDecayRun particlesMC particle).map (fun r => r.shift k) :=
    whileLoop_shift particlesMC k 4
      { arrayIds := [[particle]], arrayIdsStage := [], strangeness := 0, trace := [] }
  refine ⟨?_, hrun⟩
  simp only [isFromStrangeDecay, hrun, Option.map_map]
  rfl

/-! ## Soundness of the walk -/

theorem memberLoop_soundAt (particlesMC : McParticles) (particle : Int) (s : Nat)
    (hs : s ≤ 3) (l : List Int) (st st' : WalkState)
    (hl : ∀ y ∈ l, ∃ n, n ≤ s ∧ NonStrangeChain particlesMC particle n y)
    (hinv : SoundAt particlesMC particle s st)
    (h : memberLoop particlesMC l st = some st') :
    SoundAt particlesMC particle s st' := by
  refine memberLoop_inv_mem particlesMC (SoundAt particlesMC particle s)
    (fun y => ∃ n, n ≤ s ∧ NonStrangeChain particlesMC particle n y)
    ?_ ?_ ?_ ?_ l st st' hl hinv h
  · rintro st y yrow i row ⟨h1, h2, h3, _⟩ ⟨n, hn, hch⟩ hy hi _ hrow hstr
    exact ⟨h1, h2, h3, fun _ => ⟨n, y, yrow, i, row, by omega, hch, hy, hi, hrow, hstr⟩⟩
  · rintro st y yrow i row ⟨h1, h2, h3, h4⟩ ⟨n, hn, hch⟩ hy hi _ hrow hstr
    refine ⟨h1, ?_, h3, h4⟩
    intro x hx
    rcases List.mem_append.mp hx with hx | hx
    · exact h2 x hx
    · have hxi : x = i := by simpa using hx
      subst hxi
      exact ⟨n + 1, by omega, y, yrow, row, hch, hy, hi, hrow, hstr⟩
  · rintro st i row ⟨h1, h2, h3, h4⟩ _
    exact ⟨h1, h2, h3, h4⟩
  · rintro st ⟨h1, h2, h3, h4⟩
    refine ⟨?_, h2, ?_, h4⟩
    · intro j L hj x hx
      by_cases hlt : j < st.arrayIds.length
      · have hj' : st.arrayIds.get? j = some L := by
          simpa [List.get?_eq_getElem?, List.getElem?_append_left hlt] using hj
        exact h1 j L hj' x hx
      · have hge : st.arrayIds.length ≤ j := by omega
        have hj' : st.arrayIds ++ [st.arrayIdsStage] = st.arrayIds ++ [st.arrayIdsStage] := rfl
        have hL : L = st.arrayIdsStage := by
          have hj2 : (st.arrayIds ++ [st.arrayIdsStage])[j]? = some L := by
            simpa [List.get?_eq_getElem?] using hj
          rw [List.getElem?_append_right hge] at hj2
          cases hk : j - st.arrayIds.length with
          | zero => rw [hk] at hj2; simpa using hj2.symm
          | succ k => rw [hk] at hj2; simp at hj2
        subst hL
        obtain ⟨n, hn, hch⟩ := h2 x hx
        exact ⟨n, by omega, hch⟩
    · simp only [List.length_append, List.length_singleton]
      omega

theorem whileLoop_sound (particlesMC : McParticles) (particle : Int) :
    ∀ (todo : Nat) (st : WalkState) (r : WalkResult), todo ≤ 4 →
      (∀ j L, st.arrayIds.get? j = some L →
        ∀ x ∈ L, ∃ n, n ≤ j ∧ NonStrangeChain particlesMC particle n x) →
      (st.strangeness ≠ 0 → StrangeAncestorWithin particlesMC particle 4) →
      whileLoop particlesMC todo st = some r →
      r.strangeness ≠ 0 → StrangeAncestorWithin particlesMC particle 4 := by
  intro todo
  induction todo with
  | zero =>
    intro st r _ _ hfl h hr
    simp only [whileLoop, Option.some.injEq] at h
    subst h
    exact hfl hr
  | succ todo ih =>
    intro st r htodo hids hfl h hr
    rw [whileLoop_succ] at h
    cases hcur : st.arrayIds.get? (4 - (todo + 1)) with
    | none => rw [hcur] at h; cases h
    | some current =>
      rw [hcur] at h
      simp only at h
      by_cases hc : current.length > 0 ∧ st.strangeness = 0
      · rw [if_pos hc] at h
        cases hml : memberLoop particlesMC current { st with arrayIdsStage := [] } with
        | none => simp [hml] at h
        | some st1 =>
          simp only [hml] at h
          have hlen : 4 - (todo + 1) < st.arrayIds.length := by
            rw [List.get?_eq_getElem?] at hcur
            exact (List.getElem?_eq_some_iff.mp hcur).1
          have hst : SoundAt particlesMC particle (4 - (todo + 1))
              { st with arrayIdsStage := [] } :=
            ⟨hids, by intro x hx; simp at hx, by
              show 4 - (todo + 1) + 1 ≤ st.arrayIds.length
              omega, hfl⟩
          obtain ⟨h1, _, _, h4⟩ := memberLoop_soundAt particlesMC particle (4 - (todo + 1))
            (by omega) current _ st1 (fun y hy => hids _ current hcur y hy) hst hml
          exact ih st1 r (by omega) h1 h4 h hr
      · rw [if_neg hc] at h
        simp only [Option.some.injEq] at h
        subst h
        exact hfl hr

/-- Claim C22: when `isFromStrangeDecay` returns 1 (or any nonzero value) for
`particle`, there is a chain of `n + 1` mother links with `n ≤ 3`, that is of 1 to 4
links, from `particle` to a row with a strange species code: `y` is reached from
`particle` by `n` mother links through rows with non-strange codes, and the strange row
`s` is in the mother range of `y`. -/
theorem C22_walk_sound (particlesMC : McParticles) (particle : Int) (v : Int)
    (h : isFromStrangeDecay particlesMC particle = some v) (hv : v ≠ 0) :
    ∃ n y yrow s srow, n ≤ 3 ∧ NonStrangeChain particlesMC particle n y
      ∧ particlesMC.rawIteratorAt (y - particlesMC.offset) = some yrow
      ∧ s ∈ yrow.motherRange
      ∧ particlesMC.rawIteratorAt (s - particlesMC.offset) = some srow
      ∧ isStrangePDG srow.pdgCode = true := by
  unfold isFromStrangeDecay at h
  cases hrun : isFromStrangeDecayRun particlesMC particle with
  | none => simp [hrun] at h
  | some r =>
    simp only [hrun, Option.map_some', Option.some.injEq] at h
    have hne : r.strangeness ≠ 0 := by rw [h]; exact hv
    have hinit : ∀ j L, ([[particle]] : List (List Int)).get? j = some L →
        ∀ x ∈ L, ∃ n, n ≤ j ∧ NonStrangeChain particlesMC particle n x := by
      intro j L hj x hx
      cases j with
      | zero =>
        simp only [List.get?, Option.some.injEq] at hj
        subst hj
        have hxp : x = particle := by simpa using hx
        exact ⟨0, le_refl _, hxp⟩
      | succ j => simp at hj
    obtain ⟨n, y, yrow, s, srow, hn, rest⟩ := whileLoop_sound particlesMC particle 4
      { arrayIds := [[particle]], arrayIdsStage := [], strangeness := 0, trace := [] } r
      (le_refl _) hinit (fun h0 => absurd rfl h0) hrun hne
    exact ⟨n, y, yrow, s, srow, by omega, rest⟩

/-- Witness of C22: the walk from index 14 of `chainEvent` returns 1; the Lambda at
index 10 is four mother links above, behind the non-strange rows 13, 12 and 11. -/
theorem C22_walk_sound_witness :
    isFromStrangeDecay chainEvent 14 = some 1
      ∧ ∃ n y yrow s srow, n ≤ 3 ∧ NonStrangeChain chainEvent 14 n y
        ∧ chainEvent.rawIteratorAt (y - chainEvent.offset) = some yrow
        ∧ s ∈ yrow.motherRange
        ∧ chainEvent.rawIteratorAt (s - chainEvent.offset) = some srow
        ∧ isStrangePDG srow.pdgCode = true :=
  ⟨by decide, C22_walk_sound chainEvent 14 1 (by decide) (by decide)⟩

/-! ## Single-mother chains -/

theorem has_mothers_of_motherRange (row : McParticle) (m : Int) (l : List Int)
    (h : row.motherRange = m :: l) : row.has_mothers = true := by
  cases row with
  | mk pdgCode mothersIds mcCollisionId isPhysicalPrimary pt =>
    cases mothersIds with
    | nil => simp [McParticle.motherRange] at h
    | cons a rest => rfl

theorem get?_append_length {α : Type} (l : List α) (a : α) :
    (l ++ [a]).get? l.length = some a := by
  rw [List.get?_eq_getElem?]
  simp

/-- The `while` loop that meets a failing condition returns the flag as it is. -/
theorem whileLoop_exit (particlesMC : McParticles) (todo : Nat) (st : WalkState)
    (current : List Int) (hcur : st.arrayIds.get? (4 - todo) = some current)
    (hc : ¬ (current.length > 0 ∧ st.strangeness = 0)) :
    ∃ r, whileLoop particlesMC todo st = some r ∧ r.strangeness = st.strangeness := by
  cases todo with
  | zero => exact ⟨_, rfl, rfl⟩
  | succ todo =>
    rw [whileLoop_succ, hcur]
    simp only
    rw [if_neg hc]
    exact ⟨_, rfl, rfl⟩

theorem whileLoop_singleMotherChain (particlesMC : McParticles) :
    ∀ (todo : Nat) (x : Int) (pre : List (List Int)) (stg : List Int) (tr : List Access),
      todo ≤ 4 → pre.length = 4 - todo →
      singleMotherChain particlesMC todo x = true →
      ∃ r, whileLoop particlesMC todo ⟨pre ++ [[x]], stg, 0, tr⟩ = some r
        ∧ r.strangeness
          = if (ancestorsUpTo particlesMC todo x).any (specIsStrange particlesMC) then 1 else 0 := by
  intro todo
  induction todo with
  | zero =>
    intro x pre stg tr _ _ _
    exact ⟨_, rfl, rfl⟩
  | succ todo ih =>
    intro x pre stg tr htodo hpre hchain
    have hget : (pre ++ [[x]]).get? (4 - (todo + 1)) = some [x] := by
      rw [← hpre, List.get?_eq_getElem?]
      simp
    have hcond : ([x] : List Int).length > 0 ∧ True := ⟨by simp, trivial⟩
    rw [whileLoop_succ, hget]
    simp only []
    rw [if_pos hcond]
    unfold singleMotherChain at hchain
    cases hrow : particlesMC.rawIteratorAt (x - particlesMC.offset) with
    | none => simp [hrow] at hchain
    | some row =>
      simp only [hrow] at hchain
      have hsm : specMothers particlesMC x = row.motherRange := by
        simp [specMothers, hrow]
      cases hrange : row.motherRange with
      | nil =>
        have hanc : ancestorsUpTo particlesMC (todo + 1) x = [] := by
          simp [ancestorsUpTo, hsm, hrange]
        have hml : memberLoop particlesMC [x] ⟨pre ++ [[x]], [], 0, tr⟩
            = some ⟨pre ++ [[x]] ++ [[]], [], 0, tr ++ [Access.member x]⟩ := by
          cases hh : row.has_mothers <;> simp [memberLoop, hrow, hrange, motherLoop, hh]
        simp only [hml, hanc]
        have hex := whileLoop_exit particlesMC todo
          ⟨pre ++ [[x]] ++ [[]], [], 0, tr ++ [Access.member x]⟩ []
          (by
            have e : 4 - todo = (pre ++ [[x]]).length := by
              simp only [List.length_append, List.length_singleton, hpre]; omega
            rw [e]
            exact get?_append_length (pre ++ [[x]]) [])
          (by simp)
        obtain ⟨r, hr, hs⟩ := hex
        exact ⟨r, hr, by simpa using hs⟩
      | cons m rest =>
        rw [hrange] at hchain
        cases rest with
        | cons m2 rest2 => simp at hchain
        | nil =>
          simp only at hchain
          have hhas := has_mothers_of_motherRange row m [] hrange
          have hmrow : ∃ mrow, particlesMC.rawIteratorAt (m - particlesMC.offset) = some mrow := by
            cases todo with
            | zero =>
              simp only [singleMotherChain] at hchain
              exact Option.isSome_iff_exists.mp hchain
            | succ t =>
              unfold singleMotherChain at hchain
              cases hm : particlesMC.rawIteratorAt (m - particlesMC.offset) with
              | none => simp [hm] at hchain
              | some mrow => exact ⟨mrow, rfl⟩
          obtain ⟨mrow, hmrow⟩ := hmrow
          have hanc : ancestorsUpTo particlesMC (todo + 1) x
              = m :: ancestorsUpTo particlesMC todo m := by
            simp [ancestorsUpTo, hsm, hrange]
          have hstr : specIsStrange particlesMC m = isStrangePDG mrow.pdgCode := by
            simp [specIsStrange, hmrow]
          by_cases hs : isStrangePDG mrow.pdgCode = true
          · have hml : memberLoop particlesMC [x] ⟨pre ++ [[x]], [], 0, tr⟩
                = some ⟨pre ++ [[x]] ++ [[]], [], 1,
                    tr ++ [Access.member x] ++ [Access.mother m]⟩ := by
              simp [memberLoop, hrow, hrange, motherLoop, hhas, hmrow, hs]
            simp only [hml, hanc, List.any_cons, hstr, hs, Bool.true_or, if_true]
            have hex := whileLoop_exit particlesMC todo
              ⟨pre ++ [[x]] ++ [[]], [], 1, tr ++ [Access.member x] ++ [Access.mother m]⟩ []
              (by
                have e : 4 - todo = (pre ++ [[x]]).length := by
                  simp only [List.length_append, List.length_singleton, hpre]; omega
                rw [e]
                exact get?_append_length (pre ++ [[x]]) [])
              (by simp)
            obtain ⟨r, hr, hsr⟩ := hex
            exact ⟨r, hr, by simpa using hsr⟩
          · have hs' : isStrangePDG mrow.pdgCode = false := by simpa using hs
            have hml : memberLoop particlesMC [x] ⟨pre ++ [[x]], [], 0, tr⟩
                = some ⟨pre ++ [[x]] ++ [[m]], [m], 0,
                    tr ++ [Access.member x] ++ [Access.mother m]⟩ := by
              simp [memberLoop, hrow, hrange, motherLoop, hhas, hmrow, hs']
            simp only [hml, hanc, List.any_cons, hstr, hs', Bool.false_or]
            exact ih m (pre ++ [[x]]) [m] _ (by omega)
              (by simp only [List.length_append, List.length_singleton, hpre]; omega) hchain

/-- Claim C23: on a table in which `particle` and its ancestors of generations 1, 2
and 3 are rows with at most one index in their mother range, and the ancestor of
generation 4 (if the chain reaches it) is a row, `isFromStrangeDecay` returns, and
returns 1 if one of the first four ancestors of `particle` has a strange species code
and 0 otherwise. -/
theorem C23_single_mother_chain_complete (particlesMC : McParticles) (particle : Int)
    (h : singleMotherChain particlesMC 4 particle = true) :
    isFromStrangeDecay particlesMC particle
      = some (if (ancestorsUpTo particlesMC 4 particle).any (specIsStrange particlesMC)
          then 1 else 0) := by
  obtain ⟨r, hr, hs⟩ := whileLoop_singleMotherChain particlesMC 4 particle [] [] []
    (le_refl _) rfl h
  have hrun : isFromStrangeDecayRun particlesMC particle = some r := hr
  simp only [isFromStrangeDecay, hrun, Option.map_some', hs]

/-- Witness of C23: from index 14 of `chainEvent` the first four ancestors are 13, 12,
11 and the Lambda at 10: the walk returns 1, the test of index 10 being its last
lookup, made at stage 3 from the list `[11]`. -/
theorem C23_single_mother_chain_complete_witness :
    singleMotherChain chainEvent 4 14 = true
      ∧ ancestorsUpTo chainEvent 4 14 = [13, 12, 11, 10]
      ∧ [13, 12, 11].any (specIsStrange chainEvent) = false
      ∧ specIsStrange chainEvent 10 = true
      ∧ isFromStrangeDecay chainEvent 14
        = some (if (ancestorsUpTo chainEvent 4 14).any (specIsStrange chainEvent) then 1 else 0)
      ∧ isFromStrangeDecay chainEvent 14 = some 1
      ∧ (isFromStrangeDecayRun chainEvent 14).map (fun r => r.trace.getLast?)
        = some (some (Access.mother 10))
      ∧ (isFromStrangeDecayRun chainEvent 14).map (fun r => r.arrayIds)
        = some [[14], [13], [12], [11], []] :=
  ⟨by decide, by decide, by decide, by decide,
    C23_single_mother_chain_complete chainEvent 14 (by decide), by decide, by decide, by decide⟩

/-! ## The accesses to `arrayIds` -/

/-- Claim C24: each time the condition of the `while` loop is evaluated, `arrayIds` has
at least `stage + 1` elements, so `arrayIds[stage]` is inside `arrayIds`, for every
table and starting particle: the initial `arrayIds` has one element for `stage = 0`,
and an iteration, entered only for a non-empty stage list, appends one list per
member of that list. The run of the function is the `while` loop resumed from any of
these states. -/
theorem C24_arrayIds_stage_in_bounds (particlesMC : McParticles) (particle : Int)
    (todo : Nat) (st : WalkState) (h : AtLoopHead particlesMC particle todo st) :
    todo ≤ 4 ∧ (4 - todo) + 1 ≤ st.arrayIds.length
      ∧ (∃ current, st.arrayIds.get? (4 - todo) = some current)
      ∧ isFromStrangeDecayRun particlesMC particle = whileLoop particlesMC todo st := by
  have key : todo ≤ 4 ∧ (4 - todo) + 1 ≤ st.arrayIds.length
      ∧ isFromStrangeDecayRun particlesMC particle = whileLoop particlesMC todo st := by
    induction h with
    | start => exact ⟨Nat.le_refl 4, by simp, rfl⟩
    | next todo st current st1 _ hcur hc hml ih =>
      obtain ⟨h4, hlen, hrun⟩ := ih
      have hl := memberLoop_length particlesMC current _ st1 hml
      simp only at hl
      refine ⟨by omega, by omega, ?_⟩
      rw [hrun, whileLoop_succ, hcur]
      simp only []
      rw [if_pos hc, hml]
  obtain ⟨h4, hlen, hrun⟩ := key
  exact ⟨h4, hlen, ⟨_, List.get?_eq_get (by omega)⟩, hrun⟩

/-- Witness of C24: the state of the walk from index 4 of `multiMotherEvent` after the
first iteration, where `arrayIds` has two elements for `stage = 1`. -/
theorem C24_arrayIds_stage_in_bounds_witness :
    3 ≤ 4 ∧ (4 - 3) + 1 ≤ ([[4], [2, 3]] : List (List Int)).length
      ∧ (∃ current, ([[4], [2, 3]] : List (List Int)).get? (4 - 3) = some current)
      ∧ isFromStrangeDecayRun multiMotherEvent 4
        = whileLoop multiMotherEvent 3
            ⟨[[4], [2, 3]], [2, 3], 0, [Access.member 4, Access.mother 2, Access.mother 3]⟩ :=
  C24_arrayIds_stage_in_bounds multiMotherEvent 4 3
    ⟨[[4], [2, 3]], [2, 3], 0, [Access.member 4, Access.mother 2, Access.mother 3]⟩
    (AtLoopHead.next 3 ⟨[[4]], [], 0, []⟩ [4] _ AtLoopHead.start (by decide) (by decide)
      (by decide))

/-! ## Claims on the four loops, the partitions and the values of the tag -/

/-- Claim C25: the four pairing loops compute the truth tag by the same function: for
every mode, binding, collision, incoming state and pair, the value of `issamemcpt`
left by the bodies of the PP, NN, NP and PN loops is the same, and so is the row each
writes; the bodies differ in the table they write to and in the line that the first
one alone can print. -/
theorem C25_four_loops_same_tag (IS_MC : Bool) (mcParticle : McBinding) (collision : Collision)
    (st : PairState) (pair : Track × Track) :
    (∀ (pTPC pITS nTPC nITS : List Track) (c c' : PairType) (k k' : Nat),
        (combinationsFullIndex (subsetITS pITS nITS c) (subsetTPC pTPC nTPC c))[k]? = some pair →
        (combinationsFullIndex (subsetITS pITS nITS c') (subsetTPC pTPC nTPC c'))[k']?
          = some pair →
        ((processPair IS_MC mcParticle collision pTPC pITS nTPC nITS).table c)[k]?
          = ((processPair IS_MC mcParticle collision pTPC pITS nTPC nITS).table c')[k']?)
      ∧ (loopBodyPP IS_MC mcParticle collision st pair).issamemcpt
        = (loopBodyNN IS_MC mcParticle collision st pair).issamemcpt
      ∧ (loopBodyNN IS_MC mcParticle collision st pair).issamemcpt
        = (loopBodyNP IS_MC mcParticle collision st pair).issamemcpt
      ∧ (loopBodyNP IS_MC mcParticle collision st pair).issamemcpt
        = (loopBodyPN IS_MC mcParticle collision st pair).issamemcpt
      ∧ (loopBodyPP IS_MC mcParticle collision st pair).trackPairForEffTablePP
        = st.trackPairForEffTablePP ++
            [pairRecord pair.1 pair.2 (loopBodyPP IS_MC mcParticle collision st pair).issamemcpt]
      ∧ (loopBodyNN IS_MC mcParticle collision st pair).trackPairForEffTableNN
        = st.trackPairForEffTableNN ++
            [pairRecord pair.1 pair.2 (loopBodyPP IS_MC mcParticle collision st pair).issamemcpt]
      ∧ (loopBodyNP IS_MC mcParticle collision st pair).trackPairForEffTableNP
        = st.trackPairForEffTableNP ++
            [pairRecord pair.1 pair.2 (loopBodyPP IS_MC mcParticle collision st pair).issamemcpt]
      ∧ (loopBodyPN IS_MC mcParticle collision st pair).trackPairForEffTablePN
        = st.trackPairForEffTablePN ++
            [pairRecord pair.1 pair.2 (loopBodyPP IS_MC mcParticle collision st pair).issamemcpt]
      ∧ (loopBodyNN IS_MC mcParticle collision st pair).printed = st.printed
      ∧ (loopBodyNP IS_MC mcParticle collision st pair).printed = st.printed
      ∧ (loopBodyPN IS_MC mcParticle collision st pair).printed = st.printed
      ∧ ((loopBodyPP IS_MC mcParticle collision st pair).printed = st.printed
        ∨ (loopBodyPP IS_MC mcParticle collision st pair).printed
          = st.printed ++ ["track MC matched but not has_mcParticle"]) := by
  rw [loopBodyPP_issamemcpt, loopBodyNN_issamemcpt, loopBodyNP_issamemcpt, loopBodyPN_issamemcpt]
  refine ⟨?_, rfl, rfl, rfl, (loopBodyPP_tables IS_MC mcParticle collision st pair).1,
    (loopBodyNN_tables IS_MC mcParticle collision st pair).1,
    (loopBodyNP_tables IS_MC mcParticle collision st pair).1,
    (loopBodyPN_tables IS_MC mcParticle collision st pair).1, ?_, ?_, ?_, ?_⟩
  · intro pTPC pITS nTPC nITS c c' k k' h h'
    rw [processPair_table, processPair_table, List.getElem?_map, List.getElem?_map, h, h']
  · unfold loopBodyNN
    simp only []
    split <;> (try split) <;> (try split) <;> (try split) <;> rfl
  · unfold loopBodyNP
    simp only []
    split <;> (try split) <;> (try split) <;> (try split) <;> rfl
  · unfold loopBodyPN
    simp only []
    split <;> (try split) <;> (try split) <;> (try split) <;> rfl
  · unfold loopBodyPP
    simp only []
    split <;> (try split) <;> (try split) <;> (try split) <;> simp


/-- Witness of C25: the pair of a negative ITS-only track with a positive TPC-only
track gets in table NP the row that the same two tracks get in table PP. -/
theorem C25_four_loops_same_tag_witness :
    ((processPair true bindPrimary collision0 [trackTPC] [trackITS] [] [trackITS]).table
        PairType.PP)[0]?
      = ((processPair true bindPrimary collision0 [trackTPC] [trackITS] [] [trackITS]).table
        PairType.NP)[0]? :=
  (C25_four_loops_same_tag true bindPrimary collision0 ⟨-9999, [], [], [], [], []⟩
    (trackITS, trackTPC)).1 [trackTPC] [trackITS] [] [trackITS] PairType.PP PairType.NP 0 0
    rfl rfl

/-- Claim C26: the four partition predicates are pairwise disjoint, for the data
table and for the simulation table: the sign of `signed1Pt` separates positive from
negative and the sign of the ITS chi-square separates TPC-only (negative) from
ITS-only (positive). A track with `signed1Pt = 0` or an ITS chi-square of 0 is in no
subset, and when the four subsets handed to `processPair` are made of tracks of their
partitions, no pair of any combination has the same track twice. -/
theorem C26_partitions_disjoint (t : Track) :
    ¬ (positiveTPConlyTracks t = true ∧ negativeTPConlyTracks t = true)
      ∧ ¬ (positiveTPConlyTracks t = true ∧ positiveITSonlyTracks t = true)
      ∧ ¬ (positiveTPConlyTracks t = true ∧ negativeITSonlyTracks t = true)
      ∧ ¬ (negativeTPConlyTracks t = true ∧ positiveITSonlyTracks t = true)
      ∧ ¬ (negativeTPConlyTracks t = true ∧ negativeITSonlyTracks t = true)
      ∧ ¬ (positiveITSonlyTracks t = true ∧ negativeITSonlyTracks t = true)
      ∧ ¬ (positiveTPConlyTracksMC t = true ∧ negativeTPConlyTracksMC t = true)
      ∧ ¬ (positiveTPConlyTracksMC t = true ∧ positiveITSonlyTracksMC t = true)
      ∧ ¬ (positiveTPConlyTracksMC t = true ∧ negativeITSonlyTracksMC t = true)
      ∧ ¬ (negativeTPConlyTracksMC t = true ∧ positiveITSonlyTracksMC t = true)
      ∧ ¬ (negativeTPConlyTracksMC t = true ∧ negativeITSonlyTracksMC t = true)
      ∧ ¬ (positiveITSonlyTracksMC t = true ∧ negativeITSonlyTracksMC t = true)
      ∧ (t.signed1Pt = 0 ∨ t.itsChi2NCl = 0 →
          positiveTPConlyTracks t = false ∧ negativeTPConlyTracks t = false
            ∧ positiveITSonlyTracks t = false ∧ negativeITSonlyTracks t = false)
      ∧ (∀ (pTPC pITS nTPC nITS : List Track),
          (∀ x ∈ pTPC, positiveTPConlyTracks x = true) →
          (∀ x ∈ pITS, positiveITSonlyTracks x = true) →
          (∀ x ∈ nTPC, negativeTPConlyTracks x = true) →
          (∀ x ∈ nITS, negativeITSonlyTracks x = true) →
          ∀ (c : PairType) (a b : Track),
            (a, b) ∈ combinationsFullIndex (subsetITS pITS nITS c) (subsetTPC pTPC nTPC c) →
            a ≠ b) := by
  have pTPC : ∀ x : Track, positiveTPConlyTracks x = true ↔
      0 < x.signed1Pt ∧ 0 < x.tpcNClsFindable ∧ x.itsChi2NCl < 0 := by
    intro x; simp [positiveTPConlyTracks, fzero, and_assoc]
  have nTPC : ∀ x : Track, negativeTPConlyTracks x = true ↔
      x.signed1Pt < 0 ∧ 0 < x.tpcNClsFindable ∧ x.itsChi2NCl < 0 := by
    intro x; simp [negativeTPConlyTracks, fzero, and_assoc]
  have pITS : ∀ x : Track, positiveITSonlyTracks x = true ↔
      0 < x.signed1Pt ∧ x.tpcChi2NCl < 0 ∧ 0 < x.itsChi2NCl := by
    intro x; simp [positiveITSonlyTracks, fzero, and_assoc]
  have nITS : ∀ x : Track, negativeITSonlyTracks x = true ↔
      x.signed1Pt < 0 ∧ x.tpcChi2NCl < 0 ∧ 0 < x.itsChi2NCl := by
    intro x; simp [negativeITSonlyTracks, fzero, and_assoc]
  have e1 : positiveTPConlyTracksMC t = positiveTPConlyTracks t := rfl
  have e2 : negativeTPConlyTracksMC t = negativeTPConlyTracks t := rfl
  have e3 : positiveITSonlyTracksMC t = positiveITSonlyTracks t := rfl
  have e4 : negativeITSonlyTracksMC t = negativeITSonlyTracks t := rfl
  rw [e1, e2, e3, e4]
  have d1 : ¬ (positiveTPConlyTracks t = true ∧ negativeTPConlyTracks t = true) := by
    rw [pTPC, nTPC]; rintro ⟨⟨h1, _, _⟩, ⟨h2, _, _⟩⟩; exact lt_asymm h1 h2
  have d2 : ¬ (positiveTPConlyTracks t = true ∧ positiveITSonlyTracks t = true) := by
    rw [pTPC, pITS]; rintro ⟨⟨_, _, h1⟩, ⟨_, _, h2⟩⟩; exact lt_asymm h1 h2
  have d3 : ¬ (positiveTPConlyTracks t = true ∧ negativeITSonlyTracks t = true) := by
    rw [pTPC, nITS]; rintro ⟨⟨_, _, h1⟩, ⟨_, _, h2⟩⟩; exact lt_asymm h1 h2
  have d4 : ¬ (negativeTPConlyTracks t = true ∧ positiveITSonlyTracks t = true) := by
    rw [nTPC, pITS]; rintro ⟨⟨_, _, h1⟩, ⟨_, _, h2⟩⟩; exact lt_asymm h1 h2
  have d5 : ¬ (negativeTPConlyTracks t = true ∧ negativeITSonlyTracks t = true) := by
    rw [nTPC, nITS]; rintro ⟨⟨_, _, h1⟩, ⟨_, _, h2⟩⟩; exact lt_asymm h1 h2
  have d6 : ¬ (positiveITSonlyTracks t = true ∧ negativeITSonlyTracks t = true) := by
    rw [pITS, nITS]; rintro ⟨⟨h1, _, _⟩, ⟨h2, _, _⟩⟩; exact lt_asymm h1 h2
  refine ⟨d1, d2, d3, d4, d5, d6, d1, d2, d3, d4, d5, d6, ?_, ?_⟩
  · intro h0
    simp only [Bool.eq_false_iff, ne_eq, pTPC, nTPC, pITS, nITS]
    rcases h0 with h0 | h0
    · rw [h0]
      exact ⟨fun h => lt_irrefl _ h.1, fun h => lt_irrefl _ h.1, fun h => lt_irrefl _ h.1,
        fun h => lt_irrefl _ h.1⟩
    · rw [h0]
      exact ⟨fun h => lt_irrefl _ h.2.2, fun h => lt_irrefl _ h.2.2,
        fun h => lt_irrefl _ h.2.2, fun h => lt_irrefl _ h.2.2⟩
  · intro ppTPC ppITS pnTPC pnITS hpT hpI hnT hnI c a b hab e
    have hm := (mem_combinationsFullIndex _ _ a b).mp hab
    subst e
    have hI : 0 < a.itsChi2NCl := by
      cases c
      · exact ((pITS a).mp (hpI a hm.1)).2.2
      · exact ((nITS a).mp (hnI a hm.1)).2.2
      · exact ((nITS a).mp (hnI a hm.1)).2.2
      · exact ((pITS a).mp (hpI a hm.1)).2.2
    have hT : a.itsChi2NCl < 0 := by
      cases c
      · exact ((pTPC a).mp (hpT a hm.2)).2.2
      · exact ((nTPC a).mp (hnT a hm.2)).2.2
      · exact ((pTPC a).mp (hpT a hm.2)).2.2
      · exact ((nTPC a).mp (hnT a hm.2)).2.2
    exact lt_asymm hI hT

/-- Witness of C26: a track with `signed1Pt = 0`, findable TPC clusters and a negative
ITS chi-square is in none of the four subsets. -/
theorem C26_partitions_disjoint_witness :
    positiveTPConlyTracks trackNoCharge = false ∧ negativeTPConlyTracks trackNoCharge = false
      ∧ positiveITSonlyTracks trackNoCharge = false
      ∧ negativeITSonlyTracks trackNoCharge = false :=
  (C26_partitions_disjoint trackNoCharge).2.2.2.2.2.2.2.2.2.2.2.2.1 (Or.inl rfl)

/-- Claim C27: in simulation mode, for the `k`-th pair `(trackA, trackB)` of any
combination, when the particle bound to `trackA`'s label (if any) has `pt > 0` and
`pt ≠ 9999`, the tag of the row tells the three cases apart: it is positive exactly
for a verified primary match, negative and different from -9999 exactly when the
tracks share a resolved particle that fails verification, and -9999 exactly when they
share no resolved particle. Without that condition the cases overlap: a shared
non-verified particle of `pt = 9999` gives the tag -9999, and a shared particle of
`pt = 0` gives the tag 0 whether it is verified or not. -/
theorem C27_tag_identifies_its_case (mcParticle : McBinding) (collision : Collision)
    (pTPC pITS nTPC nITS : List Track) (c : PairType) (k : Nat) (trackA trackB : Track)
    (hpair : (combinationsFullIndex (subsetITS pITS nITS c) (subsetTPC pTPC nTPC c))[k]?
      = some (trackA, trackB)) :
    ∃ r : PairRecord,
      ((processPair true mcParticle collision pTPC pITS nTPC nITS).table c)[k]? = some r
      ∧ ((∀ p, mcParticle trackA.mcParticleId = some p → 0 < p.pt ∧ p.pt ≠ 9999) →
          (0 < r.mcPtIfisSamePart ↔
              ∃ p, trackA.mcParticleId = trackB.mcParticleId
                ∧ mcParticle trackA.mcParticleId = some p ∧ verifiedPrimary collision p = true)
            ∧ (r.mcPtIfisSamePart < 0 ∧ r.mcPtIfisSamePart ≠ -9999 ↔
              ∃ p, trackA.mcParticleId = trackB.mcParticleId
                ∧ mcParticle trackA.mcParticleId = some p
                ∧ verifiedPrimary collision p = false)
            ∧ (r.mcPtIfisSamePart = -9999 ↔
              ¬ ∃ p, trackA.mcParticleId = trackB.mcParticleId
                ∧ mcParticle trackA.mcParticleId = some p))
      ∧ (∀ p, trackA.mcParticleId = trackB.mcParticleId →
          mcParticle trackA.mcParticleId = some p → verifiedPrimary collision p = false →
          p.pt = 9999 → r.mcPtIfisSamePart = -9999)
      ∧ (∀ p, trackA.mcParticleId = trackB.mcParticleId →
          mcParticle trackA.mcParticleId = some p → p.pt = 0 → r.mcPtIfisSamePart = 0) := by
  refine ⟨pairRecord trackA trackB (truthTag true mcParticle collision trackA trackB), ?_, ?_,
    ?_, ?_⟩
  · rw [processPair_table, List.getElem?_map, hpair]
    rfl
  · intro hpt
    simp only [pairRecord]
    by_cases hid : trackA.mcParticleId = trackB.mcParticleId
    · cases hp : mcParticle trackA.mcParticleId with
      | none => simp [truthTag, hid.symm, hp]
      | some p =>
        obtain ⟨hpos, hne⟩ := hpt p hp
        by_cases hv : verifiedPrimary collision p = true
        · have ht : truthTag true mcParticle collision trackA trackB = p.pt := by
            simp [truthTag, hid.symm, hp, hv]
          rw [ht]
          refine ⟨⟨fun _ => ⟨p, hid, rfl, hv⟩, fun _ => hpos⟩, ?_, ?_⟩
          · constructor
            · intro h; exact absurd hpos (not_lt.mpr (le_of_lt h.1))
            · rintro ⟨q, _, hq, hqv⟩
              cases hq
              rw [hv] at hqv
              cases hqv
          · constructor
            · intro h; rw [h] at hpos; norm_num at hpos
            · intro h; exact absurd ⟨p, hid, rfl⟩ h
        · have hv' : verifiedPrimary collision p = false := by simpa using hv
          have ht : truthTag true mcParticle collision trackA trackB = -p.pt := by
            simp [truthTag, hid.symm, hp, hv']
          rw [ht]
          refine ⟨?_, ?_, ?_⟩
          · constructor
            · intro h; linarith
            · rintro ⟨q, _, hq, hqv⟩
              cases hq
              exact absurd hqv hv
          · constructor
            · intro _; exact ⟨p, hid, rfl, hv'⟩
            · intro _
              refine ⟨by linarith, ?_⟩
              intro h
              exact hne (by linarith)
          · constructor
            · intro h; exact absurd (by linarith : p.pt = 9999) hne
            · intro h; exact absurd ⟨p, hid, rfl⟩ h
    · have ht : truthTag true mcParticle collision trackA trackB = -9999 := by
        simp [truthTag, hid]
      rw [ht]
      refine ⟨?_, ?_, ?_⟩
      · constructor
        · intro h; norm_num at h
        · rintro ⟨q, h, _⟩; exact absurd h hid
      · constructor
        · intro h; exact absurd rfl h.2
        · rintro ⟨q, h, _⟩; exact absurd h hid
      · constructor
        · rintro _ ⟨q, h, _⟩; exact hid h
        · intro _; rfl
  · intro p hid hp hv h9
    simp [pairRecord, truthTag, hid.symm, hp, hv, h9]
  · intro p hid hp h0
    by_cases hv : verifiedPrimary collision p = true
    · simp [pairRecord, truthTag, hid.symm, hp, hv, h0]
    · simp [pairRecord, truthTag, hid.symm, hp, hv, h0]


/-- Witness of C27: the pair `(trackITS, trackTPC)` gets a positive tag when label 7
is the primary pion of pt 1.2, and the tag -9999 when label 7 is a non-primary pion
of pt 9999. -/
theorem C27_tag_identifies_its_case_witness :
    (combinationsFullIndex (subsetITS [trackITS] [] PairType.PP)
        (subsetTPC [trackTPC] [] PairType.PP))[0]? = some (trackITS, trackTPC)
      ∧ (∃ r : PairRecord,
          ((processPair true bindPrimary collision0 [trackTPC] [trackITS] [] []).table
              PairType.PP)[0]? = some r
            ∧ 0 < r.mcPtIfisSamePart)
      ∧ (∃ r : PairRecord,
          ((processPair true bindSentinel collision0 [trackTPC] [trackITS] [] []).table
              PairType.PP)[0]? = some r
            ∧ r.mcPtIfisSamePart = -9999) := by
  refine ⟨rfl, ?_, ?_⟩
  · obtain ⟨r, h1, h2, _, _⟩ := C27_tag_identifies_its_case bindPrimary collision0
      [trackTPC] [trackITS] [] [] PairType.PP 0 trackITS trackTPC rfl
    refine ⟨r, h1, ?_⟩
    have hpt : ∀ p, bindPrimary trackITS.mcParticleId = some p → 0 < p.pt ∧ p.pt ≠ 9999 := by
      intro p hp
      have hp' : primaryPion = p := by simpa [bindPrimary, trackITS] using hp
      subst hp'
      constructor <;> norm_num [primaryPion]
    exact (h2 hpt).1.mpr ⟨primaryPion, rfl, rfl, rfl⟩
  · obtain ⟨r, h1, _, h3, _⟩ := C27_tag_identifies_its_case bindSentinel collision0
      [trackTPC] [trackITS] [] [] PairType.PP 0 trackITS trackTPC rfl
    exact ⟨r, h1, h3 sentinelPion rfl rfl rfl rfl⟩

/-! ## The walk without the duplicate check -/

theorem whileLoopNoFind_succ (particlesMC : McParticles) (todo : Nat) (st : WalkState) :
    whileLoopNoFind particlesMC (todo + 1) st
      = match st.arrayIds.get? (4 - (todo + 1)) with
        | none => none
        | some current =>
          if current.length > 0 ∧ st.strangeness = 0 then
            match memberLoopNoFind particlesMC current { st with arrayIdsStage := [] } with
            | none => none
            | some st1 => whileLoopNoFind particlesMC todo st1
          else some ⟨4 - (todo + 1), st.arrayIds, st.strangeness, st.trace⟩ := rfl

/-- On a range without repetition none of whose indices is in `arrayIdsStage`, the
duplicate check never fires: the two inner loops do the same. -/
theorem motherLoop_eq_noFind (particlesMC : McParticles) :
    ∀ (l : List Int) (st : WalkState), l.Nodup → (∀ i ∈ l, i ∉ st.arrayIdsStage) →
      motherLoop particlesMC l st = motherLoopNoFind particlesMC l st := by
  intro l
  induction l with
  | nil => intro st _ _; rfl
  | cons i rest ih =>
    intro st hnd hfresh
    have hi : i ∉ st.arrayIdsStage := hfresh i (List.mem_cons_self _ _)
    unfold motherLoop motherLoopNoFind
    simp only [hi, if_false]
    cases hrow : particlesMC.rawIteratorAt (i - particlesMC.offset) with
    | none => rfl
    | some row =>
      simp only []
      by_cases hs : isStrangePDG row.pdgCode = true
      · simp only [hs, if_true]
      · simp only [hs, if_false]
        apply ih
        · exact (List.nodup_cons.mp hnd).2
        · intro j hj hmem
          rcases List.mem_append.mp hmem with h | h
          · exact hfresh j (List.mem_cons_of_mem _ hj) h
          · have hji : j = i := by simpa using h
            subst hji
            exact (List.nodup_cons.mp hnd).1 hj

theorem motherRange_nodup (row : McParticle) : row.motherRange.Nodup :=
  (motherRange_pairwise row).imp (fun h => ne_of_lt h)

theorem memberLoop_cons_bind (particlesMC : McParticles) (y : Int) (rest : List Int)
    (st : WalkState) :
    memberLoop particlesMC (y :: rest) st
      = (memberLoop particlesMC [y] st).bind (memberLoop particlesMC rest) := by
  simp only [memberLoop]
  cases particlesMC.rawIteratorAt (y - particlesMC.offset) with
  | none => rfl
  | some yrow =>
    simp only []
    generalize (if yrow.has_mothers = true then
      motherLoop particlesMC yrow.motherRange
        { st with trace := st.trace ++ [Access.member y] }
      else some { st with trace := st.trace ++ [Access.member y] }) = o
    cases o <;> rfl

theorem memberLoopNoFind_cons_bind (particlesMC : McParticles) (y : Int) (rest : List Int)
    (st : WalkState) :
    memberLoopNoFind particlesMC (y :: rest) st
      = (memberLoopNoFind particlesMC [y] st).bind (memberLoopNoFind particlesMC rest) := by
  simp only [memberLoopNoFind]
  cases particlesMC.rawIteratorAt (y - particlesMC.offset) with
  | none => rfl
  | some yrow =>
    simp only []
    generalize (if yrow.has_mothers = true then
      motherLoopNoFind particlesMC yrow.motherRange
        { st with trace := st.trace ++ [Access.member y] }
      else some { st with trace := st.trace ++ [Access.member y] }) = o
    cases o <;> rfl

/-- The first member of a stage is processed in the same way by the two walks. -/
theorem memberLoop_single_eq_noFind (particlesMC : McParticles) (y : Int) (st : WalkState)
    (h : st.arrayIdsStage = []) :
    memberLoop particlesMC [y] st = memberLoopNoFind particlesMC [y] st := by
  simp only [memberLoop, memberLoopNoFind]
  cases particlesMC.rawIteratorAt (y - particlesMC.offset) with
  | none => rfl
  | some yrow =>
    simp only []
    rw [motherLoop_eq_noFind particlesMC yrow.motherRange
      { st with trace := st.trace ++ [Access.member y] } (motherRange_nodup yrow)
      (by intro i _; simp [h])]

theorem forall₂_snoc {α β : Type} (R : α → β → Prop) :
    ∀ (l : List α) (l' : List β) (a : α) (b : β), List.Forall₂ R l l' → R a b →
      List.Forall₂ R (l ++ [a]) (l' ++ [b]) := by
  intro l l' a b h hab
  induction h with
  | nil => exact List.Forall₂.cons hab List.Forall₂.nil
  | cons hxy _ ih => exact List.Forall₂.cons hxy ih

theorem forall₂_get? {α β : Type} (R : α → β → Prop) :
    ∀ (l : List α) (l' : List β), List.Forall₂ R l l' → ∀ j,
      OptionRel R (l.get? j) (l'.get? j) := by
  intro l l' h
  induction h with
  | nil => intro j; simp [OptionRel]
  | cons hxy _ ih =>
    intro j
    cases j with
    | zero => simpa [OptionRel] using hxy
    | succ j => simpa using ih j

theorem sameMembers_refl (a : List Int) : SameMembers a a := fun _ => Iff.rfl

theorem forall₂_sameMembers_refl (l : List (List Int)) : List.Forall₂ SameMembers l l :=
  List.forall₂_same.mpr (fun a _ => sameMembers_refl a)

/-- Step by step, the inner loop and its variant without the duplicate check keep
the locals in agreement: an index that the check skips is one that the variant
tests again, finds non-strange and appends a second time. -/
theorem motherLoop_rel (particlesMC : McParticles) :
    ∀ (l : List Int) (st st' : WalkState), WalkRel particlesMC st st' →
      OptionRel (WalkRel particlesMC) (motherLoop particlesMC l st)
        (motherLoopNoFind particlesMC l st') := by
  intro l
  induction l with
  | nil => intro st st' h; simpa [motherLoop, motherLoopNoFind, OptionRel] using h
  | cons i rest ih =>
    intro st st' hrel
    obtain ⟨hstr, hstage, hgood, hids⟩ := hrel
    unfold motherLoop motherLoopNoFind
    by_cases hin : i ∈ st.arrayIdsStage
    · obtain ⟨row, hrow, hns⟩ := hgood i hin
      simp only [hin, if_true, hrow, hns, Bool.false_eq_true, if_false]
      apply ih
      refine ⟨hstr, ?_, hgood, hids⟩
      intro x
      constructor
      · intro hx
        exact List.mem_append_left _ ((hstage x).mp hx)
      · intro hx
        rcases List.mem_append.mp hx with h | h
        · exact (hstage x).mpr h
        · have hxi : x = i := by simpa using h
          subst hxi
          exact hin
    · simp only [hin, if_false]
      cases hrow : particlesMC.rawIteratorAt (i - particlesMC.offset) with
      | none => simp [OptionRel]
      | some row =>
        simp only []
        by_cases hs : isStrangePDG row.pdgCode = true
        · simp only [hs, if_true, OptionRel]
          exact ⟨rfl, hstage, hgood, hids⟩
        · have hs' : isStrangePDG row.pdgCode = false := by simpa using hs
          simp only [hs', Bool.false_eq_true, if_false]
          apply ih
          refine ⟨hstr, ?_, ?_, hids⟩
          · intro x
            simp only [List.mem_append, List.mem_singleton]
            rw [hstage x]
          · intro x hx
            rcases List.mem_append.mp hx with h | h
            · exact hgood x h
            · have hxi : x = i := by simpa using h
              subst hxi
              exact ⟨row, hrow, hs'⟩

/-- Step by step, the loop over the members of a stage and its variant without the
duplicate check, run on the same members, keep the locals in agreement. -/
theorem memberLoop_rel (particlesMC : McParticles) :
    ∀ (l : List Int) (st st' : WalkState), WalkRel particlesMC st st' →
      OptionRel (WalkRel particlesMC) (memberLoop particlesMC l st)
        (memberLoopNoFind particlesMC l st') := by
  intro l
  induction l with
  | nil => intro st st' h; simpa [memberLoop, memberLoopNoFind, OptionRel] using h
  | cons y rest ih =>
    intro st st' hrel
    unfold memberLoop memberLoopNoFind
    cases hrow : particlesMC.rawIteratorAt (y - particlesMC.offset) with
    | none => simp [OptionRel]
    | some yrow =>
      simp only []
      have hrel1 : WalkRel particlesMC { st with trace := st.trace ++ [Access.member y] }
          { st' with trace := st'.trace ++ [Access.member y] } := hrel
      have hpush : ∀ (s s' : WalkState), WalkRel particlesMC s s' →
          WalkRel particlesMC { s with arrayIds := s.arrayIds ++ [s.arrayIdsStage] }
            { s' with arrayIds := s'.arrayIds ++ [s'.arrayIdsStage] } := by
        rintro s s' ⟨h1, h2, h3, h4⟩
        exact ⟨h1, h2, h3, forall₂_snoc SameMembers _ _ _ _ h4 h2⟩
      by_cases hm : yrow.has_mothers = true
      · simp only [hm, if_true]
        have hml := motherLoop_rel particlesMC yrow.motherRange _ _ hrel1
        cases ha : motherLoop particlesMC yrow.motherRange
            { st with trace := st.trace ++ [Access.member y] } with
        | none =>
          cases hb : motherLoopNoFind particlesMC yrow.motherRange
              { st' with trace := st'.trace ++ [Access.member y] } with
          | none => simp [OptionRel]
          | some s' => rw [ha, hb] at hml; exact absurd hml (by simp [OptionRel])
        | some s =>
          cases hb : motherLoopNoFind particlesMC yrow.motherRange
              { st' with trace := st'.trace ++ [Access.member y] } with
          | none => rw [ha, hb] at hml; exact absurd hml (by simp [OptionRel])
          | some s' =>
            rw [ha, hb] at hml
            simp only []
            exact ih _ _ (hpush s s' hml)
      · simp only [hm, Bool.false_eq_true, if_false]
        exact ih _ _ (hpush _ _ hrel1)

theorem memberLoop_extends (particlesMC : McParticles) :
    ∀ (l : List Int) (st st' : WalkState), memberLoop particlesMC l st = some st' →
      ∃ ext, st'.arrayIds = st.arrayIds ++ ext ∧ ext.length = l.length := by
  intro l
  induction l with
  | nil =>
    intro st st' h
    simp only [memberLoop, Option.some.injEq] at h
    subst h
    exact ⟨[], by simp, rfl⟩
  | cons y rest ih =>
    intro st st' h
    rw [memberLoop_cons_bind] at h
    cases h1 : memberLoop particlesMC [y] st with
    | none => simp [h1] at h
    | some s =>
      rw [h1] at h
      have hlen := memberLoop_length particlesMC [y] st s h1
      have hone : ∃ ext1, s.arrayIds = st.arrayIds ++ ext1 ∧ ext1.length = 1 := by
        unfold memberLoop at h1
        cases hrow : particlesMC.rawIteratorAt (y - particlesMC.offset) with
        | none => simp [hrow] at h1
        | some yrow =>
          simp only [hrow] at h1
          by_cases hm : yrow.has_mothers = true
          · simp only [hm, if_true] at h1
            cases hml : motherLoop particlesMC yrow.motherRange
                { st with trace := st.trace ++ [Access.member y] } with
            | none => simp [hml] at h1
            | some s2 =>
              simp only [hml, memberLoop, Option.some.injEq] at h1
              have harr := motherLoop_arrayIds particlesMC _ _ s2 hml
              subst h1
              exact ⟨[s2.arrayIdsStage], by simp [harr], rfl⟩
          · simp only [hm, Bool.false_eq_true, if_false, memberLoop, Option.some.injEq] at h1
            subst h1
            exact ⟨[st.arrayIdsStage], rfl, rfl⟩
      obtain ⟨ext1, he1, hl1⟩ := hone
      obtain ⟨ext2, he2, hl2⟩ := ih s st' h
      exact ⟨ext1 ++ ext2, by rw [he2, he1, List.append_assoc], by simp [hl1, hl2]; omega⟩

theorem memberLoopNoFind_extends (particlesMC : McParticles) :
    ∀ (l : List Int) (st st' : WalkState), memberLoopNoFind particlesMC l st = some st' →
      ∃ ext, st'.arrayIds = st.arrayIds ++ ext := by
  intro l
  induction l with
  | nil =>
    intro st st' h
    simp only [memberLoopNoFind, Option.some.injEq] at h
    subst h
    exact ⟨[], by simp⟩
  | cons y rest ih =>
    intro st st' h
    have hinner : ∀ (r : List Int) (s s2 : WalkState),
        motherLoopNoFind particlesMC r s = some s2 → s2.arrayIds = s.arrayIds := by
      intro r
      induction r with
      | nil =>
        intro s s2 hr
        simp only [motherLoopNoFind, Option.some.injEq] at hr
        subst hr
        rfl
      | cons i r ihr =>
        intro s s2 hr
        unfold motherLoopNoFind at hr
        cases hrow : particlesMC.rawIteratorAt (i - particlesMC.offset) with
        | none => simp [hrow] at hr
        | some row =>
          simp only [hrow] at hr
          by_cases hs : isStrangePDG row.pdgCode = true
          · simp only [hs, if_true, Option.some.injEq] at hr
            subst hr
            rfl
          · have hs' : isStrangePDG row.pdgCode = false := by simpa using hs
            simp only [hs', Bool.false_eq_true, if_false] at hr
            have h2 := ihr _ s2 hr
            exact h2
    unfold memberLoopNoFind at h
    cases hrow : particlesMC.rawIteratorAt (y - particlesMC.offset) with
    | none => simp [hrow] at h
    | some yrow =>
      simp only [hrow] at h
      by_cases hm : yrow.has_mothers = true
      · simp only [hm, if_true] at h
        cases hml : motherLoopNoFind particlesMC yrow.motherRange
            { st with trace := st.trace ++ [Access.member y] } with
        | none => simp [hml] at h
        | some s2 =>
          simp only [hml] at h
          obtain ⟨ext, he⟩ := ih _ st' h
          have harr := hinner _ _ s2 hml
          exact ⟨[s2.arrayIdsStage] ++ ext, by
            rw [he]
            show (s2.arrayIds ++ [s2.arrayIdsStage]) ++ ext = _
            rw [harr, List.append_assoc]⟩
      · simp only [hm, Bool.false_eq_true, if_false] at h
        obtain ⟨ext, he⟩ := ih _ st' h
        exact ⟨[st.arrayIdsStage] ++ ext, by
          rw [he]
          show (st.arrayIds ++ [st.arrayIdsStage]) ++ ext = _
          rw [List.append_assoc]⟩

theorem motherRange_of_no_mothers (row : McParticle) (h : row.has_mothers = false) :
    row.motherRange = [] := by
  cases row with
  | mk pdgCode mothersIds mcCollisionId isPhysicalPrimary pt =>
    cases mothersIds with
    | nil => rfl
    | cons a rest => simp [McParticle.has_mothers] at h

theorem stageOutcome_cons (particlesMC : McParticles) (y : Int) (rest : List Int) :
    stageOutcome particlesMC (y :: rest)
      = match memberOutcome particlesMC y with
        | none => none
        | some b => (stageOutcome particlesMC rest).map (fun b' => b || b') := by
  unfold stageOutcome
  simp only [List.all_cons, List.any_cons]
  cases hm : memberOutcome particlesMC y with
  | none => simp
  | some b =>
    cases b <;>
    by_cases hall : (rest.all fun y => (memberOutcome particlesMC y).isSome) = true <;>
    simp [hall]

/-- The outcome of a stage depends on which indices are members, not on their order
or multiplicity. -/
theorem stageOutcome_congr (particlesMC : McParticles) (current current' : List Int)
    (h : SameMembers current current') :
    stageOutcome particlesMC current = stageOutcome particlesMC current' := by
  have hall : ∀ f : Int → Bool, current.all f = current'.all f := by
    intro f
    rw [Bool.eq_iff_iff, List.all_eq_true, List.all_eq_true]
    exact ⟨fun hx x hm => hx x ((h x).mpr hm), fun hx x hm => hx x ((h x).mp hm)⟩
  have hany : ∀ f : Int → Bool, current.any f = current'.any f := by
    intro f
    rw [Bool.eq_iff_iff, List.any_eq_true, List.any_eq_true]
    exact ⟨fun ⟨x, hm, hx⟩ => ⟨x, (h x).mp hm, hx⟩, fun ⟨x, hm, hx⟩ => ⟨x, (h x).mpr hm, hx⟩⟩
  unfold stageOutcome
  rw [hall, hany]

theorem motherLoopNoFind_scan (particlesMC : McParticles) :
    ∀ (l : List Int) (st : WalkState),
      OptionRel (fun (st2 : WalkState) (b : Bool) =>
          st2.strangeness = if b = true then 1 else st.strangeness)
        (motherLoopNoFind particlesMC l st) (scanRange particlesMC l) := by
  intro l
  induction l with
  | nil => intro st; simp [motherLoopNoFind, scanRange, OptionRel]
  | cons i rest ih =>
    intro st
    unfold motherLoopNoFind scanRange
    cases hrow : particlesMC.rawIteratorAt (i - particlesMC.offset) with
    | none => simp [OptionRel]
    | some row =>
      simp only []
      by_cases hs : isStrangePDG row.pdgCode = true
      · simp [hs, OptionRel]
      · have hs' : isStrangePDG row.pdgCode = false := by simpa using hs
        simp only [hs', Bool.false_eq_true, if_false]
        exact ih _

/-- Without the duplicate check, whether the loop over a stage returns, and the flag
it leaves, are given by the outcome of the stage. -/
theorem memberLoopNoFind_outcome (particlesMC : McParticles) :
    ∀ (l : List Int) (st : WalkState),
      OptionRel (fun (st1 : WalkState) (b : Bool) =>
          st1.strangeness = if b = true then 1 else st.strangeness)
        (memberLoopNoFind particlesMC l st) (stageOutcome particlesMC l) := by
  intro l
  induction l with
  | nil => intro st; simp [memberLoopNoFind, stageOutcome, OptionRel]
  | cons y rest ih =>
    intro st
    rw [stageOutcome_cons]
    unfold memberLoopNoFind memberOutcome
    cases hrow : particlesMC.rawIteratorAt (y - particlesMC.offset) with
    | none => simp [OptionRel]
    | some yrow =>
      simp only []
      have key : ∀ (o : Option WalkState),
          OptionRel (fun (st2 : WalkState) (b : Bool) =>
            st2.strangeness = if b = true then 1 else st.strangeness) o
            (scanRange particlesMC yrow.motherRange) →
          OptionRel (fun (st1 : WalkState) (b : Bool) =>
            st1.strangeness = if b = true then 1 else st.strangeness)
            (match o with
              | none => none
              | some st2 => memberLoopNoFind particlesMC rest
                  { st2 with arrayIds := st2.arrayIds ++ [st2.arrayIdsStage] })
            (match scanRange particlesMC yrow.motherRange with
              | none => none
              | some b => (stageOutcome particlesMC rest).map (fun b' => b || b')) := by
        intro o ho
        cases o with
        | none =>
          cases hsc : scanRange particlesMC yrow.motherRange with
          | none => simp [OptionRel]
          | some b => rw [hsc] at ho; exact absurd ho (by simp [OptionRel])
        | some st2 =>
          cases hsc : scanRange particlesMC yrow.motherRange with
          | none => rw [hsc] at ho; exact absurd ho (by simp [OptionRel])
          | some b =>
            rw [hsc] at ho
            simp only [OptionRel] at ho
            simp only []
            have hrest := ih { st2 with arrayIds := st2.arrayIds ++ [st2.arrayIdsStage] }
            cases ha : memberLoopNoFind particlesMC rest
                { st2 with arrayIds := st2.arrayIds ++ [st2.arrayIdsStage] } with
            | none =>
              cases hb : stageOutcome particlesMC rest with
              | none => simp [OptionRel]
              | some b' => rw [ha, hb] at hrest; exact absurd hrest (by simp [OptionRel])
            | some st1 =>
              cases hb : stageOutcome particlesMC rest with
              | none => rw [ha, hb] at hrest; exact absurd hrest (by simp [OptionRel])
              | some b' =>
                rw [ha, hb] at hrest
                simp only [OptionRel] at hrest
                simp only [Option.map_some', OptionRel]
                rw [hrest]
                show (if b' = true then (1 : Int) else st2.strangeness) = _
                rw [ho]
                cases b <;> cases b' <;> simp
      by_cases hm : yrow.has_mothers = true
      · simp only [hm, if_true]
        exact key _ (motherLoopNoFind_scan particlesMC yrow.motherRange _)
      · have hm' : yrow.has_mothers = false := by simpa using hm
        simp only [hm', Bool.false_eq_true, if_false]
        have hscan := motherRange_of_no_mothers yrow hm'
        refine key (some { st with trace := st.trace ++ [Access.member y] }) ?_
        rw [hscan]
        simp [scanRange, OptionRel]

theorem optionRel_map {α β γ : Type} (f : α → γ) (g : β → γ) (o : Option α) (o' : Option β)
    (h : OptionRel (fun a b => f a = g b) o o') : o.map f = o'.map g := by
  cases o <;> cases o' <;> simp_all [OptionRel]

/-- In the last stage the two walks may run on lists that differ in order and
multiplicity; whether they return and the flag they return are the same. -/
theorem whileLoop_one_eq_noFind (particlesMC : McParticles) (st st' : WalkState)
    (hstr : st.strangeness = st'.strangeness)
    (hids : List.Forall₂ SameMembers st.arrayIds st'.arrayIds) :
    (whileLoop particlesMC 1 st).map (fun r => r.strangeness)
      = (whileLoopNoFind particlesMC 1 st').map (fun r => r.strangeness) := by
  rw [whileLoop_succ, whileLoopNoFind_succ]
  have hget := forall₂_get? SameMembers _ _ hids (4 - (0 + 1))
  cases hc : st.arrayIds.get? (4 - (0 + 1)) with
  | none =>
    cases hc' : st'.arrayIds.get? (4 - (0 + 1)) with
    | none => rfl
    | some c' => rw [hc, hc'] at hget; exact absurd hget (by simp [OptionRel])
  | some cur =>
    cases hc' : st'.arrayIds.get? (4 - (0 + 1)) with
    | none => rw [hc, hc'] at hget; exact absurd hget (by simp [OptionRel])
    | some cur' =>
      rw [hc, hc'] at hget
      simp only [OptionRel] at hget
      simp only []
      have hlen : cur.length > 0 ↔ cur'.length > 0 := by
        show 0 < cur.length ↔ 0 < cur'.length
        rw [List.length_pos_iff_exists_mem, List.length_pos_iff_exists_mem]
        exact ⟨fun ⟨x, hx⟩ => ⟨x, (hget x).mp hx⟩, fun ⟨x, hx⟩ => ⟨x, (hget x).mpr hx⟩⟩
      by_cases hcond : cur.length > 0 ∧ st.strangeness = 0
      · have hcond' : cur'.length > 0 ∧ st'.strangeness = 0 :=
          ⟨hlen.mp hcond.1, hstr ▸ hcond.2⟩
        rw [if_pos hcond, if_pos hcond']
        have hAB := memberLoop_rel particlesMC cur { st with arrayIdsStage := [] }
          { st with arrayIdsStage := [] }
          ⟨rfl, sameMembers_refl _, (by intro x hx; simp at hx), forall₂_sameMembers_refl _⟩
        have hB := memberLoopNoFind_outcome particlesMC cur { st with arrayIdsStage := [] }
        have hC := memberLoopNoFind_outcome particlesMC cur' { st' with arrayIdsStage := [] }
        rw [← stageOutcome_congr particlesMC cur cur' hget] at hC
        have hs0 : st.strangeness = 0 := hcond.2
        have hs0' : st'.strangeness = 0 := hcond'.2
        cases hA : memberLoop particlesMC cur { st with arrayIdsStage := [] } <;>
        cases hBv : memberLoopNoFind particlesMC cur { st with arrayIdsStage := [] } <;>
        cases hCv : memberLoopNoFind particlesMC cur' { st' with arrayIdsStage := [] } <;>
        cases hO : stageOutcome particlesMC cur
        all_goals rw [hA, hBv] at hAB
        all_goals rw [hBv, hO] at hB
        all_goals rw [hCv, hO] at hC
        all_goals simp only [OptionRel] at hAB hB hC
        simp only [whileLoop, whileLoopNoFind, Option.map_some', Option.some.injEq]
        simp only [hs0] at hB
        simp only [hs0'] at hC
        rw [hAB.1, hB, hC]
      · have hcond' : ¬ (cur'.length > 0 ∧ st'.strangeness = 0) := by
          rw [← hstr, ← hlen]; exact hcond
        rw [if_neg hcond, if_neg hcond']
        simp [hstr]

theorem whileLoop_two_eq_noFind (particlesMC : McParticles) (st st' : WalkState)
    (hstr : st.strangeness = st'.strangeness)
    (hids : List.Forall₂ SameMembers st.arrayIds st'.arrayIds)
    (h2 : st.arrayIds.get? 2 = st'.arrayIds.get? 2) :
    (whileLoop particlesMC 2 st).map (fun r => r.strangeness)
      = (whileLoopNoFind particlesMC 2 st').map (fun r => r.strangeness) := by
  rw [whileLoop_succ, whileLoopNoFind_succ]
  have e : 4 - (1 + 1) = 2 := rfl
  rw [e, ← h2]
  cases hc : st.arrayIds.get? 2 with
  | none => rfl
  | some cur =>
    simp only []
    by_cases hcond : cur.length > 0 ∧ st.strangeness = 0
    · have hcond' : cur.length > 0 ∧ st'.strangeness = 0 := ⟨hcond.1, hstr ▸ hcond.2⟩
      rw [if_pos hcond, if_pos hcond']
      have hrel := memberLoop_rel particlesMC cur { st with arrayIdsStage := [] }
        { st' with arrayIdsStage := [] }
        ⟨hstr, sameMembers_refl _, (by intro x hx; simp at hx), hids⟩
      cases hA : memberLoop particlesMC cur { st with arrayIdsStage := [] } with
      | none =>
        cases hB : memberLoopNoFind particlesMC cur { st' with arrayIdsStage := [] } with
        | none => rfl
        | some b => rw [hA, hB] at hrel; exact absurd hrel (by simp [OptionRel])
      | some a =>
        cases hB : memberLoopNoFind particlesMC cur { st' with arrayIdsStage := [] } with
        | none => rw [hA, hB] at hrel; exact absurd hrel (by simp [OptionRel])
        | some b =>
          rw [hA, hB] at hrel
          simp only [OptionRel] at hrel
          simp only []
          exact whileLoop_one_eq_noFind particlesMC a b hrel.1 hrel.2.2.2
    · have hcond' : ¬ (cur.length > 0 ∧ st'.strangeness = 0) := by
        rw [← hstr]; exact hcond
      rw [if_neg hcond, if_neg hcond']
      simp [hstr]

theorem whileLoop_three_eq_noFind (particlesMC : McParticles) (st : WalkState)
    (hlen : st.arrayIds.length = 2) :
    (whileLoop particlesMC 3 st).map (fun r => r.strangeness)
      = (whileLoopNoFind particlesMC 3 st).map (fun r => r.strangeness) := by
  rw [whileLoop_succ, whileLoopNoFind_succ]
  cases hc : st.arrayIds.get? (4 - (2 + 1)) with
  | none => rfl
  | some cur =>
    simp only []
    by_cases hcond : cur.length > 0 ∧ st.strangeness = 0
    · rw [if_pos hcond, if_pos hcond]
      cases cur with
      | nil => simp at hcond
      | cons y rest =>
        have hsingle := memberLoop_single_eq_noFind particlesMC y
          { st with arrayIdsStage := [] } rfl
        rw [memberLoop_cons_bind, memberLoopNoFind_cons_bind, ← hsingle]
        have hrel1 := memberLoop_rel particlesMC [y] { st with arrayIdsStage := [] }
          { st with arrayIdsStage := [] }
          ⟨rfl, sameMembers_refl _, (by intro x hx; simp at hx), forall₂_sameMembers_refl _⟩
        rw [← hsingle] at hrel1
        cases h1 : memberLoop particlesMC [y] { st with arrayIdsStage := [] } with
        | none => rfl
        | some st2 =>
          rw [h1] at hrel1
          simp only [OptionRel] at hrel1
          simp only [Option.some_bind]
          obtain ⟨ext1, he1, hl1⟩ := memberLoop_extends particlesMC [y] _ st2 h1
          have hlen2 : 2 < st2.arrayIds.length := by
            rw [he1]
            simp only [List.length_append, hl1, List.length_singleton]
            show 2 < st.arrayIds.length + 1
            omega
          have hrel := memberLoop_rel particlesMC rest st2 st2 hrel1
          cases hA : memberLoop particlesMC rest st2 with
          | none =>
            cases hB : memberLoopNoFind particlesMC rest st2 with
            | none => rfl
            | some b => rw [hA, hB] at hrel; exact absurd hrel (by simp [OptionRel])
          | some a =>
            cases hB : memberLoopNoFind particlesMC rest st2 with
            | none => rw [hA, hB] at hrel; exact absurd hrel (by simp [OptionRel])
            | some b =>
              rw [hA, hB] at hrel
              simp only [OptionRel] at hrel
              simp only []
              obtain ⟨e, he, _⟩ := memberLoop_extends particlesMC rest st2 a hA
              obtain ⟨e', he'⟩ := memberLoopNoFind_extends particlesMC rest st2 b hB
              have h2 : a.arrayIds.get? 2 = b.arrayIds.get? 2 := by
                rw [he, he', List.get?_eq_getElem?, List.get?_eq_getElem?,
                  List.getElem?_append_left hlen2, List.getElem?_append_left hlen2]
              exact whileLoop_two_eq_noFind particlesMC a b hrel.1 hrel.2.2.2 h2
    · rw [if_neg hcond, if_neg hcond]

/-- The walk and the walk without the duplicate check return for the same inputs, and
return the same flag. -/
theorem whileLoop_four_eq_noFind (particlesMC : McParticles) (particle : Int)
    (st : WalkState) (harr : st.arrayIds = [[particle]]) (hs : st.strangeness = 0) :
    (whileLoop particlesMC 4 st).map (fun r => r.strangeness)
      = (whileLoopNoFind particlesMC 4 st).map (fun r => r.strangeness) := by
  rw [whileLoop_succ, whileLoopNoFind_succ]
  have hget : st.arrayIds.get? (4 - (3 + 1)) = some [particle] := by rw [harr]; rfl
  have hcond : ([particle] : List Int).length > 0 ∧ st.strangeness = 0 := ⟨by simp, hs⟩
  rw [hget]
  simp only []
  rw [if_pos hcond, if_pos hcond]
  have hsingle := memberLoop_single_eq_noFind particlesMC particle
    { st with arrayIdsStage := [] } rfl
  rw [← hsingle]
  cases h1 : memberLoop particlesMC [particle] { st with arrayIdsStage := [] } with
  | none => rfl
  | some st1 =>
    simp only []
    have hlen := memberLoop_length particlesMC [particle] _ st1 h1
    exact whileLoop_three_eq_noFind particlesMC st1 (by rw [hlen]; simp [harr])

theorem isFromStrangeDecay_eq_noFind (particlesMC : McParticles) (particle : Int) :
    isFromStrangeDecay particlesMC particle = isFromStrangeDecayNoFind particlesMC particle :=
  whileLoop_four_eq_noFind particlesMC particle _ rfl rfl

/-- Claim C28: the duplicate check does not change what `isFromStrangeDecay`
returns. For every table and starting index, the function and the variant without
the `std::find` test (every mother index looked up, tested and appended each time it
is met) either both fail on an index outside the table or both return the same value;
on a table whose mother indices are rows of the table, started from a row, both
return, and return the same value. -/
theorem C28_duplicate_check_keeps_result (particlesMC : McParticles) (particle : Int) :
    isFromStrangeDecay particlesMC particle = isFromStrangeDecayNoFind particlesMC particle
      ∧ (particlesMC.mothersInBounds = true → particlesMC.inBounds particle = true →
          ∃ v, isFromStrangeDecay particlesMC particle = some v
            ∧ isFromStrangeDecayNoFind particlesMC particle = some v) := by
  have heq := isFromStrangeDecay_eq_noFind particlesMC particle
  refine ⟨heq, ?_⟩
  intro hwf hp
  obtain ⟨r, hr, _⟩ := isFromStrangeDecayRun_some particlesMC particle hwf hp
  have hv : isFromStrangeDecay particlesMC particle = some r.strangeness := by
    simp [isFromStrangeDecay, hr]
  exact ⟨r.strangeness, hv, heq ▸ hv⟩

/-- Witness of C28: from the pion of `sharedLambdaEvent`, whose two mothers share the
Lambda as mother, both walks return the same value. -/
theorem C28_duplicate_check_keeps_result_witness :
    sharedLambdaEvent.mothersInBounds = true ∧ sharedLambdaEvent.inBounds 3 = true
      ∧ isFromStrangeDecay sharedLambdaEvent 3 = isFromStrangeDecayNoFind sharedLambdaEvent 3
      ∧ ∃ v, isFromStrangeDecay sharedLambdaEvent 3 = some v
          ∧ isFromStrangeDecayNoFind sharedLambdaEvent 3 = some v :=
  ⟨by decide, by decide, (C28_duplicate_check_keeps_result sharedLambdaEvent 3).1,
    (C28_duplicate_check_keeps_result sharedLambdaEvent 3).2 (by decide) (by decide)⟩

/-! ## The species code of the starting particle -/

theorem nonStrangeChain_mem_generation (particlesMC : McParticles) (particle : Int) :
    ∀ (n : Nat) (x : Int), NonStrangeChain particlesMC particle n x →
      x ∈ ancestorGeneration particlesMC particle n := by
  intro n
  induction n with
  | zero =>
    intro x h
    have hx : x = particle := h
    simp [ancestorGeneration, hx]
  | succ n ih =>
    intro x h
    obtain ⟨y, yrow, xrow, hch, hy, hx, _, _⟩ := h
    simp only [ancestorGeneration, List.mem_flatMap]
    exact ⟨y, ih y hch, by simp [specMothers, hy, hx]⟩

/-- When `particle` is not its own ancestor, it is in no mother range that the walk
can reach. -/
theorem mother_ne_of_notOwnAncestor (particlesMC : McParticles) (particle : Int)
    (hfree : notOwnAncestor particlesMC particle = true) (n : Nat) (hn : n ≤ 3)
    (y : Int) (yrow : McParticle) (hch : NonStrangeChain particlesMC particle n y)
    (hy : particlesMC.rawIteratorAt (y - particlesMC.offset) = some yrow) :
    ∀ i ∈ yrow.motherRange, i ≠ particle := by
  intro i hi hip
  subst hip
  have hmem : i ∈ ancestorGeneration particlesMC i (n + 1) := by
    simp only [ancestorGeneration, List.mem_flatMap]
    exact ⟨y, nonStrangeChain_mem_generation particlesMC i n y hch, by simp [specMothers, hy, hi]⟩
  unfold notOwnAncestor at hfree
  rw [List.all_eq_true] at hfree
  have hg : n + 1 ∈ [1, 2, 3, 4] := by
    simp only [List.mem_cons, List.mem_singleton]
    omega
  have := hfree (n + 1) hg
  simp only [decide_eq_true_eq] at this
  exact this hmem

theorem rawIteratorAt_withPdgCode (particlesMC : McParticles) (particle pdgCode i : Int) :
    (particlesMC.withPdgCode particle pdgCode).rawIteratorAt (i - particlesMC.offset)
      = (particlesMC.rawIteratorAt (i - particlesMC.offset)).map
          (fun row => if i = particle then { row with pdgCode := pdgCode } else row) := by
  unfold McParticles.rawIteratorAt McParticles.withPdgCode
  by_cases h0 : 0 ≤ i - particlesMC.offset
  · simp only [h0, if_true, List.get?_eq_getElem?, List.getElem?_map, List.getElem?_enum]
    cases hrow : particlesMC.rows[(i - particlesMC.offset).toNat]? with
    | none => rfl
    | some row =>
      have e : (particlesMC.offset + Int.ofNat (i - particlesMC.offset).toNat = particle)
          ↔ i = particle := by
        simp only [Int.ofNat_eq_coe]
        omega
      simp only [Option.map_some', e]
  · simp [h0]

theorem motherLoop_withPdgCode (particlesMC : McParticles) (particle pdgCode : Int) :
    ∀ (l : List Int) (st : WalkState), (∀ i ∈ l, i ≠ particle) →
      motherLoop (particlesMC.withPdgCode particle pdgCode) l st
        = motherLoop particlesMC l st := by
  intro l
  induction l with
  | nil => intro st _; rfl
  | cons i rest ih =>
    intro st hl
    have hrest : ∀ j ∈ rest, j ≠ particle := fun j hj => hl j (List.mem_cons_of_mem _ hj)
    have hi : i ≠ particle := hl i (List.mem_cons_self _ _)
    have hlook : (particlesMC.withPdgCode particle pdgCode).rawIteratorAt
        (i - (particlesMC.withPdgCode particle pdgCode).offset)
        = particlesMC.rawIteratorAt (i - particlesMC.offset) := by
      have := rawIteratorAt_withPdgCode particlesMC particle pdgCode i
      simp only [hi, if_false, Option.map_id'] at this
      exact this
    unfold motherLoop
    rw [hlook]
    by_cases hin : i ∈ st.arrayIdsStage
    · simp only [hin, if_true]
      exact ih st hrest
    · simp only [hin, if_false]
      cases hrow : particlesMC.rawIteratorAt (i - particlesMC.offset) with
      | none => rfl
      | some row =>
        simp only []
        by_cases hs : isStrangePDG row.pdgCode = true
        · simp only [hs, if_true]
        · simp only [hs, if_false]
          exact ih _ hrest

theorem memberLoop_withPdgCode (particlesMC : McParticles) (particle pdgCode : Int) :
    ∀ (l : List Int) (st : WalkState),
      (∀ y ∈ l, ∀ yrow, particlesMC.rawIteratorAt (y - particlesMC.offset) = some yrow →
        ∀ i ∈ yrow.motherRange, i ≠ particle) →
      memberLoop (particlesMC.withPdgCode particle pdgCode) l st
        = memberLoop particlesMC l st := by
  intro l
  induction l with
  | nil => intro st _; rfl
  | cons y rest ih =>
    intro st hl
    have hrest : ∀ j ∈ rest, ∀ yrow,
        particlesMC.rawIteratorAt (j - particlesMC.offset) = some yrow →
        ∀ i ∈ yrow.motherRange, i ≠ particle :=
      fun j hj => hl j (List.mem_cons_of_mem _ hj)
    have hy := hl y (List.mem_cons_self _ _)
    have hlook := rawIteratorAt_withPdgCode particlesMC particle pdgCode y
    have hoff : (particlesMC.withPdgCode particle pdgCode).offset = particlesMC.offset := rfl
    unfold memberLoop
    rw [hoff, hlook]
    cases hrow : particlesMC.rawIteratorAt (y - particlesMC.offset) with
    | none => rfl
    | some yrow =>
      have hne : ∀ i ∈ yrow.motherRange, i ≠ particle := hy yrow hrow
      have hml : ∀ s, motherLoop (particlesMC.withPdgCode particle pdgCode) yrow.motherRange s
          = motherLoop particlesMC yrow.motherRange s :=
        fun s => motherLoop_withPdgCode particlesMC particle pdgCode _ s hne
      have hhas : (if y = particle then { yrow with pdgCode := pdgCode } else yrow).has_mothers
          = yrow.has_mothers := by split <;> rfl
      have hrange : (if y = particle then { yrow with pdgCode := pdgCode } else yrow).motherRange
          = yrow.motherRange := by split <;> rfl
      simp only [Option.map_some', hhas, hrange, hml]
      generalize (if yrow.has_mothers = true then
          motherLoop particlesMC yrow.motherRange
            { st with trace := st.trace ++ [Access.member y] }
          else some { st with trace := st.trace ++ [Access.member y] }) = o
      cases o with
      | none => rfl
      | some st2 => exact ih _ hrest

theorem whileLoop_withPdgCode (particlesMC : McParticles) (particle pdgCode : Int)
    (hfree : notOwnAncestor particlesMC particle = true) :
    ∀ (todo : Nat) (st : WalkState), todo ≤ 4 →
      (∀ j L, st.arrayIds.get? j = some L →
        ∀ x ∈ L, ∃ n, n ≤ j ∧ NonStrangeChain particlesMC particle n x) →
      whileLoop (particlesMC.withPdgCode particle pdgCode) todo st
        = whileLoop particlesMC todo st := by
  intro todo
  induction todo with
  | zero => intro st _ _; rfl
  | succ todo ih =>
    intro st htodo hids
    rw [whileLoop_succ, whileLoop_succ]
    cases hcur : st.arrayIds.get? (4 - (todo + 1)) with
    | none => rfl
    | some current =>
      simp only []
      have hmembers : ∀ y ∈ current, ∃ n, n ≤ 4 - (todo + 1)
          ∧ NonStrangeChain particlesMC particle n y := fun y hy => hids _ current hcur y hy
      rw [memberLoop_withPdgCode particlesMC particle pdgCode current _ (by
        intro y hy yrow hyrow
        obtain ⟨n, hn, hch⟩ := hmembers y hy
        exact mother_ne_of_notOwnAncestor particlesMC particle hfree n (by omega) y yrow hch
          hyrow)]
      by_cases hc : current.length > 0 ∧ st.strangeness = 0
      · rw [if_pos hc, if_pos hc]
        cases hml : memberLoop particlesMC current { st with arrayIdsStage := [] } with
        | none => rfl
        | some st1 =>
          simp only []
          have hlen : 4 - (todo + 1) < st.arrayIds.length := by
            rw [List.get?_eq_getElem?] at hcur
            exact (List.getElem?_eq_some_iff.mp hcur).1
          have hst : SoundAt particlesMC particle (4 - (todo + 1))
              { st with arrayIdsStage := [] } :=
            ⟨hids, by intro x hx; simp at hx, by
              show 4 - (todo + 1) + 1 ≤ st.arrayIds.length
              omega, fun h0 => absurd hc.2 h0⟩
          exact ih st1 (by omega) (memberLoop_soundAt particlesMC particle (4 - (todo + 1))
            (by omega) current _ st1 hmembers hst hml).1
      · rw [if_neg hc, if_neg hc]

theorem whileLoop_zero_or_one (particlesMC : McParticles) (todo : Nat) (st : WalkState)
    (r : WalkResult) (hinv : st.strangeness = 0 ∨ st.strangeness = 1)
    (h : whileLoop particlesMC todo st = some r) : r.strangeness = 0 ∨ r.strangeness = 1 := by
  obtain ⟨_, hres⟩ := whileLoop_inv particlesMC
    (fun s => s.strangeness = 0 ∨ s.strangeness = 1)
    (fun _ _ _ _ _ _ _ => Or.inr rfl) (fun _ _ _ hs _ _ _ => hs) (fun _ _ _ hs _ => hs)
    (fun _ hs => hs) (fun _ hs => hs) todo st r hinv h
  exact hres

theorem mothersPrecede_row (particlesMC : McParticles)
    (hord : particlesMC.mothersPrecedeDaughters = true) (i : Int) (row : McParticle)
    (h : particlesMC.rawIteratorAt (i - particlesMC.offset) = some row) :
    ∀ m ∈ row.motherRange, m < i := by
  unfold McParticles.mothersPrecedeDaughters at hord
  rw [List.all_eq_true] at hord
  unfold McParticles.rawIteratorAt at h
  split at h
  · rename_i h0
    have hmem : ((i - particlesMC.offset).toNat, row) ∈ particlesMC.rows.enum :=
      List.mk_mem_enum_iff_getElem?.mpr (by rw [← List.get?_eq_getElem?]; exact h)
    have := hord _ hmem
    rw [List.all_eq_true] at this
    intro m hm
    have hlt := this m hm
    simp only [decide_eq_true_eq, Int.ofNat_eq_coe] at hlt
    omega
  · cases h

/-- With mothers before daughters, every ancestor of generation `g + 1` has a smaller
index than `particle`. -/
theorem ancestorGeneration_lt (particlesMC : McParticles)
    (hord : particlesMC.mothersPrecedeDaughters = true) (particle : Int) :
    ∀ (g : Nat), ∀ x ∈ ancestorGeneration particlesMC particle (g + 1), x < particle := by
  intro g
  induction g with
  | zero =>
    intro x hx
    simp only [ancestorGeneration, List.flatMap_cons, List.flatMap_nil, List.append_nil] at hx
    unfold specMothers at hx
    cases hrow : particlesMC.rawIteratorAt (particle - particlesMC.offset) with
    | none => simp [hrow] at hx
    | some row =>
      simp only [hrow] at hx
      exact mothersPrecede_row particlesMC hord particle row hrow x hx
  | succ g ih =>
    intro x hx
    have hx' : x ∈ (ancestorGeneration particlesMC particle (g + 1)).flatMap
        (specMothers particlesMC) := hx
    rw [List.mem_flatMap] at hx'
    obtain ⟨y, hy, hxy⟩ := hx'
    have hylt := ih y hy
    unfold specMothers at hxy
    cases hrow : particlesMC.rawIteratorAt (y - particlesMC.offset) with
    | none => simp [hrow] at hxy
    | some row =>
      simp only [hrow] at hxy
      have := mothersPrecede_row particlesMC hord y row hrow x hxy
      omega

/-- With mothers before daughters no particle is among its own ancestors. -/
theorem notOwnAncestor_of_mothersPrecede (particlesMC : McParticles)
    (hord : particlesMC.mothersPrecedeDaughters = true) (particle : Int) :
    notOwnAncestor particlesMC particle = true := by
  unfold notOwnAncestor
  rw [List.all_eq_true]
  intro g hg
  simp only [decide_eq_true_eq]
  intro hmem
  have hpos : ∃ g', g = g' + 1 := by
    simp only [List.mem_cons, List.mem_singleton, List.mem_nil_iff, or_false] at hg
    rcases hg with h | h | h | h
    · exact ⟨0, h⟩
    · exact ⟨1, h⟩
    · exact ⟨2, h⟩
    · exact ⟨3, h⟩
  obtain ⟨g', hg'⟩ := hpos
  subst hg'
  exact lt_irrefl _ (ancestorGeneration_lt particlesMC hord particle g' particle hmem)

/-- Claim C29: `isFromStrangeDecay` returns 0 or 1, and only mothers are tested: in a
collection with mothers before daughters, giving the starting particle any other
species code, its mother range kept, leaves the whole run unchanged, and so the
returned value. The same holds in any collection in which the starting particle is
not among its own ancestors of generations 1 to 4. Whatever the code of the starting
particle, the result is 0 when no chain of 1 to 4 mother links leads from it to a row
with a strange code. -/
theorem C29_start_species_irrelevant (particlesMC : McParticles) (particle pdgCode : Int) :
    (∀ s, isFromStrangeDecay particlesMC particle = some s → s = 0 ∨ s = 1)
      ∧ (particlesMC.mothersPrecedeDaughters = true →
          isFromStrangeDecayRun (particlesMC.withPdgCode particle pdgCode) particle
              = isFromStrangeDecayRun particlesMC particle
            ∧ isFromStrangeDecay (particlesMC.withPdgCode particle pdgCode) particle
              = isFromStrangeDecay particlesMC particle)
      ∧ (notOwnAncestor particlesMC particle = true →
          isFromStrangeDecayRun (particlesMC.withPdgCode particle pdgCode) particle
              = isFromStrangeDecayRun particlesMC particle
            ∧ isFromStrangeDecay (particlesMC.withPdgCode particle pdgCode) particle
              = isFromStrangeDecay particlesMC particle)
      ∧ (∀ s, isFromStrangeDecay particlesMC particle = some s →
          ¬ StrangeAncestorWithin particlesMC particle 4 → s = 0) := by
  have hinit : ∀ j L, ([[particle]] : List (List Int)).get? j = some L →
      ∀ x ∈ L, ∃ n, n ≤ j ∧ NonStrangeChain particlesMC particle n x := by
    intro j L hj x hx
    cases j with
    | zero =>
      simp only [List.get?, Option.some.injEq] at hj
      subst hj
      have hxp : x = particle := by simpa using hx
      exact ⟨0, le_refl _, hxp⟩
    | succ j => simp at hj
  have hgen : notOwnAncestor particlesMC particle = true →
      isFromStrangeDecayRun (particlesMC.withPdgCode particle pdgCode) particle
          = isFromStrangeDecayRun particlesMC particle
        ∧ isFromStrangeDecay (particlesMC.withPdgCode particle pdgCode) particle
          = isFromStrangeDecay particlesMC particle := by
    intro hfree
    have hrun : isFromStrangeDecayRun (particlesMC.withPdgCode particle pdgCode) particle
        = isFromStrangeDecayRun particlesMC particle :=
      whileLoop_withPdgCode particlesMC particle pdgCode hfree 4 _ (le_refl _) hinit
    exact ⟨hrun, by simp only [isFromStrangeDecay, hrun]⟩
  refine ⟨?_, ?_, hgen, ?_⟩
  · intro s hs
    unfold isFromStrangeDecay at hs
    cases hrun : isFromStrangeDecayRun particlesMC particle with
    | none => simp [hrun] at hs
    | some r =>
      simp only [hrun, Option.map_some', Option.some.injEq] at hs
      subst hs
      exact whileLoop_zero_or_one particlesMC 4 _ r (Or.inl rfl) hrun
  · intro hord
    exact hgen (notOwnAncestor_of_mothersPrecede particlesMC hord particle)
  · intro s hs hnone
    unfold isFromStrangeDecay at hs
    cases hrun : isFromStrangeDecayRun particlesMC particle with
    | none => simp [hrun] at hs
    | some r =>
      simp only [hrun, Option.map_some', Option.some.injEq] at hs
      subst hs
      by_contra hne
      exact hnone (whileLoop_sound particlesMC particle 4
        { arrayIds := [[particle]], arrayIdsStage := [], strangeness := 0, trace := [] } r
        (le_refl _) hinit (fun h0 => absurd rfl h0) hrun hne)

/-- Witness of C29: in `kaonEvent`, where mothers precede daughters, the kaon (321)
whose only mother is a proton yields 0, as does the same particle with the code of a
pion. -/
theorem C29_start_species_irrelevant_witness :
    kaonEvent.mothersPrecedeDaughters = true
      ∧ isFromStrangeDecay kaonEvent 1 = some 0
      ∧ isFromStrangeDecay (kaonEvent.withPdgCode 1 211) 1 = isFromStrangeDecay kaonEvent 1 :=
  ⟨by decide, by decide, ((C29_start_species_irrelevant kaonEvent 1 211).2.1 (by decide)).2⟩

end MonitorFilterBit
